import Mathlib

/-!
Verification of the Maze repository (grid/wall model, generation
algorithms and post-processors) against its specification.

The JavaScript source is shallowly embedded: mutable `MazeCell` wall sets
become boolean wall functions, in-place mutation becomes functional
update, `Math.random()` becomes an explicit stream of natural-number
choices (one entry consumed per call, reduced modulo the requested
range), and unbounded `while` loops become fuel-indexed recursion where
the fuel is the loop's own iteration cap when the source has one.
-/

namespace MazeRepo

/-- The four wall directions of `src/model/maze.js` (`"N" | "E" | "S" | "W"`). -/
inductive Dir : Type
  | N
  | E
  | S
  | W
deriving DecidableEq, Repr

/-- The `opposite` map used throughout the algorithms:
`{ N: "S", E: "W", S: "N", W: "E" }`. -/
def Dir.opposite : Dir → Dir
  | .N => .S
  | .E => .W
  | .S => .N
  | .W => .E

/-- The four directions in the iteration order of the JS objects
`{ N, E, S, W }`. -/
def dirList : List Dir := [Dir.N, Dir.E, Dir.S, Dir.W]

/-- A grid coordinate `(x, y)`; `x` is the column, `y` the row. -/
abbrev Pos : Type := Nat × Nat

/-- The coordinate deltas `{ N: [0,-1], E: [1,0], S: [0,1], W: [-1,0] }`
together with the bounds check `nx >= 0 && nx < width && ny >= 0 && ny < height`
that accompanies every neighbour computation in the source.  JS computes the
(possibly negative) neighbour and then bounds-checks it; here the two steps are
fused into one partial move. -/
def movePos (w h : Nat) (p : Pos) : Dir → Option Pos
  | .N => if p.2 = 0 then none else some (p.1, p.2 - 1)
  | .E => if p.1 + 1 < w then some (p.1 + 1, p.2) else none
  | .S => if p.2 + 1 < h then some (p.1, p.2 + 1) else none
  | .W => if p.1 = 0 then none else some (p.1 - 1, p.2)

/-- Bounds test `x >= 0 && x < width && y >= 0 && y < height`. -/
def inBounds (w h : Nat) (p : Pos) : Bool := p.1 < w && p.2 < h

/-- A portal record `{ from: {x,y}, to: {x,y} }` stored in `maze._portals`
by the multi-layer generator (`layerPair` is a display string). -/
structure Portal where
  src : Pos
  dst : Pos
  layerPair : String
deriving DecidableEq, Repr

/-- The maze of `src/model/maze.js`: a `width × height` grid of cells, each
cell a set of wall flags, plus `start`/`finish` and the optional metadata
fields `_portals`, `_layers`, `_widthPerLayer`, `_heightPerLayer`.
The mutable per-cell `Set` of walls is embedded as the boolean function
`walls p d` (`cell.hasWall(d)`); the `cells` array structure is implicit in
the function representation. -/
structure Maze where
  width : Nat
  height : Nat
  start : Pos
  finish : Pos
  walls : Pos → Dir → Bool
  portals : Option (List Portal) := none
  layers : Option Nat := none
  widthPerLayer : Option Nat := none
  heightPerLayer : Option Nat := none

namespace Maze

/-- `cell.hasWall(dir)`. -/
def hasWall (m : Maze) (p : Pos) (d : Dir) : Bool := m.walls p d

/-- Write one wall flag of one cell (the common core of `addWall` /
`removeWall`). -/
def setWall (m : Maze) (p : Pos) (d : Dir) (b : Bool) : Maze :=
  { m with walls := fun q d' => if q = p && d' = d then b else m.walls q d' }

/-- `cell.addWall(dir)` at grid position `p`. -/
def addWall (m : Maze) (p : Pos) (d : Dir) : Maze := m.setWall p d true

/-- `cell.removeWall(dir)` at grid position `p`. -/
def removeWall (m : Maze) (p : Pos) (d : Dir) : Maze := m.setWall p d false

/-- The ubiquitous paired carve
`cellA.removeWall(dir); cellB.removeWall(opposite[dir])`
for the neighbour `q` of `p` in direction `d`. -/
def carve (m : Maze) (p : Pos) (d : Dir) (q : Pos) : Maze :=
  (m.removeWall p d).removeWall q d.opposite

/-- The paired wall re-insertion
`cellA.addWall(dir); cellB.addWall(opposite[dir])` used by
`ensureSinglePath` when closing an edge. -/
def closeEdge (m : Maze) (p : Pos) (d : Dir) (q : Pos) : Maze :=
  (m.addWall p d).addWall q d.opposite

/-- `maze.getCell(x, y)`: `null` out of bounds, the cell otherwise. -/
def getCell (m : Maze) (p : Pos) : Option (Dir → Bool) :=
  if inBounds m.width m.height p then some (m.walls p) else none

/-- Number of open sides of the cell at `p`:
`['N','E','S','W'].filter(d => !cell.hasWall(d)).length`. -/
def openCount (m : Maze) (p : Pos) : Nat :=
  (dirList.filter (fun d => !(m.walls p d))).length

/-- `_isValidPosition(pos)` of the `Maze` class. -/
def isValidPosition (m : Maze) (p : Pos) : Bool :=
  p.1 < m.width && p.2 < m.height

/-- `maze.isValid()`: dimensions at least `2 × 2`, start/finish in bounds,
and at least one cell with fewer than four walls.  The `cells` array
structure checks of the source hold by construction in this embedding. -/
def isValid (m : Maze) : Bool :=
  2 ≤ m.width && 2 ≤ m.height &&
    m.isValidPosition m.start && m.isValidPosition m.finish &&
    decide (∃ y < m.height, ∃ x < m.width, m.openCount (x, y) ≠ 0)

end Maze

/-- Per-cell contribution of `countConnections`: one for an open east wall
away from the last column, one for an open south wall away from the last
row. -/
def cellConn (m : Maze) (x y : Nat) : Nat :=
  (if x < m.width - 1 && !(m.walls (x, y) .E) then 1 else 0) +
    (if y < m.height - 1 && !(m.walls (x, y) .S) then 1 else 0)

/-- `countConnections(maze)` of `src/utils/mazeUtils.js`: the double loop
accumulating east/south connections, rendered as a double sum. -/
def countConnections (m : Maze) : Nat :=
  ∑ y ∈ Finset.range m.height, ∑ x ∈ Finset.range m.width, cellConn m x y

/-! ### `analyzeDistribution` (src/utils/distributionUtils.js) -/

/-- The four raw counters of `analyzeDistribution`
(`_counts`: cells of degree 1, 2, 3, 4). -/
structure DistCounts where
  deadEnds : Nat
  straight : Nat
  threeWay : Nat
  fourWay : Nat
deriving DecidableEq, Repr

/-- Count the grid cells whose `openCount` equals `k`
(the per-degree counting loop shared by `analyzeDistribution` and
`getCellsOfDegree`). -/
def countOfDegree (m : Maze) (k : Nat) : Nat :=
  ∑ y ∈ Finset.range m.height, ∑ x ∈ Finset.range m.width,
    (if m.openCount (x, y) = k then 1 else 0)

/-- The raw counts accumulated by `analyzeDistribution`. -/
def distCounts (m : Maze) : DistCounts :=
  { deadEnds := countOfDegree m 1
    straight := countOfDegree m 2
    threeWay := countOfDegree m 3
    fourWay := countOfDegree m 4 }

/-- The ratio record returned by `analyzeDistribution` (counts divided by
`totalCells`, as rational numbers). -/
structure Distribution where
  deadEnds : ℚ
  straight : ℚ
  threeWay : ℚ
  fourWay : ℚ
deriving DecidableEq, Repr

/-- `analyzeDistribution(maze)`: per-degree counts over total cells. -/
def analyzeDistribution (m : Maze) : Distribution :=
  let totalCells : ℚ := (m.width * m.height : Nat)
  { deadEnds := (distCounts m).deadEnds / totalCells
    straight := (distCounts m).straight / totalCells
    threeWay := (distCounts m).threeWay / totalCells
    fourWay := (distCounts m).fourWay / totalCells }

theorem openCount_le_four (m : Maze) (p : Pos) : m.openCount p ≤ 4 := by
  have h := List.length_filter_le (fun d => !(m.walls p d)) dirList
  simpa [Maze.openCount, dirList] using h

theorem indicator_partition (n : Nat) (h : n ≤ 4) :
    (if n = 0 then 1 else 0) + (if n = 1 then 1 else 0) + (if n = 2 then 1 else 0) +
      (if n = 3 then 1 else 0) + (if n = 4 then 1 else 0) = 1 := by
  interval_cases n <;> rfl

/-- Every cell falls in exactly one of the degree buckets `0..4`, so the five
per-degree counts partition the grid. -/
theorem countOfDegree_partition (m : Maze) :
    countOfDegree m 0 + countOfDegree m 1 + countOfDegree m 2 + countOfDegree m 3 +
      countOfDegree m 4 = m.width * m.height := by
  unfold countOfDegree
  simp only [← Finset.sum_add_distrib]
  have h1 : ∀ y ∈ Finset.range m.height, ∀ x ∈ Finset.range m.width,
      ((if m.openCount (x, y) = 0 then 1 else 0) + (if m.openCount (x, y) = 1 then 1 else 0) +
        (if m.openCount (x, y) = 2 then 1 else 0) + (if m.openCount (x, y) = 3 then 1 else 0) +
        (if m.openCount (x, y) = 4 then 1 else 0)) = 1 := by
    intro y _ x _
    exact indicator_partition _ (openCount_le_four m (x, y))
  calc (∑ y ∈ Finset.range m.height, ∑ x ∈ Finset.range m.width,
          ((if m.openCount (x, y) = 0 then 1 else 0) +
            (if m.openCount (x, y) = 1 then 1 else 0) +
            (if m.openCount (x, y) = 2 then 1 else 0) +
            (if m.openCount (x, y) = 3 then 1 else 0) +
            (if m.openCount (x, y) = 4 then 1 else 0)))
      = ∑ y ∈ Finset.range m.height, ∑ x ∈ Finset.range m.width, 1 := by
        refine Finset.sum_congr rfl fun y hy => Finset.sum_congr rfl fun x hx => ?_
        exact h1 y hy x hx
    _ = m.width * m.height := by
        simp [Finset.sum_const, Finset.card_range, Nat.mul_comm]

theorem countOfDegree_zero_iff (m : Maze) :
    countOfDegree m 0 = 0 ↔ ∀ y < m.height, ∀ x < m.width, m.openCount (x, y) ≠ 0 := by
  unfold countOfDegree
  rw [Finset.sum_eq_zero_iff]
  constructor
  · intro h y hy x hx
    have hx' := (Finset.sum_eq_zero_iff).mp (h y (Finset.mem_range.mpr hy)) x
      (Finset.mem_range.mpr hx)
    intro hc
    simp [hc] at hx'
  · intro h y hy
    refine Finset.sum_eq_zero fun x hx => ?_
    have := h y (Finset.mem_range.mp hy) x (Finset.mem_range.mp hx)
    simp [this]

/-- C10: `analyzeDistribution` classifies cells only into degrees 1..4; a
fully-walled cell is counted in no bucket, so the four returned ratios sum to
`1` minus the fraction of fully-walled cells; they sum to exactly `1` iff
every cell has at least one open side, and to strictly less than `1` whenever
some cell is fully walled. -/
theorem analyzeDistribution_ratio_sum (m : Maze) (hw : 2 ≤ m.width) (hh : 2 ≤ m.height) :
    (analyzeDistribution m).deadEnds + (analyzeDistribution m).straight +
        (analyzeDistribution m).threeWay + (analyzeDistribution m).fourWay =
      1 - (countOfDegree m 0 : ℚ) / ((m.width * m.height : Nat) : ℚ) ∧
    ((analyzeDistribution m).deadEnds + (analyzeDistribution m).straight +
        (analyzeDistribution m).threeWay + (analyzeDistribution m).fourWay = 1 ↔
      ∀ y < m.height, ∀ x < m.width, m.openCount (x, y) ≠ 0) ∧
    ((∃ y < m.height, ∃ x < m.width, m.openCount (x, y) = 0) →
      (analyzeDistribution m).deadEnds + (analyzeDistribution m).straight +
        (analyzeDistribution m).threeWay + (analyzeDistribution m).fourWay < 1) := by
  have hT0 : 0 < m.width * m.height := by positivity
  have hT : (0 : ℚ) < ((m.width * m.height : Nat) : ℚ) := by exact_mod_cast hT0
  have hTne : ((m.width * m.height : Nat) : ℚ) ≠ 0 := ne_of_gt hT
  have hpart := countOfDegree_partition m
  have hsum : (analyzeDistribution m).deadEnds + (analyzeDistribution m).straight +
      (analyzeDistribution m).threeWay + (analyzeDistribution m).fourWay =
      1 - (countOfDegree m 0 : ℚ) / ((m.width * m.height : Nat) : ℚ) := by
    have h4 : (countOfDegree m 1 + countOfDegree m 2 + countOfDegree m 3 +
        countOfDegree m 4 : ℚ) =
        ((m.width * m.height : Nat) : ℚ) - (countOfDegree m 0 : ℚ) := by
      have : ((countOfDegree m 0 + countOfDegree m 1 + countOfDegree m 2 +
          countOfDegree m 3 + countOfDegree m 4 : Nat) : ℚ) =
          ((m.width * m.height : Nat) : ℚ) := by rw [hpart]
      push_cast at this ⊢
      linarith
    simp only [analyzeDistribution, distCounts]
    field_simp
    push_cast at h4 ⊢
    linarith
  refine ⟨hsum, ?_, ?_⟩
  · rw [hsum]
    constructor
    · intro h
      rw [← countOfDegree_zero_iff]
      have hz : (countOfDegree m 0 : ℚ) / ((m.width * m.height : Nat) : ℚ) = 0 := by
        linarith
      have := (div_eq_zero_iff).mp hz
      rcases this with h0 | h0
      · exact_mod_cast h0
      · exact absurd h0 hTne
    · intro h
      have hz : countOfDegree m 0 = 0 := (countOfDegree_zero_iff m).mpr h
      rw [hz]
      simp
  · intro ⟨y, hy, x, hx, hz⟩
    rw [hsum]
    have hpos : 0 < countOfDegree m 0 := by
      unfold countOfDegree
      refine Finset.sum_pos' (fun i _ => Finset.sum_nonneg fun j _ => by positivity) ?_
      refine ⟨y, Finset.mem_range.mpr hy, ?_⟩
      refine Finset.sum_pos' (fun j _ => by positivity) ⟨x, Finset.mem_range.mpr hx, ?_⟩
      simp [hz]
    have : (0 : ℚ) < (countOfDegree m 0 : ℚ) / ((m.width * m.height : Nat) : ℚ) := by
      apply div_pos _ hT
      exact_mod_cast hpos
    linarith

/-- A `w × h` maze with every wall present (the state every generator starts
from). -/
def fullyWalled (w h : Nat) : Maze :=
  { width := w, height := h, start := (0, 0), finish := (w - 1, h - 1),
    walls := fun _ _ => true }

/-- Witness for C10 at the concrete fully-walled `2 × 2` maze. -/
theorem analyzeDistribution_ratio_sum_witness :
    2 ≤ (fullyWalled 2 2).width ∧ 2 ≤ (fullyWalled 2 2).height ∧
    ((analyzeDistribution (fullyWalled 2 2)).deadEnds +
          (analyzeDistribution (fullyWalled 2 2)).straight +
          (analyzeDistribution (fullyWalled 2 2)).threeWay +
          (analyzeDistribution (fullyWalled 2 2)).fourWay =
        1 - (countOfDegree (fullyWalled 2 2) 0 : ℚ) /
          (((fullyWalled 2 2).width * (fullyWalled 2 2).height : Nat) : ℚ) ∧
      ((analyzeDistribution (fullyWalled 2 2)).deadEnds +
            (analyzeDistribution (fullyWalled 2 2)).straight +
            (analyzeDistribution (fullyWalled 2 2)).threeWay +
            (analyzeDistribution (fullyWalled 2 2)).fourWay = 1 ↔
        ∀ y < (fullyWalled 2 2).height, ∀ x < (fullyWalled 2 2).width,
          (fullyWalled 2 2).openCount (x, y) ≠ 0) ∧
      ((∃ y < (fullyWalled 2 2).height, ∃ x < (fullyWalled 2 2).width,
          (fullyWalled 2 2).openCount (x, y) = 0) →
        (analyzeDistribution (fullyWalled 2 2)).deadEnds +
            (analyzeDistribution (fullyWalled 2 2)).straight +
            (analyzeDistribution (fullyWalled 2 2)).threeWay +
            (analyzeDistribution (fullyWalled 2 2)).fourWay < 1)) :=
  ⟨by decide, by decide, analyzeDistribution_ratio_sum (fullyWalled 2 2) (by decide) (by decide)⟩

/-! ### Random choices

`Math.random()` is embedded as an explicit stream of naturals; the idiom
`Math.floor(Math.random() * n)` consumes one entry and reduces it modulo
`n` (every value in `0..n-1` is realisable by some real in `[0,1)`, and
every real yields such a value). -/

abbrev Rng : Type := List Nat

/-- Draw `Math.floor(Math.random() * n)` from the stream. -/
def randNat (rs : Rng) (n : Nat) : Nat × Rng := (rs.headD 0 % n, rs.tail)

/-! ### Connectivity oracle

`isConnected(maze)` (identical in `src/utils/mazeUtils.js`,
`src/utils/distributionUtils.js` and the sparse-loop generator) is a BFS
from `maze.start` following directions without a wall on the current
cell's side, bounds-checked, counting visited cells and comparing with
`width*height`.  The queue-based search is embedded as an iterated
neighbourhood closure: after `width*height` expansion rounds the closure
contains exactly the BFS-visited set. -/

/-- The in-bounds neighbours reachable from `p` through sides of `p`
without a wall (`!cell.hasWall(dir)` plus the bounds check). -/
def openNbrs (m : Maze) (p : Pos) : List Pos :=
  dirList.filterMap fun d =>
    if m.walls p d then none else movePos m.width m.height p d

/-- One BFS expansion round: keep the visited set and add all open
neighbours, deduplicated. -/
def expandReach (m : Maze) (s : List Pos) : List Pos :=
  (s ++ s.flatMap (openNbrs m)).dedup

/-- The visited set after `k` expansion rounds, starting from `start`. -/
def reachList (m : Maze) : Nat → List Pos
  | 0 => [m.start]
  | k + 1 => expandReach m (reachList m k)

/-- `isConnected(maze)`: every cell of the grid is reached from `start`. -/
def isConnected (m : Maze) : Bool :=
  inBounds m.width m.height m.start &&
    (reachList m (m.width * m.height)).length == m.width * m.height

/-- `m'` carries no wall that `m` lacks: `m'` is obtained from `m` by only
removing walls. -/
def subWalls (m' m : Maze) : Prop :=
  ∀ p d, m'.walls p d = true → m.walls p d = true

theorem subWalls_refl (m : Maze) : subWalls m m := fun _ _ h => h

theorem subWalls_trans {m₁ m₂ m₃ : Maze} (h₁ : subWalls m₁ m₂) (h₂ : subWalls m₂ m₃) :
    subWalls m₁ m₃ := fun p d h => h₂ p d (h₁ p d h)

theorem removeWall_subWalls (m : Maze) (p : Pos) (d : Dir) :
    subWalls (m.removeWall p d) m := by
  intro q d' h
  simp only [Maze.removeWall, Maze.setWall] at h
  by_cases hc : (q = p && d' = d) = true
  · simp [hc] at h
  · simpa [hc] using h

theorem carve_subWalls (m : Maze) (p : Pos) (d : Dir) (q : Pos) :
    subWalls (m.carve p d q) m :=
  subWalls_trans (removeWall_subWalls _ _ _) (removeWall_subWalls m p d)

/-- Dedup preserves nothing we need except membership; the closure list is
always duplicate-free after at least one round. -/
theorem reachList_nodup (m : Maze) (k : Nat) : (reachList m k).Nodup := by
  cases k with
  | zero => simp [reachList]
  | succ k => exact List.nodup_dedup _

theorem mem_expandReach_self (m : Maze) {s : List Pos} {p : Pos} (h : p ∈ s) :
    p ∈ expandReach m s := by
  unfold expandReach
  rw [List.mem_dedup]
  exact List.mem_append_left _ h

theorem reachList_mono_steps (m : Maze) {j k : Nat} (h : j ≤ k) {p : Pos}
    (hp : p ∈ reachList m j) : p ∈ reachList m k := by
  induction k with
  | zero => simpa [Nat.le_zero.mp h] using hp
  | succ k ih =>
    rcases Nat.lt_or_ge j (k + 1) with hlt | hge
    · exact mem_expandReach_self m (ih (Nat.lt_succ_iff.mp hlt))
    · have : j = k + 1 := Nat.le_antisymm h hge
      simpa [this] using hp

/-- `movePos` never leaves the grid when starting inside it. -/
theorem movePos_inBounds {w h : Nat} {p q : Pos} {d : Dir}
    (hp : inBounds w h p = true) (hq : movePos w h p d = some q) :
    inBounds w h q = true := by
  simp only [inBounds, Bool.and_eq_true, decide_eq_true_eq] at hp ⊢
  cases d <;> simp only [movePos] at hq
  · rcases hp with ⟨h1, h2⟩
    split at hq
    · exact absurd hq (by simp)
    · cases hq; exact ⟨h1, Nat.lt_of_le_of_lt (Nat.sub_le _ _) h2⟩
  · split at hq
    · cases hq; exact ⟨by assumption, hp.2⟩
    · exact absurd hq (by simp)
  · split at hq
    · cases hq; exact ⟨hp.1, by assumption⟩
    · exact absurd hq (by simp)
  · rcases hp with ⟨h1, h2⟩
    split at hq
    · exact absurd hq (by simp)
    · cases hq; exact ⟨Nat.lt_of_le_of_lt (Nat.sub_le _ _) h1, h2⟩

theorem openNbrs_inBounds {m : Maze} {p q : Pos}
    (hp : inBounds m.width m.height p = true) (hq : q ∈ openNbrs m p) :
    inBounds m.width m.height q = true := by
  unfold openNbrs at hq
  rcases List.mem_filterMap.mp hq with ⟨d, _, hd⟩
  split at hd
  · exact absurd hd (by simp)
  · exact movePos_inBounds hp hd

theorem reachList_inBounds (m : Maze) (hs : inBounds m.width m.height m.start = true)
    (k : Nat) : ∀ {p : Pos}, p ∈ reachList m k → inBounds m.width m.height p = true := by
  induction k with
  | zero =>
    intro p hp
    simp only [reachList, List.mem_singleton] at hp
    exact hp ▸ hs
  | succ k ih =>
    intro p hp
    simp only [reachList, expandReach, List.mem_dedup, List.mem_append] at hp
    rcases hp with hp | hp
    · exact ih hp
    · rcases List.mem_flatMap.mp hp with ⟨r, hr, hq⟩
      exact openNbrs_inBounds (ih hr) hq

theorem openNbrs_subset_of_subWalls {m' m : Maze} (h : subWalls m' m)
    (hw : m'.width = m.width) (hh : m'.height = m.height) (p : Pos) :
    ∀ {q : Pos}, q ∈ openNbrs m p → q ∈ openNbrs m' p := by
  intro q hq
  unfold openNbrs at hq ⊢
  rcases List.mem_filterMap.mp hq with ⟨d, hd, hmv⟩
  refine List.mem_filterMap.mpr ⟨d, hd, ?_⟩
  split at hmv
  · exact absurd hmv (by simp)
  · have hwall : m.walls p d = false := by
      rename_i hcond
      simpa using hcond
    have hwall' : m'.walls p d = false := by
      by_contra hc
      have : m'.walls p d = true := by simpa using hc
      have := h p d this
      simp [this] at hwall
    rw [hwall']
    simpa [hw, hh] using hmv

theorem reachList_subset_of_subWalls {m' m : Maze} (h : subWalls m' m)
    (hw : m'.width = m.width) (hh : m'.height = m.height) (hs : m'.start = m.start)
    (k : Nat) : ∀ {p : Pos}, p ∈ reachList m k → p ∈ reachList m' k := by
  induction k with
  | zero =>
    intro p hp
    simpa [reachList, hs] using hp
  | succ k ih =>
    intro p hp
    simp only [reachList, expandReach, List.mem_dedup, List.mem_append] at hp ⊢
    rcases hp with hp | hp
    · exact Or.inl (ih hp)
    · rcases List.mem_flatMap.mp hp with ⟨r, hr, hq⟩
      exact Or.inr (List.mem_flatMap.mpr ⟨r, ih hr, openNbrs_subset_of_subWalls h hw hh r hq⟩)

/-- The grid rectangle as a finite set of positions. -/
def gridFinset (w h : Nat) : Finset Pos := Finset.range w ×ˢ Finset.range h

theorem mem_gridFinset {w h : Nat} {p : Pos} :
    p ∈ gridFinset w h ↔ inBounds w h p = true := by
  simp [gridFinset, inBounds, Finset.mem_product]

theorem card_gridFinset (w h : Nat) : (gridFinset w h).card = w * h := by
  simp [gridFinset]

/-- If the BFS closure reports full connectivity, the closure set is exactly
the grid. -/
theorem reachList_toFinset_of_isConnected {m : Maze} (hc : isConnected m = true) :
    (reachList m (m.width * m.height)).toFinset = gridFinset m.width m.height := by
  have hs : inBounds m.width m.height m.start = true := by
    simp only [isConnected, Bool.and_eq_true] at hc
    exact hc.1
  have hlen : (reachList m (m.width * m.height)).length = m.width * m.height := by
    simp only [isConnected, Bool.and_eq_true, beq_iff_eq] at hc
    exact hc.2
  have hsub : (reachList m (m.width * m.height)).toFinset ⊆ gridFinset m.width m.height := by
    intro p hp
    exact mem_gridFinset.mpr (reachList_inBounds m hs _ (List.mem_toFinset.mp hp))
  have hcard : (gridFinset m.width m.height).card ≤
      (reachList m (m.width * m.height)).toFinset.card := by
    rw [List.toFinset_card_of_nodup (reachList_nodup m _), hlen, card_gridFinset]
  exact (Finset.eq_of_subset_of_card_le hsub hcard).symm ▸ rfl

/-- Removing walls can only keep a connected maze connected (monotonicity of
the connectivity oracle). -/
theorem isConnected_of_subWalls {m' m : Maze} (h : subWalls m' m)
    (hw : m'.width = m.width) (hh : m'.height = m.height) (hs : m'.start = m.start)
    (hc : isConnected m = true) : isConnected m' = true := by
  have hsb : inBounds m.width m.height m.start = true := by
    simp only [isConnected, Bool.and_eq_true] at hc
    exact hc.1
  have hgrid := reachList_toFinset_of_isConnected hc
  have hsub1 : gridFinset m.width m.height ⊆
      (reachList m' (m'.width * m'.height)).toFinset := by
    intro p hp
    rw [← hgrid] at hp
    have hp' := List.mem_toFinset.mp hp
    have := reachList_subset_of_subWalls h hw hh hs (m.width * m.height) hp'
    exact List.mem_toFinset.mpr (by rw [hw, hh]; exact this)
  have hsub2 : (reachList m' (m'.width * m'.height)).toFinset ⊆
      gridFinset m.width m.height := by
    intro p hp
    have hs' : inBounds m'.width m'.height m'.start = true := by
      rw [hw, hh, hs]; exact hsb
    have := reachList_inBounds m' hs' _ (List.mem_toFinset.mp hp)
    rw [hw, hh] at this
    exact mem_gridFinset.mpr this
  have heq : (reachList m' (m'.width * m'.height)).toFinset =
      gridFinset m.width m.height :=
    Finset.Subset.antisymm hsub2 hsub1
  simp only [isConnected, Bool.and_eq_true, beq_iff_eq]
  constructor
  · rw [hw, hh, hs]; exact hsb
  · rw [← List.toFinset_card_of_nodup (reachList_nodup m' _), heq, card_gridFinset, hw, hh]

/-- Removing walls can only increase the connection count. -/
theorem countConnections_le_of_subWalls {m' m : Maze} (h : subWalls m' m)
    (hw : m'.width = m.width) (hh : m'.height = m.height) :
    countConnections m ≤ countConnections m' := by
  unfold countConnections
  rw [hw, hh]
  refine Finset.sum_le_sum fun y _ => Finset.sum_le_sum fun x _ => ?_
  unfold cellConn
  rw [hw, hh]
  have hind : ∀ (b : Bool) (d : Dir),
      (if b && !(m.walls (x, y) d) then (1 : Nat) else 0) ≤
        (if b && !(m'.walls (x, y) d) then 1 else 0) := by
    intro b d
    cases hb : b
    · simp
    · cases hm : m.walls (x, y) d
      · have hm' : m'.walls (x, y) d = false := by
          cases hv : m'.walls (x, y) d
          · rfl
          · rw [h (x, y) d hv] at hm
            exact absurd hm (by simp)
        simp [hm, hm']
      · simp [hm]
  exact Nat.add_le_add (hind _ .E) (hind _ .S)

/-! ### Fisher-Yates shuffle

`for (let i = len - 1; i > 0; i--) { j = floor(random()*(i+1)); swap(l[i], l[j]) }`
as used by `ensureSinglePath`, Kruskal's, the braided and sparse-loop
post-processors, and the multi-layer portal selection. -/

/-- Exchange the entries at indices `i` and `j` (no-op when either index is
out of range, which never happens in the loop). -/
def swapAt (l : List α) (i j : Nat) : List α :=
  match l[i]?, l[j]? with
  | some a, some b => (l.set i b).set j a
  | _, _ => l

/-- One downward sweep of the Fisher-Yates loop; the argument is the loop
variable `i`. -/
def fisherYatesGo (l : List α) (rs : Rng) : Nat → List α × Rng
  | 0 => (l, rs)
  | i + 1 =>
    let (j, rs') := randNat rs (i + 2)
    fisherYatesGo (swapAt l (i + 1) j) rs' i

/-- The in-place shuffle of a JS array. -/
def fisherYates (l : List α) (rs : Rng) : List α × Rng :=
  fisherYatesGo l rs (l.length - 1)

theorem get_cons_set_perm {α : Type _} (xs : List α) (x : α) :
    ∀ (k : Nat) (b : α), xs[k]? = some b → (b :: xs.set k x).Perm (x :: xs) := by
  induction xs with
  | nil => intro k b hk; simp at hk
  | cons y ys ih =>
    intro k b hk
    cases k with
    | zero =>
      simp only [List.getElem?_cons_zero, Option.some.injEq] at hk
      rw [← hk]
      simpa [List.set] using List.Perm.swap x y ys
    | succ k =>
      simp only [List.getElem?_cons_succ] at hk
      have h1 := ih k b hk
      have h2 : (y :: ys).set (k + 1) x = y :: ys.set k x := by simp [List.set]
      rw [h2]
      exact (List.Perm.swap y b _).trans ((List.Perm.cons y h1).trans (List.Perm.swap x y ys))

theorem set_self_of_get? {α : Type _} : ∀ (l : List α) (i : Nat) (a : α),
    l[i]? = some a → l.set i a = l := by
  intro l
  induction l with
  | nil => intro i a h; simp at h
  | cons x xs ih =>
    intro i a h
    cases i with
    | zero =>
      simp only [List.getElem?_cons_zero, Option.some.injEq] at h
      simp [h]
    | succ i =>
      simp only [List.getElem?_cons_succ] at h
      simp [List.set, ih i a h]

theorem swapAt_perm {α : Type _} : ∀ (l : List α) (i j : Nat), (swapAt l i j).Perm l := by
  have key : ∀ (l : List α) (i j : Nat), i < j → (swapAt l i j).Perm l := by
    intro l i j
    induction l generalizing i j with
    | nil => intro _; simp [swapAt]
    | cons x xs ih =>
      intro hij
      cases i with
      | zero =>
        cases j with
        | zero => exact absurd hij (by omega)
        | succ k =>
          unfold swapAt
          cases hk : xs[k]? with
          | none => simp [hk]
          | some b =>
            simp only [List.getElem?_cons_zero, List.getElem?_cons_succ, hk]
            have : ((x :: xs).set 0 b).set (k + 1) x = b :: xs.set k x := by
              simp [List.set]
            rw [this]
            exact get_cons_set_perm xs x k b hk
      | succ i' =>
        cases j with
        | zero => exact absurd hij (by omega)
        | succ j' =>
          have hij' : i' < j' := by omega
          have h1 := ih i' j' hij'
          unfold swapAt at h1 ⊢
          cases hi : xs[i']? with
          | none => simp [hi]
          | some a =>
            cases hj : xs[j']? with
            | none => simp [hi, hj]
            | some b =>
              simp only [List.getElem?_cons_succ, hi, hj] at h1 ⊢
              have : ((x :: xs).set (i' + 1) b).set (j' + 1) a =
                  x :: (xs.set i' b).set j' a := by simp [List.set]
              rw [this]
              exact List.Perm.cons x h1
  intro l i j
  rcases Nat.lt_trichotomy i j with h | h | h
  · exact key l i j h
  · subst h
    unfold swapAt
    cases hi : l[i]? with
    | none => simp
    | some a =>
      simp only [hi]
      rw [List.set_set, set_self_of_get? l i a hi]
  · have h1 := key l j i h
    unfold swapAt at h1 ⊢
    cases hi : l[i]? with
    | none =>
      cases hj : l[j]? <;> simp [hi, hj]
    | some a =>
      cases hj : l[j]? with
      | none => simp [hi, hj]
      | some b =>
        simp only [hi, hj] at h1 ⊢
        rw [List.set_comm _ _ _ (by omega)]
        exact h1

theorem fisherYatesGo_perm {α : Type _} :
    ∀ (i : Nat) (l : List α) (rs : Rng), (fisherYatesGo l rs i).1.Perm l := by
  intro i
  induction i with
  | zero => intro l rs; simp [fisherYatesGo]
  | succ i ih =>
    intro l rs
    unfold fisherYatesGo
    exact (ih _ _).trans (swapAt_perm l (i + 1) _)

/-- The Fisher-Yates shuffle permutes its input. -/
theorem fisherYates_perm {α : Type _} (l : List α) (rs : Rng) :
    (fisherYates l rs).1.Perm l :=
  fisherYatesGo_perm _ l rs

/-! ### `ensureSinglePath` (src/utils/mazeUtils.js) -/

/-- An entry of the `getAllEdges` list:
`{ x1, y1, x2, y2, direction }`. -/
structure EdgeRec where
  x1 : Nat
  y1 : Nat
  x2 : Nat
  y2 : Nat
  direction : Dir
deriving DecidableEq, Repr

/-- `getAllEdges()`: east and south openings per cell, skipping the last
column/row to avoid duplicates. -/
def getAllEdges (m : Maze) : List EdgeRec :=
  (List.range m.height).flatMap fun y =>
    (List.range m.width).flatMap fun x =>
      (if x < m.width - 1 && !(m.walls (x, y) .E) then
        [{ x1 := x, y1 := y, x2 := x + 1, y2 := y, direction := .E }] else []) ++
      (if y < m.height - 1 && !(m.walls (x, y) .S) then
        [{ x1 := x, y1 := y, x2 := x, y2 := y + 1, direction := .S }] else [])

/-- `wouldDisconnect(edge)`: temporarily add both walls, test connectivity,
restore both walls; returns the verdict together with the (restored) maze.
The `!cell1 || !cell2` null guard is the bounds test. -/
def wouldDisconnect (m : Maze) (e : EdgeRec) : Bool × Maze :=
  if inBounds m.width m.height (e.x1, e.y1) && inBounds m.width m.height (e.x2, e.y2) then
    let m1 := m.closeEdge (e.x1, e.y1) e.direction (e.x2, e.y2)
    let stillConnected := isConnected m1
    let m2 := (m1.removeWall (e.x1, e.y1) e.direction).removeWall
      (e.x2, e.y2) e.direction.opposite
    (!stillConnected, m2)
  else (true, m)

/-- The edge-removal loop of `ensureSinglePath`: walk the shuffled edge
list, break once `edgesRemoved` reaches `targetRemovals`, close each edge
whose removal keeps the maze connected. -/
def removeEdgesLoop (target : Nat) : Maze → List EdgeRec → Nat → Maze
  | m, [], _ => m
  | m, e :: es, removed =>
    if target ≤ removed then m
    else
      let (disc, m1) := wouldDisconnect m e
      if !disc then
        if inBounds m1.width m1.height (e.x1, e.y1) &&
            inBounds m1.width m1.height (e.x2, e.y2) then
          removeEdgesLoop target (m1.closeEdge (e.x1, e.y1) e.direction (e.x2, e.y2))
            es (removed + 1)
        else removeEdgesLoop target m1 es removed
      else removeEdgesLoop target m1 es removed

/-- `ensureSinglePath(maze)`: guard against a null or invalid maze, then
remove open edges while preserving connectivity until only
`width*height - 1` remain.  In this pure embedding the mutated maze is
returned; the guard throws before any wall is touched. -/
def ensureSinglePath (om : Option Maze) (rs : Rng) : Except String Maze :=
  match om with
  | none => .error "ensureSinglePath: invalid maze provided"
  | some m =>
    if m.isValid = false then .error "ensureSinglePath: invalid maze provided"
    else
      let edges := getAllEdges m
      let totalEdges := edges.length
      let targetEdges := m.width * m.height - 1
      if totalEdges ≤ targetEdges then .ok m
      else
        let (shuffled, _) := fisherYates edges rs
        let targetRemovals := totalEdges - targetEdges
        .ok (removeEdgesLoop targetRemovals m shuffled 0)

/-- C9: `ensureSinglePath` called on a null maze, or on a maze whose
`isValid()` is false, throws immediately; the guard precedes every wall
mutation, so the wall state is untouched (in this pure embedding the error
is returned before any wall operation is applied). -/
theorem ensureSinglePath_guard :
    (∀ rs, ensureSinglePath none rs = .error "ensureSinglePath: invalid maze provided") ∧
    (∀ (m : Maze) (rs : Rng), m.isValid = false →
      ensureSinglePath (some m) rs = .error "ensureSinglePath: invalid maze provided") := by
  refine ⟨fun rs => rfl, fun m rs h => ?_⟩
  simp [ensureSinglePath, h]

/-- Witness for C9: the fully-walled `2 × 2` maze fails `isValid()` (no
open cell) and is rejected. -/
theorem ensureSinglePath_guard_witness :
    (fullyWalled 2 2).isValid = false ∧
    ensureSinglePath (some (fullyWalled 2 2)) [] =
      .error "ensureSinglePath: invalid maze provided" :=
  ⟨by decide, ensureSinglePath_guard.2 (fullyWalled 2 2) [] (by decide)⟩

/-! ### `balanceDistribution` (src/utils/distributionUtils.js) -/

/-- `Math.max(0, Math.floor(q))` for a rational budget. -/
def floorClampNat (q : ℚ) : Nat := (max 0 ⌊q⌋).toNat

/-- `getCellsOfDegree(maze, degree)`. -/
def getCellsOfDegree (m : Maze) (k : Nat) : List Pos :=
  (List.range m.height).flatMap fun y =>
    (List.range m.width).flatMap fun x =>
      if m.openCount (x, y) = k then [(x, y)] else []

/-- The caller-supplied target ratios destructured by `balanceDistribution`
(`{ deadEnds: targetDead, threeWay: targetThree }`). -/
structure BalanceTarget where
  deadEnds : ℚ
  threeWay : ℚ
deriving DecidableEq, Repr

/-- Phase 1 inner `for (const dir of shuffledDirs)` loop: connect a dead end
to the first neighbour behind a shared wall; `continue` on boundary or
asymmetric walls. -/
def tryConnectDeadEnd (m : Maze) (p : Pos) : List Dir → Option Maze
  | [] => none
  | d :: ds =>
    if m.walls p d then
      match movePos m.width m.height p d with
      | none => tryConnectDeadEnd m p ds
      | some q =>
        if m.walls q d.opposite then some (m.carve p d q)
        else tryConnectDeadEnd m p ds
    else tryConnectDeadEnd m p ds

/-- Phase 2 inner loop over the shuffled walled directions (the wall test
was done by the `filter`). -/
def tryBranchStraight (m : Maze) (p : Pos) : List Dir → Option Maze
  | [] => none
  | d :: ds =>
    match movePos m.width m.height p d with
    | none => tryBranchStraight m p ds
    | some q =>
      if m.walls q d.opposite then some (m.carve p d q)
      else tryBranchStraight m p ds

/-- The dead-end cell and direction order drawn by one phase-1 iteration
(`deadEndCells[floor(random()*len)]` and the shuffled copy of the
direction list), together with the stream after both draws. -/
def deadEndPick (m : Maze) (rs : Rng) : Pos × List Dir × Rng :=
  ((getCellsOfDegree m 1).getD (randNat rs (getCellsOfDegree m 1).length).1 (0, 0),
    (fisherYates dirList (randNat rs (getCellsOfDegree m 1).length).2).1,
    (fisherYates dirList (randNat rs (getCellsOfDegree m 1).length).2).2)

/-- Phase 1 `while` loop of `balanceDistribution`; the fuel is the remaining
attempt budget (`maxAttempts - attempts`), `dist` the histogram as of the
last successful mutation. -/
def deadEndLoop (targetDead : ℚ) (maxRed : Nat) :
    Nat → Maze → Distribution → Nat → Rng → Maze × Rng
  | 0, m, _, _, rs => (m, rs)
  | fuel + 1, m, dist, reductions, rs =>
    if targetDead < dist.deadEnds ∧ reductions < maxRed then
      if (getCellsOfDegree m 1).isEmpty then (m, rs)
      else
        match tryConnectDeadEnd m (deadEndPick m rs).1 (deadEndPick m rs).2.1 with
        | some m' =>
          deadEndLoop targetDead maxRed fuel m' (analyzeDistribution m') (reductions + 1)
            (deadEndPick m rs).2.2
        | none => deadEndLoop targetDead maxRed fuel m dist reductions (deadEndPick m rs).2.2
    else (m, rs)

/-- The straight-corridor cell drawn by one phase-2 iteration, its walled
directions in shuffled order, and the stream after both draws. -/
def straightPick (m : Maze) (rs : Rng) : Pos × List Dir × Rng :=
  ((getCellsOfDegree m 2).getD (randNat rs (getCellsOfDegree m 2).length).1 (0, 0),
    (fisherYates
      (dirList.filter fun d => m.walls
        ((getCellsOfDegree m 2).getD (randNat rs (getCellsOfDegree m 2).length).1 (0, 0)) d)
      (randNat rs (getCellsOfDegree m 2).length).2).1,
    (fisherYates
      (dirList.filter fun d => m.walls
        ((getCellsOfDegree m 2).getD (randNat rs (getCellsOfDegree m 2).length).1 (0, 0)) d)
      (randNat rs (getCellsOfDegree m 2).length).2).2)

/-- Phase 2 `while` loop of `balanceDistribution`. -/
def threeWayLoop (targetThree : ℚ) (maxInc : Nat) :
    Nat → Maze → Distribution → Nat → Rng → Maze × Rng
  | 0, m, _, _, rs => (m, rs)
  | fuel + 1, m, dist, increases, rs =>
    if dist.threeWay < targetThree ∧ increases < maxInc then
      if (getCellsOfDegree m 2).isEmpty then (m, rs)
      else
        if ((straightPick m rs).2.1).isEmpty then
          threeWayLoop targetThree maxInc fuel m dist increases
            (randNat rs (getCellsOfDegree m 2).length).2
        else
          match tryBranchStraight m (straightPick m rs).1 (straightPick m rs).2.1 with
          | some m' =>
            threeWayLoop targetThree maxInc fuel m' (analyzeDistribution m') (increases + 1)
              (straightPick m rs).2.2
          | none =>
            threeWayLoop targetThree maxInc fuel m dist increases (straightPick m rs).2.2
    else (m, rs)

/-- `balanceDistribution(maze, target)`: verify connectivity, run the two
additive phases, re-verify connectivity.  Mutation happens only through the
paired `removeWall` carve. -/
def balanceDistribution (m : Maze) (t : BalanceTarget) (rs : Rng) : Except String Maze :=
  if isConnected m = false then
    .error "maze not connected before balancing"
  else
    let dist0 := analyzeDistribution m
    let maxRed := floorClampNat ((dist0.deadEnds - t.deadEnds) * ((m.width * m.height : Nat) : ℚ))
    let (m1, rs1) := deadEndLoop t.deadEnds maxRed (maxRed * 3) m dist0 0 rs
    let dist1 := analyzeDistribution m1
    let maxInc := floorClampNat ((t.threeWay - dist1.threeWay) * ((m.width * m.height : Nat) : ℚ))
    let (m2, _) := threeWayLoop t.threeWay maxInc (maxInc * 3) m1 dist1 0 rs1
    if isConnected m2 = false then
      .error "balancing broke maze connectivity"
    else .ok m2

/-- Shape preservation: `carve` only changes wall flags. -/
theorem carve_shape (m : Maze) (p : Pos) (d : Dir) (q : Pos) :
    (m.carve p d q).width = m.width ∧ (m.carve p d q).height = m.height ∧
      (m.carve p d q).start = m.start := ⟨rfl, rfl, rfl⟩

theorem tryConnectDeadEnd_shape {m m' : Maze} {p : Pos} :
    ∀ {ds : List Dir}, tryConnectDeadEnd m p ds = some m' →
      subWalls m' m ∧ m'.width = m.width ∧ m'.height = m.height ∧ m'.start = m.start := by
  intro ds
  induction ds with
  | nil => intro h; exact absurd h (by simp [tryConnectDeadEnd])
  | cons d ds ih =>
    intro h
    simp only [tryConnectDeadEnd] at h
    by_cases hw : m.walls p d = true
    · rw [if_pos hw] at h
      cases hmv : movePos m.width m.height p d with
      | none => rw [hmv] at h; exact ih h
      | some q =>
        rw [hmv] at h
        dsimp only at h
        by_cases hq : m.walls q d.opposite = true
        · rw [if_pos hq] at h
          injection h with h
          rw [← h]
          exact ⟨carve_subWalls m p d q, rfl, rfl, rfl⟩
        · rw [if_neg hq] at h; exact ih h
    · rw [if_neg hw] at h; exact ih h

theorem tryBranchStraight_shape {m m' : Maze} {p : Pos} :
    ∀ {ds : List Dir}, tryBranchStraight m p ds = some m' →
      subWalls m' m ∧ m'.width = m.width ∧ m'.height = m.height ∧ m'.start = m.start := by
  intro ds
  induction ds with
  | nil => intro h; exact absurd h (by simp [tryBranchStraight])
  | cons d ds ih =>
    intro h
    simp only [tryBranchStraight] at h
    cases hmv : movePos m.width m.height p d with
    | none => rw [hmv] at h; exact ih h
    | some q =>
      rw [hmv] at h
      dsimp only at h
      by_cases hq : m.walls q d.opposite = true
      · rw [if_pos hq] at h
        injection h with h
        rw [← h]
        exact ⟨carve_subWalls m p d q, rfl, rfl, rfl⟩
      · rw [if_neg hq] at h; exact ih h

theorem deadEndLoop_shape (targetDead : ℚ) (maxRed : Nat) :
    ∀ (fuel : Nat) (m : Maze) (dist : Distribution) (red : Nat) (rs : Rng),
      subWalls (deadEndLoop targetDead maxRed fuel m dist red rs).1 m ∧
      (deadEndLoop targetDead maxRed fuel m dist red rs).1.width = m.width ∧
      (deadEndLoop targetDead maxRed fuel m dist red rs).1.height = m.height ∧
      (deadEndLoop targetDead maxRed fuel m dist red rs).1.start = m.start := by
  intro fuel
  induction fuel with
  | zero => intro m dist red rs; exact ⟨subWalls_refl m, rfl, rfl, rfl⟩
  | succ fuel ih =>
    intro m dist red rs
    unfold deadEndLoop
    split
    · split
      · exact ⟨subWalls_refl m, rfl, rfl, rfl⟩
      · cases htc : tryConnectDeadEnd m (deadEndPick m rs).1 (deadEndPick m rs).2.1 with
        | none => simpa [htc] using ih m dist red (deadEndPick m rs).2.2
        | some m' =>
          have hstep := tryConnectDeadEnd_shape htc
          have hrec := ih m' (analyzeDistribution m') (red + 1) (deadEndPick m rs).2.2
          simp only [htc]
          exact ⟨subWalls_trans hrec.1 hstep.1,
            hrec.2.1.trans hstep.2.1, hrec.2.2.1.trans hstep.2.2.1,
            hrec.2.2.2.trans hstep.2.2.2⟩
    · exact ⟨subWalls_refl m, rfl, rfl, rfl⟩

theorem threeWayLoop_shape (targetThree : ℚ) (maxInc : Nat) :
    ∀ (fuel : Nat) (m : Maze) (dist : Distribution) (inc : Nat) (rs : Rng),
      subWalls (threeWayLoop targetThree maxInc fuel m dist inc rs).1 m ∧
      (threeWayLoop targetThree maxInc fuel m dist inc rs).1.width = m.width ∧
      (threeWayLoop targetThree maxInc fuel m dist inc rs).1.height = m.height ∧
      (threeWayLoop targetThree maxInc fuel m dist inc rs).1.start = m.start := by
  intro fuel
  induction fuel with
  | zero => intro m dist inc rs; exact ⟨subWalls_refl m, rfl, rfl, rfl⟩
  | succ fuel ih =>
    intro m dist inc rs
    unfold threeWayLoop
    split
    · split
      · exact ⟨subWalls_refl m, rfl, rfl, rfl⟩
      · split
        · exact ih m dist inc _
        · cases htc : tryBranchStraight m (straightPick m rs).1 (straightPick m rs).2.1 with
          | none => simpa [htc] using ih m dist inc (straightPick m rs).2.2
          | some m' =>
            have hstep := tryBranchStraight_shape htc
            have hrec := ih m' (analyzeDistribution m') (inc + 1) (straightPick m rs).2.2
            simp only [htc]
            exact ⟨subWalls_trans hrec.1 hstep.1,
              hrec.2.1.trans hstep.2.1, hrec.2.2.1.trans hstep.2.2.1,
              hrec.2.2.2.trans hstep.2.2.2⟩
    · exact ⟨subWalls_refl m, rfl, rfl, rfl⟩

/-- C4: `balanceDistribution` is additive-only.  On a fully connected maze
it succeeds, every wall of the result was already a wall of the input (it
only ever removes walls), the number of open interior edges does not
decrease, and the result is still fully connected — hence, since every
intermediate maze of the two loops lies wall-wise between input and output,
connectivity also holds after every mutation. -/
theorem balanceDistribution_additive (m : Maze) (t : BalanceTarget) (rs : Rng)
    (hc : isConnected m = true) :
    ∃ m', balanceDistribution m t rs = .ok m' ∧ subWalls m' m ∧
      m'.width = m.width ∧ m'.height = m.height ∧
      countConnections m ≤ countConnections m' ∧ isConnected m' = true := by
  have h1 := deadEndLoop_shape t.deadEnds
    (floorClampNat (((analyzeDistribution m).deadEnds - t.deadEnds) *
      ((m.width * m.height : Nat) : ℚ)))
    (floorClampNat (((analyzeDistribution m).deadEnds - t.deadEnds) *
      ((m.width * m.height : Nat) : ℚ)) * 3) m (analyzeDistribution m) 0 rs
  set m1 := (deadEndLoop t.deadEnds
    (floorClampNat (((analyzeDistribution m).deadEnds - t.deadEnds) *
      ((m.width * m.height : Nat) : ℚ)))
    (floorClampNat (((analyzeDistribution m).deadEnds - t.deadEnds) *
      ((m.width * m.height : Nat) : ℚ)) * 3) m (analyzeDistribution m) 0 rs) with hm1
  have h2 := threeWayLoop_shape t.threeWay
    (floorClampNat ((t.threeWay - (analyzeDistribution m1.1).threeWay) *
      ((m.width * m.height : Nat) : ℚ)))
    (floorClampNat ((t.threeWay - (analyzeDistribution m1.1).threeWay) *
      ((m.width * m.height : Nat) : ℚ)) * 3) m1.1 (analyzeDistribution m1.1) 0 m1.2
  set m2 := (threeWayLoop t.threeWay
    (floorClampNat ((t.threeWay - (analyzeDistribution m1.1).threeWay) *
      ((m.width * m.height : Nat) : ℚ)))
    (floorClampNat ((t.threeWay - (analyzeDistribution m1.1).threeWay) *
      ((m.width * m.height : Nat) : ℚ)) * 3) m1.1 (analyzeDistribution m1.1) 0 m1.2)
    with hm2
  have hsub : subWalls m2.1 m := subWalls_trans h2.1 h1.1
  have hwid : m2.1.width = m.width := h2.2.1.trans h1.2.1
  have hhei : m2.1.height = m.height := h2.2.2.1.trans h1.2.2.1
  have hsta : m2.1.start = m.start := h2.2.2.2.trans h1.2.2.2
  have hconn2 : isConnected m2.1 = true :=
    isConnected_of_subWalls hsub hwid hhei hsta hc
  refine ⟨m2.1, ?_, hsub, hwid, hhei,
    countConnections_le_of_subWalls hsub hwid hhei, hconn2⟩
  unfold balanceDistribution
  rw [hc]
  simp only [Bool.true_eq_false, if_false, ← hm1, ← hm2, hconn2]

/-- A `2 × 2` maze with no walls at all (trivially connected). -/
def openMaze22 : Maze :=
  { width := 2, height := 2, start := (0, 0), finish := (1, 1),
    walls := fun _ _ => false }

/-- Witness for C4 at the fully-open `2 × 2` maze. -/
theorem balanceDistribution_additive_witness :
    isConnected openMaze22 = true ∧
    ∃ m', balanceDistribution openMaze22 { deadEnds := 0, threeWay := 1 } [] = .ok m' ∧
      subWalls m' openMaze22 ∧ m'.width = openMaze22.width ∧ m'.height = openMaze22.height ∧
      countConnections openMaze22 ≤ countConnections m' ∧ isConnected m' = true :=
  ⟨by decide,
    balanceDistribution_additive openMaze22 { deadEnds := 0, threeWay := 1 } [] (by decide)⟩

/-! ### Serialization (`Maze.toJSON` / `Maze.from`, src/model/maze.js) -/

/-- `cell.getWallArray()` (`Array.from(this.walls)`); the JS `Set` iterates
in insertion order, embedded here in the canonical `N,E,S,W` order — only
the set of directions matters downstream. -/
def getWallArray (m : Maze) (p : Pos) : List Dir :=
  dirList.filter fun d => m.walls p d

/-- The plain object produced by `maze.toJSON()`: dimensions, nested wall
arrays, start/finish, and the optional metadata fields (spread in only when
present). -/
structure MazeJSON where
  width : Nat
  height : Nat
  cells : List (List (List Dir))
  start : Pos
  finish : Pos
  portals : Option (List Portal) := none
  layers : Option Nat := none
  widthPerLayer : Option Nat := none
  heightPerLayer : Option Nat := none
deriving Repr

/-- `maze.toJSON()`. -/
def Maze.toJSON (m : Maze) : MazeJSON :=
  { width := m.width
    height := m.height
    cells := (List.range m.height).map fun y =>
      (List.range m.width).map fun x => getWallArray m (x, y)
    start := m.start
    finish := m.finish
    portals := m.portals
    layers := m.layers
    widthPerLayer := m.widthPerLayer
    heightPerLayer := m.heightPerLayer }

/-- The `Maze` constructor called with explicit `cells`
(`new Maze(width, height, start, finish, cells)`): dimension and position
validation, then the supplied cell grid is adopted.  `MazeCell.from`
rebuilds each wall set from the serialized array (missing entries read as
`[]`). -/
def mazeNew (w h : Nat) (s f : Pos) (cells : List (List (List Dir))) :
    Except String Maze :=
  if w < 2 ∨ h < 2 then .error "Width and height must be at least 2"
  else if 1000 < w ∨ 1000 < h then .error "Width and height must not exceed 1000"
  else if ¬(s.1 < w ∧ s.2 < h) then .error "Invalid start position"
  else if ¬(f.1 < w ∧ f.2 < h) then .error "Invalid finish position"
  else .ok
    { width := w, height := h, start := s, finish := f,
      walls := fun p d => decide (d ∈ (cells.getD p.2 []).getD p.1 []) }

/-- `Maze.from(obj)`: rebuild the cell grid, run the constructor, then
restore the metadata fields that are present. -/
def Maze.fromJSON (obj : MazeJSON) : Except String Maze :=
  match mazeNew obj.width obj.height obj.start obj.finish obj.cells with
  | .error e => .error e
  | .ok mz => .ok
    { mz with portals := obj.portals, layers := obj.layers,
              widthPerLayer := obj.widthPerLayer, heightPerLayer := obj.heightPerLayer }

theorem map_range_getD {α : Type _} (f : Nat → α) {n i : Nat} (h : i < n) (dflt : α) :
    ((List.range n).map f).getD i dflt = f i := by
  rw [List.getD_eq_getElem?_getD, List.getElem?_map, List.getElem?_range h]
  rfl

theorem mem_getWallArray (m : Maze) (p : Pos) (d : Dir) :
    (d ∈ getWallArray m p) ↔ m.walls p d = true := by
  unfold getWallArray
  rw [List.mem_filter]
  have hd : d ∈ dirList := by cases d <;> simp [dirList]
  simp [hd]

/-- C8: serialization round-trips.  For every maze satisfying the
constructor invariants, `Maze.from(maze.toJSON())` succeeds and produces a
maze with identical width, height, start, finish, identical wall state at
every cell, and identical portal/layer metadata. -/
theorem toJSON_fromJSON_roundTrip (m : Maze)
    (hw : 2 ≤ m.width) (hwu : m.width ≤ 1000)
    (hh : 2 ≤ m.height) (hhu : m.height ≤ 1000)
    (hs : m.start.1 < m.width ∧ m.start.2 < m.height)
    (hf : m.finish.1 < m.width ∧ m.finish.2 < m.height) :
    ∃ m', Maze.fromJSON (Maze.toJSON m) = .ok m' ∧
      m'.width = m.width ∧ m'.height = m.height ∧
      m'.start = m.start ∧ m'.finish = m.finish ∧
      (∀ x < m.width, ∀ y < m.height, ∀ d, m'.walls (x, y) d = m.walls (x, y) d) ∧
      m'.portals = m.portals ∧ m'.layers = m.layers ∧
      m'.widthPerLayer = m.widthPerLayer ∧ m'.heightPerLayer = m.heightPerLayer := by
  have hc1 : ¬(m.width < 2 ∨ m.height < 2) := by omega
  have hc2 : ¬(1000 < m.width ∨ 1000 < m.height) := by omega
  have hc3 : ¬¬(m.start.1 < m.width ∧ m.start.2 < m.height) := not_not_intro hs
  have hc4 : ¬¬(m.finish.1 < m.width ∧ m.finish.2 < m.height) := not_not_intro hf
  refine ⟨
    { width := m.width, height := m.height, start := m.start, finish := m.finish,
      walls := fun p d => decide
        (d ∈ (((Maze.toJSON m).cells).getD p.2 []).getD p.1 []),
      portals := m.portals, layers := m.layers,
      widthPerLayer := m.widthPerLayer, heightPerLayer := m.heightPerLayer },
    ?_, rfl, rfl, rfl, rfl, ?_, rfl, rfl, rfl, rfl⟩
  · unfold Maze.fromJSON mazeNew Maze.toJSON
    simp only [if_neg hc1, if_neg hc2, if_neg hc3, if_neg hc4]
  · intro x hx y hy d
    simp only [Maze.toJSON]
    have hcell : ((List.map (fun y => List.map (fun x => getWallArray m (x, y))
        (List.range m.width)) (List.range m.height)).getD y []).getD x [] =
        getWallArray m (x, y) := by
      rw [show (List.map (fun y => List.map (fun x => getWallArray m (x, y))
          (List.range m.width)) (List.range m.height)) =
          (List.range m.height).map (fun y => List.map
            (fun x => getWallArray m (x, y)) (List.range m.width)) from rfl,
        map_range_getD _ hy,
        show List.map (fun x => getWallArray m (x, y)) (List.range m.width) =
          (List.range m.width).map (fun x => getWallArray m (x, y)) from rfl,
        map_range_getD _ hx]
    simp only [hcell]
    by_cases hwd : m.walls (x, y) d = true
    · simp [hwd, (mem_getWallArray m (x, y) d).mpr hwd]
    · have hf' : m.walls (x, y) d = false := by
        cases hv : m.walls (x, y) d
        · rfl
        · exact absurd hv hwd
      simp [mem_getWallArray, hf']

/-- A small maze carrying multi-layer metadata, for the round-trip witness. -/
def metaMaze : Maze :=
  { width := 2, height := 2, start := (0, 0), finish := (1, 1),
    walls := fun p _ => decide (p = (0, 0)),
    portals := some [{ src := (1, 0), dst := (1, 1), layerPair := "0-1" }],
    layers := some 2, widthPerLayer := some 1, heightPerLayer := some 2 }

/-- Witness for C8 at a concrete maze with metadata. -/
theorem toJSON_fromJSON_roundTrip_witness :
    2 ≤ metaMaze.width ∧ metaMaze.width ≤ 1000 ∧
    2 ≤ metaMaze.height ∧ metaMaze.height ≤ 1000 ∧
    (metaMaze.start.1 < metaMaze.width ∧ metaMaze.start.2 < metaMaze.height) ∧
    (metaMaze.finish.1 < metaMaze.width ∧ metaMaze.finish.2 < metaMaze.height) ∧
    (∃ m', Maze.fromJSON (Maze.toJSON metaMaze) = .ok m' ∧
      m'.width = metaMaze.width ∧ m'.height = metaMaze.height ∧
      m'.start = metaMaze.start ∧ m'.finish = metaMaze.finish ∧
      (∀ x < metaMaze.width, ∀ y < metaMaze.height, ∀ d,
        m'.walls (x, y) d = metaMaze.walls (x, y) d) ∧
      m'.portals = metaMaze.portals ∧ m'.layers = metaMaze.layers ∧
      m'.widthPerLayer = metaMaze.widthPerLayer ∧
      m'.heightPerLayer = metaMaze.heightPerLayer) :=
  ⟨by decide, by decide, by decide, by decide, by decide, by decide,
    toJSON_fromJSON_roundTrip metaMaze (by decide) (by decide) (by decide) (by decide)
      (by decide) (by decide)⟩

/-! ### Wilson's algorithm, fixed version (src/src/algorithms/wilsons.js)

The "FIXED" Wilson's implements loop erasure as
`path.splice(loopIndex)` — removing the entries from `loopIndex` to the
end, i.e. including the revisited cell itself — and then keeps walking
from the revisited position. -/

/-- `findPositionInPath(path, x, y)`: index of the first occurrence, `-1`
(here `none`) when absent. -/
def findPositionInPath (path : List Pos) (p : Pos) : Option Nat :=
  path.findIdx? fun q => q = p

/-- `getValidDirections(x, y)` of the fixed Wilson's. -/
def getValidDirections (w h : Nat) (p : Pos) : List Dir :=
  dirList.filter fun d => (movePos w h p d).isSome

/-- `randomDirection(x, y)`: uniform pick among the valid directions (the
empty case throws in the source and is unreachable for `w, h ≥ 2`). -/
def randomDirection (w h : Nat) (p : Pos) (rs : Rng) : Dir × Rng :=
  let dirs := getValidDirections w h p
  let (i, rs') := randNat rs dirs.length
  (dirs.getD i Dir.N, rs')

/-- The fixed Wilson's random-walk loop.  The fuel is the remaining step
budget out of `maxWalkSteps = width*height*10`; the result is the final
path, the stop position, whether the walk ended on a visited cell (as
opposed to exhausting the step budget, in which case the source skips
carving), and the remaining stream.  On a revisit the path is truncated
with `path.splice(loopIndex)`, dropping the revisited cell as well. -/
def wilsonsWalk (w h : Nat) (visited : Pos → Bool) :
    Nat → List Pos → Pos → Rng → List Pos × Pos × Bool × Rng
  | 0, path, cur, rs => (path, cur, false, rs)
  | fuel + 1, path, cur, rs =>
    if visited cur then (path, cur, true, rs)
    else
      let path' := match findPositionInPath path cur with
        | some idx => path.take idx
        | none => path ++ [cur]
      let (d, rs') := randomDirection w h cur rs
      match movePos w h cur d with
      | some nxt => wilsonsWalk w h visited fuel path' nxt rs'
      | none => wilsonsWalk w h visited fuel path' cur rs'

/-- The direction search of the carving loop:
`for dir in deltas: if (x + dx === nextX && y + dy === nextY)`
in the `N, E, S, W` object order (no adjacency is found when the cells are
not neighbours, in which case no wall is removed). -/
def dirBetween (p q : Pos) : Option Dir :=
  dirList.findSome? fun d =>
    match d with
    | .N => if p.1 = q.1 ∧ p.2 = q.2 + 1 then some Dir.N else none
    | .E => if q.1 = p.1 + 1 ∧ p.2 = q.2 then some Dir.E else none
    | .S => if p.1 = q.1 ∧ q.2 = p.2 + 1 then some Dir.S else none
    | .W => if p.1 = q.1 + 1 ∧ p.2 = q.2 then some Dir.W else none

/-- The carving loop of the fixed Wilson's: mark each path cell visited and
connect it to its successor (the stop cell for the last entry), when a
direction between them exists and both cells are in bounds. -/
def carvePath (w h : Nat) : List Pos → Pos → Maze × (Pos → Bool) × Nat →
    Maze × (Pos → Bool) × Nat
  | [], _, st => st
  | p :: rest, cur, (m, visited, cnt) =>
    let visited' : Pos → Bool := fun q => if q = p then true else visited q
    let cnt' := if visited p then cnt else cnt + 1
    let nxt := match rest with
      | [] => cur
      | q :: _ => q
    let m' := match dirBetween p nxt with
      | some d =>
        if inBounds w h p && inBounds w h nxt then m.carve p d nxt else m
      | none => m
    carvePath w h rest cur (m', visited', cnt')

/-- The row-major scan for the first unvisited cell. -/
def findUnvisited (w h : Nat) (visited : Pos → Bool) : Option Pos :=
  (List.range h).findSome? fun y =>
    (List.range w).findSome? fun x =>
      if visited (x, y) then none else some (x, y)

/-- The main `while (visitedCells < totalCells)` loop of the fixed
Wilson's.  A successful walk visits at least its starting cell, so
`width*height` iterations suffice; on a capped walk the source `continue`s
(and could in principle loop forever on an adversarial stream — at fuel
exhaustion the embedding returns the maze built so far). -/
def wilsonsOuter (w h : Nat) :
    Nat → Maze → (Pos → Bool) → Nat → Rng → Maze × Rng
  | 0, m, _, _, rs => (m, rs)
  | fuel + 1, m, visited, visitedCells, rs =>
    if visitedCells < w * h then
      match findUnvisited w h visited with
      | none => (m, rs)
      | some p =>
        if (wilsonsWalk w h visited (w * h * 10) [] p rs).2.2.1 then
          wilsonsOuter w h fuel
            (carvePath w h (wilsonsWalk w h visited (w * h * 10) [] p rs).1
              (wilsonsWalk w h visited (w * h * 10) [] p rs).2.1 (m, visited, visitedCells)).1
            (carvePath w h (wilsonsWalk w h visited (w * h * 10) [] p rs).1
              (wilsonsWalk w h visited (w * h * 10) [] p rs).2.1 (m, visited, visitedCells)).2.1
            (carvePath w h (wilsonsWalk w h visited (w * h * 10) [] p rs).1
              (wilsonsWalk w h visited (w * h * 10) [] p rs).2.1 (m, visited, visitedCells)).2.2
            (wilsonsWalk w h visited (w * h * 10) [] p rs).2.2.2
        else wilsonsOuter w h fuel m visited visitedCells
          (wilsonsWalk w h visited (w * h * 10) [] p rs).2.2.2
    else (m, rs)

/-- `ensureBoundaryWalls` helpers: add a wall direction along a row or a
column. -/
def addWallRow (m : Maze) (d : Dir) (y : Nat) : Maze :=
  (List.range m.width).foldl (fun mm x => mm.addWall (x, y) d) m

def addWallCol (m : Maze) (d : Dir) (x : Nat) : Maze :=
  (List.range m.height).foldl (fun mm y => mm.addWall (x, y) d) m

/-- `ensureBoundaryWalls(maze)` of the fixed Wilson's: re-add all four
boundary rows/columns of walls, then open the entrance at `start`
(W side when `x == 0`, N side when `y == 0`) and the exit at `finish`
(E side when `x == width-1`, S side when `y == height-1`).  A corner
start/finish therefore gets both of its boundary sides opened. -/
def ensureBoundaryWallsW (m : Maze) : Maze :=
  let m1 := addWallRow m .N 0
  let m2 := addWallRow m1 .S (m.height - 1)
  let m3 := addWallCol m2 .W 0
  let m4 := addWallCol m3 .E (m.width - 1)
  let m5 := if m.start.1 = 0 then m4.removeWall m.start .W else m4
  let m6 := if m.start.2 = 0 then m5.removeWall m.start .N else m5
  let m7 := if m.finish.1 = m.width - 1 then m6.removeWall m.finish .E else m6
  if m.finish.2 = m.height - 1 then m7.removeWall m.finish .S else m7

/-- `generateWilsons(width, height)` — the fixed version: start fully
walled, seed a random visited cell, loop-erased random walks, then
`ensureBoundaryWalls`. -/
def generateWilsons (w h : Nat) (rs : Rng) : Maze :=
  ensureBoundaryWallsW
    (wilsonsOuter w h (w * h) (fullyWalled w h)
      (fun p => p = ((randNat rs w).1, (randNat (randNat rs w).2 h).1)) 1
      (randNat (randNat rs w).2 h).2).1

/-- C1: the fixed Wilson's violates the spanning-tree edge count.  On the
`3 × 2` grid with seed cell `(2,1)` and a walk `(0,0) → E → S → N` (a
revisit of `(1,0)`) `→ E → S`, the `splice(loopIndex)` loop erasure drops
the revisited cell, leaving the non-adjacent pair `(0,0), (2,0)` as
consecutive path entries; the carve step finds no direction between them
and silently skips the connection, so the returned maze has `4` open
interior edges instead of `width*height - 1 = 5` and is not even
connected. -/
theorem generateWilsons_edge_count_bug :
    countConnections (generateWilsons 3 2 [2, 1, 0, 1, 0, 0, 0, 2, 0, 0]) = 4 ∧
    3 * 2 - 1 = 5 ∧
    isConnected (generateWilsons 3 2 [2, 1, 0, 1, 0, 0, 0, 2, 0, 0]) = false := by
  refine ⟨by decide, rfl, by decide⟩

/-- C6: the fixed Wilson's loop erasure truncates *before* the repeated
position, not after it.  Starting from `(0,0)` with the visited set
`{(2,1)}` and moves `E, S, N, E, S`, the walk revisits `(1,0)` while the
path is `[(0,0), (1,0), (1,1)]`; `path.splice(loopIndex)` leaves `[(0,0)]`
— the revisited cell is no longer the last element (it is not in the path
at all) — and the final path `[(0,0), (2,0)]` has consecutive entries that
are not adjacent, so the carve step finds no direction between them. -/
theorem wilsonsWalk_truncation_bug :
    (wilsonsWalk 3 2 (fun p => decide (p = (2, 1))) 60 [] (0, 0) [0, 1, 0, 0, 0]).1 =
      [(0, 0), (2, 0)] ∧
    ((1, 0) : Pos) ∉
      (wilsonsWalk 3 2 (fun p => decide (p = (2, 1))) 60 [] (0, 0) [0, 1, 0, 0, 0]).1 ∧
    dirBetween (0, 0) (2, 0) = none := by
  refine ⟨by decide, by decide, by decide⟩

/-- C5 counterexample: the maze returned by the fixed Wilson's on `3 × 2`
has two open boundary walls at the start cell `(0,0)` — both its N and W
sides — not exactly one. -/
theorem generateWilsons_two_boundary_openings :
    (generateWilsons 3 2 [2, 1, 0, 1, 0, 0, 0, 2, 0, 0]).hasWall (0, 0) .N = false ∧
    (generateWilsons 3 2 [2, 1, 0, 1, 0, 0, 0, 2, 0, 0]).hasWall (0, 0) .W = false := by
  refine ⟨by decide, by decide⟩

/-! ### Wall-level characterizations -/

theorem setWall_walls (m : Maze) (p : Pos) (d : Dir) (b : Bool) (q : Pos) (d' : Dir) :
    (m.setWall p d b).walls q d' = if q = p ∧ d' = d then b else m.walls q d' := by
  simp only [Maze.setWall]
  by_cases h1 : q = p
  · by_cases h2 : d' = d
    · simp [h1, h2]
    · simp [h1, h2]
  · simp [h1]

theorem addWall_walls (m : Maze) (p : Pos) (d : Dir) (q : Pos) (d' : Dir) :
    (m.addWall p d).walls q d' = if q = p ∧ d' = d then true else m.walls q d' :=
  setWall_walls m p d true q d'

theorem removeWall_walls (m : Maze) (p : Pos) (d : Dir) (q : Pos) (d' : Dir) :
    (m.removeWall p d).walls q d' = if q = p ∧ d' = d then false else m.walls q d' :=
  setWall_walls m p d false q d'

theorem carve_walls (m : Maze) (p : Pos) (d : Dir) (q : Pos) (r : Pos) (d' : Dir) :
    (m.carve p d q).walls r d' =
      if (r = q ∧ d' = d.opposite) ∨ (r = p ∧ d' = d) then false else m.walls r d' := by
  unfold Maze.carve
  rw [removeWall_walls, removeWall_walls]
  by_cases h1 : r = q ∧ d' = d.opposite
  · simp [h1]
  · by_cases h2 : r = p ∧ d' = d
    · simp [h1, h2]
    · simp [h1, h2]

/-- All wall mutations leave width, height, start and finish unchanged. -/
def sameFrame (m' m : Maze) : Prop :=
  m'.width = m.width ∧ m'.height = m.height ∧ m'.start = m.start ∧ m'.finish = m.finish

theorem sameFrame_refl (m : Maze) : sameFrame m m := ⟨rfl, rfl, rfl, rfl⟩

theorem sameFrame_trans {m₁ m₂ m₃ : Maze} (h₁ : sameFrame m₁ m₂) (h₂ : sameFrame m₂ m₃) :
    sameFrame m₁ m₃ :=
  ⟨h₁.1.trans h₂.1, h₁.2.1.trans h₂.2.1, h₁.2.2.1.trans h₂.2.2.1, h₁.2.2.2.trans h₂.2.2.2⟩

theorem setWall_frame (m : Maze) (p : Pos) (d : Dir) (b : Bool) :
    sameFrame (m.setWall p d b) m := ⟨rfl, rfl, rfl, rfl⟩

theorem carve_frame (m : Maze) (p : Pos) (d : Dir) (q : Pos) :
    sameFrame (m.carve p d q) m := ⟨rfl, rfl, rfl, rfl⟩

theorem foldl_addWall_row_walls (d : Dir) (y : Nat) :
    ∀ (xs : List Nat) (m : Maze) (q : Pos) (d' : Dir),
      ((xs.foldl (fun mm x => mm.addWall (x, y) d) m).walls q d') =
        (if q.1 ∈ xs ∧ q.2 = y ∧ d' = d then true else m.walls q d') := by
  intro xs
  induction xs with
  | nil => intro m q d'; simp
  | cons x xs ih =>
    intro m q d'
    rw [List.foldl_cons, ih, addWall_walls]
    by_cases hm : q.1 ∈ xs ∧ q.2 = y ∧ d' = d
    · have hr : q.1 ∈ x :: xs ∧ q.2 = y ∧ d' = d :=
        ⟨List.mem_cons_of_mem _ hm.1, hm.2⟩
      rw [if_pos hm, if_pos hr]
    · by_cases hq : q = (x, y) ∧ d' = d
      · have hr : q.1 ∈ x :: xs ∧ q.2 = y ∧ d' = d := by
          refine ⟨?_, ?_, hq.2⟩
          · rw [hq.1]; exact List.mem_cons_self x xs
          · rw [hq.1]
        rw [if_neg hm, if_pos hq, if_pos hr]
      · have hr : ¬(q.1 ∈ x :: xs ∧ q.2 = y ∧ d' = d) := by
          intro hc
          rcases List.mem_cons.mp hc.1 with h1 | h1
          · exact hq ⟨Prod.ext h1 hc.2.1, hc.2.2⟩
          · exact hm ⟨h1, hc.2⟩
        rw [if_neg hm, if_neg hq, if_neg hr]

theorem foldl_addWall_col_walls (d : Dir) (x : Nat) :
    ∀ (ys : List Nat) (m : Maze) (q : Pos) (d' : Dir),
      ((ys.foldl (fun mm y => mm.addWall (x, y) d) m).walls q d') =
        (if q.2 ∈ ys ∧ q.1 = x ∧ d' = d then true else m.walls q d') := by
  intro ys
  induction ys with
  | nil => intro m q d'; simp
  | cons y ys ih =>
    intro m q d'
    rw [List.foldl_cons, ih, addWall_walls]
    by_cases hm : q.2 ∈ ys ∧ q.1 = x ∧ d' = d
    · have hr : q.2 ∈ y :: ys ∧ q.1 = x ∧ d' = d :=
        ⟨List.mem_cons_of_mem _ hm.1, hm.2⟩
      rw [if_pos hm, if_pos hr]
    · by_cases hq : q = (x, y) ∧ d' = d
      · have hr : q.2 ∈ y :: ys ∧ q.1 = x ∧ d' = d := by
          refine ⟨?_, ?_, hq.2⟩
          · rw [hq.1]; exact List.mem_cons_self y ys
          · rw [hq.1]
        rw [if_neg hm, if_pos hq, if_pos hr]
      · have hr : ¬(q.2 ∈ y :: ys ∧ q.1 = x ∧ d' = d) := by
          intro hc
          rcases List.mem_cons.mp hc.1 with h1 | h1
          · exact hq ⟨Prod.ext hc.2.1 h1, hc.2.2⟩
          · exact hm ⟨h1, hc.2⟩
        rw [if_neg hm, if_neg hq, if_neg hr]

theorem addWallRow_walls (m : Maze) (d : Dir) (y : Nat) (q : Pos) (d' : Dir) :
    (addWallRow m d y).walls q d' =
      if q.1 < m.width ∧ q.2 = y ∧ d' = d then true else m.walls q d' := by
  unfold addWallRow
  rw [foldl_addWall_row_walls]
  simp [List.mem_range]

theorem addWallCol_walls (m : Maze) (d : Dir) (x : Nat) (q : Pos) (d' : Dir) :
    (addWallCol m d x).walls q d' =
      if q.2 < m.height ∧ q.1 = x ∧ d' = d then true else m.walls q d' := by
  unfold addWallCol
  rw [foldl_addWall_col_walls]
  simp [List.mem_range]

theorem foldl_addWall_row_frame (d : Dir) (y : Nat) :
    ∀ (xs : List Nat) (m : Maze),
      sameFrame (xs.foldl (fun mm x => mm.addWall (x, y) d) m) m := by
  intro xs
  induction xs with
  | nil => intro m; exact sameFrame_refl m
  | cons x xs ih =>
    intro m
    rw [List.foldl_cons]
    exact sameFrame_trans (ih _) (setWall_frame m (x, y) d true)

theorem foldl_addWall_col_frame (d : Dir) (x : Nat) :
    ∀ (ys : List Nat) (m : Maze),
      sameFrame (ys.foldl (fun mm y => mm.addWall (x, y) d) m) m := by
  intro ys
  induction ys with
  | nil => intro m; exact sameFrame_refl m
  | cons y ys ih =>
    intro m
    rw [List.foldl_cons]
    exact sameFrame_trans (ih _) (setWall_frame m (x, y) d true)

theorem addWallRow_frame (m : Maze) (d : Dir) (y : Nat) : sameFrame (addWallRow m d y) m :=
  foldl_addWall_row_frame d y _ m

theorem addWallCol_frame (m : Maze) (d : Dir) (x : Nat) : sameFrame (addWallCol m d x) m :=
  foldl_addWall_col_frame d x _ m

theorem addWallRow_width (m : Maze) (d : Dir) (y : Nat) :
    (addWallRow m d y).width = m.width := (addWallRow_frame m d y).1

theorem addWallRow_height (m : Maze) (d : Dir) (y : Nat) :
    (addWallRow m d y).height = m.height := (addWallRow_frame m d y).2.1

theorem addWallRow_start (m : Maze) (d : Dir) (y : Nat) :
    (addWallRow m d y).start = m.start := (addWallRow_frame m d y).2.2.1

theorem addWallRow_finish (m : Maze) (d : Dir) (y : Nat) :
    (addWallRow m d y).finish = m.finish := (addWallRow_frame m d y).2.2.2

theorem addWallCol_width (m : Maze) (d : Dir) (x : Nat) :
    (addWallCol m d x).width = m.width := (addWallCol_frame m d x).1

theorem addWallCol_height (m : Maze) (d : Dir) (x : Nat) :
    (addWallCol m d x).height = m.height := (addWallCol_frame m d x).2.1

theorem addWallCol_start (m : Maze) (d : Dir) (x : Nat) :
    (addWallCol m d x).start = m.start := (addWallCol_frame m d x).2.2.1

theorem addWallCol_finish (m : Maze) (d : Dir) (x : Nat) :
    (addWallCol m d x).finish = m.finish := (addWallCol_frame m d x).2.2.2

theorem carvePath_frame (w h : Nat) :
    ∀ (path : List Pos) (cur : Pos) (m : Maze) (vis : Pos → Bool) (cnt : Nat),
      sameFrame (carvePath w h path cur (m, vis, cnt)).1 m := by
  intro path
  induction path with
  | nil => intro cur m vis cnt; exact sameFrame_refl m
  | cons p rest ih =>
    intro cur m vis cnt
    unfold carvePath
    refine sameFrame_trans (ih cur _ _ _) ?_
    split
    · split
      · exact carve_frame m p _ _
      · exact sameFrame_refl m
    · exact sameFrame_refl m

theorem wilsonsOuter_frame (w h : Nat) :
    ∀ (fuel : Nat) (m : Maze) (vis : Pos → Bool) (cnt : Nat) (rs : Rng),
      sameFrame (wilsonsOuter w h fuel m vis cnt rs).1 m := by
  intro fuel
  induction fuel with
  | zero => intro m vis cnt rs; exact sameFrame_refl m
  | succ fuel ih =>
    intro m vis cnt rs
    unfold wilsonsOuter
    split
    · split
      · exact sameFrame_refl m
      · split
        · exact sameFrame_trans (ih _ _ _ _) (carvePath_frame w h _ _ m vis cnt)
        · exact ih m vis cnt _
    · exact sameFrame_refl m


/-- Boundary behaviour of the fixed `ensureBoundaryWalls` for the standard
corner start/finish: both boundary sides of the start corner and both of
the finish corner end up open, and every other boundary wall is present. -/
theorem ensureBoundaryWallsW_spec (m : Maze) (hw : 2 ≤ m.width) (hh : 2 ≤ m.height)
    (hs : m.start = (0, 0)) (hf : m.finish = (m.width - 1, m.height - 1)) :
    ((ensureBoundaryWallsW m).walls (0, 0) .N = false ∧
      (ensureBoundaryWallsW m).walls (0, 0) .W = false) ∧
    ((ensureBoundaryWallsW m).walls (m.width - 1, m.height - 1) .E = false ∧
      (ensureBoundaryWallsW m).walls (m.width - 1, m.height - 1) .S = false) ∧
    (∀ x, x < m.width → 0 < x → (ensureBoundaryWallsW m).walls (x, 0) .N = true) ∧
    (∀ x, x < m.width → x ≠ m.width - 1 →
      (ensureBoundaryWallsW m).walls (x, m.height - 1) .S = true) ∧
    (∀ y, y < m.height → 0 < y → (ensureBoundaryWallsW m).walls (0, y) .W = true) ∧
    (∀ y, y < m.height → y ≠ m.height - 1 →
      (ensureBoundaryWallsW m).walls (m.width - 1, y) .E = true) := by
  have hw1 : (0 : Nat) ≠ m.width - 1 := by omega
  have hh1 : (0 : Nat) ≠ m.height - 1 := by omega
  have hwlt : m.width - 1 < m.width := by omega
  have hhlt : m.height - 1 < m.height := by omega
  refine ⟨⟨?_, ?_⟩, ⟨?_, ?_⟩, ?_, ?_, ?_, ?_⟩
  · simp [ensureBoundaryWallsW, hs, hf, removeWall_walls, addWallCol_walls, addWallRow_walls,
      addWallCol_height, addWallCol_width, addWallRow_height, addWallRow_width,
      Prod.ext_iff, hw1, hh1, Ne.symm hw1, Ne.symm hh1]
  · simp [ensureBoundaryWallsW, hs, hf, removeWall_walls, addWallCol_walls, addWallRow_walls,
      addWallCol_height, addWallCol_width, addWallRow_height, addWallRow_width,
      Prod.ext_iff, hw1, hh1, Ne.symm hw1, Ne.symm hh1]
  · simp [ensureBoundaryWallsW, hs, hf, removeWall_walls, addWallCol_walls, addWallRow_walls,
      addWallCol_height, addWallCol_width, addWallRow_height, addWallRow_width,
      Prod.ext_iff, hw1, hh1, Ne.symm hw1, Ne.symm hh1]
  · simp [ensureBoundaryWallsW, hs, hf, removeWall_walls, addWallCol_walls, addWallRow_walls,
      addWallCol_height, addWallCol_width, addWallRow_height, addWallRow_width,
      Prod.ext_iff, hw1, hh1, Ne.symm hw1, Ne.symm hh1]
  · intro x hx hx0
    simp [ensureBoundaryWallsW, hs, hf, removeWall_walls, addWallCol_walls, addWallRow_walls,
      addWallCol_height, addWallCol_width, addWallRow_height, addWallRow_width,
      Prod.ext_iff, hx, Nat.pos_iff_ne_zero.mp hx0]
  · intro x hx hxne
    simp [ensureBoundaryWallsW, hs, hf, removeWall_walls, addWallCol_walls, addWallRow_walls,
      addWallCol_height, addWallCol_width, addWallRow_height, addWallRow_width,
      Prod.ext_iff, hx, hxne, hh1, Ne.symm hh1]
  · intro y hy hy0
    simp [ensureBoundaryWallsW, hs, hf, removeWall_walls, addWallCol_walls, addWallRow_walls,
      addWallCol_height, addWallCol_width, addWallRow_height, addWallRow_width,
      Prod.ext_iff, hy, Nat.pos_iff_ne_zero.mp hy0]
  · intro y hy hyne
    simp [ensureBoundaryWallsW, hs, hf, removeWall_walls, addWallCol_walls, addWallRow_walls,
      addWallCol_height, addWallCol_width, addWallRow_height, addWallRow_width,
      Prod.ext_iff, hy, hyne, hw1, Ne.symm hw1]

/-! ### Binary Tree, working version (src/unnamed/part_003) -/

/-- `Math.random() < 0.5` as a coin flip drawn from the stream. -/
def randBool (rs : Rng) : Bool × Rng := (rs.headD 0 % 2 = 0, rs.tail)

/-- The per-cell carving step of the working Binary Tree:
`canGoNorth = y > 0`, `canGoEast = x < width - 1`; skip the top-right
corner, otherwise carve north or east (coin flip when both are
available). -/
def binaryTreeCarve (x y : Nat) (m : Maze) (rs : Rng) : Maze × Rng :=
  if 0 < y then
    if x < m.width - 1 then
      if (randBool rs).1 then (m.carve (x, y) .N (x, y - 1), (randBool rs).2)
      else (m.carve (x, y) .E (x + 1, y), (randBool rs).2)
    else (m.carve (x, y) .N (x, y - 1), rs)
  else
    if x < m.width - 1 then (m.carve (x, y) .E (x + 1, y), rs)
    else (m, rs)

/-- `generateBinaryTree(width, height)` — the working version: all walls
up, row-major carving, then open the entrance `W` wall of `(0,0)` and the
exit `E` wall of `(width-1, height-1)`. -/
def generateBinaryTree (w h : Nat) (rs : Rng) : Maze :=
  ((((List.range h).foldl
      (fun st y => (List.range w).foldl (fun st2 x => binaryTreeCarve x y st2.1 st2.2) st)
      (fullyWalled w h, rs)).1.removeWall (0, 0) .W).removeWall (w - 1, h - 1) .E)

/-- Fold invariant principle. -/
theorem foldl_invariant {α β : Type _} (P : β → Prop) (f : β → α → β) :
    ∀ (xs : List α) (b : β), P b → (∀ a ∈ xs, ∀ b', P b' → P (f b' a)) →
      P (xs.foldl f b) := by
  intro xs
  induction xs with
  | nil => intro b hb _; exact hb
  | cons a xs ih =>
    intro b hb hstep
    exact ih _ (hstep a (List.mem_cons_self a xs) b hb)
      fun a' ha' b' hb' => hstep a' (List.mem_cons_of_mem _ ha') b' hb'

/-- The invariant carried through the Binary Tree carving loop: the frame
is that of `fullyWalled w h` and every boundary wall is still present. -/
def btInv (w h : Nat) (st : Maze × Rng) : Prop :=
  st.1.width = w ∧ st.1.height = h ∧
  (∀ x, st.1.walls (x, 0) .N = true) ∧
  (∀ x, st.1.walls (x, h - 1) .S = true) ∧
  (∀ y, st.1.walls (0, y) .W = true) ∧
  (∀ y, st.1.walls (w - 1, y) .E = true)

theorem binaryTreeCarve_inv {w h : Nat} (x y : Nat) (hy : y < h) {st : Maze × Rng}
    (hP : btInv w h st) : btInv w h (binaryTreeCarve x y st.1 st.2) := by
  obtain ⟨hw, hh, hN, hS, hW, hE⟩ := hP
  have hcN : ∀ (rs' : Rng), 0 < y → btInv w h (st.1.carve (x, y) .N (x, y - 1), rs') := by
    intro rs' hy0
    refine ⟨hw, hh, ?_, ?_, ?_, ?_⟩
    · intro z
      have hcond : ¬(((z, 0) = (x, y - 1) ∧ Dir.N = Dir.N.opposite) ∨
          ((z, 0) = (x, y) ∧ Dir.N = Dir.N)) := by
        rintro (⟨h1, h2⟩ | ⟨h1, h2⟩)
        · simp [Dir.opposite] at h2
        · have h0 := congrArg Prod.snd h1
          simp only at h0
          omega
      rw [carve_walls, if_neg hcond]
      exact hN z
    · intro z
      have hcond : ¬(((z, h - 1) = (x, y - 1) ∧ Dir.S = Dir.N.opposite) ∨
          ((z, h - 1) = (x, y) ∧ Dir.S = Dir.N)) := by
        rintro (⟨h1, h2⟩ | ⟨h1, h2⟩)
        · have h0 := congrArg Prod.snd h1
          simp only at h0
          omega
        · simp [Dir.opposite] at h2
      rw [carve_walls, if_neg hcond]
      exact hS z
    · intro z
      have hcond : ¬(((0, z) = (x, y - 1) ∧ Dir.W = Dir.N.opposite) ∨
          ((0, z) = (x, y) ∧ Dir.W = Dir.N)) := by
        rintro (⟨h1, h2⟩ | ⟨h1, h2⟩) <;> simp [Dir.opposite] at h2
      rw [carve_walls, if_neg hcond]
      exact hW z
    · intro z
      have hcond : ¬(((w - 1, z) = (x, y - 1) ∧ Dir.E = Dir.N.opposite) ∨
          ((w - 1, z) = (x, y) ∧ Dir.E = Dir.N)) := by
        rintro (⟨h1, h2⟩ | ⟨h1, h2⟩) <;> simp [Dir.opposite] at h2
      rw [carve_walls, if_neg hcond]
      exact hE z
  have hcE : ∀ (rs' : Rng), x < st.1.width - 1 →
      btInv w h (st.1.carve (x, y) .E (x + 1, y), rs') := by
    intro rs' hxe
    rw [hw] at hxe
    refine ⟨hw, hh, ?_, ?_, ?_, ?_⟩
    · intro z
      have hcond : ¬(((z, 0) = (x + 1, y) ∧ Dir.N = Dir.E.opposite) ∨
          ((z, 0) = (x, y) ∧ Dir.N = Dir.E)) := by
        rintro (⟨h1, h2⟩ | ⟨h1, h2⟩) <;> simp [Dir.opposite] at h2
      rw [carve_walls, if_neg hcond]
      exact hN z
    · intro z
      have hcond : ¬(((z, h - 1) = (x + 1, y) ∧ Dir.S = Dir.E.opposite) ∨
          ((z, h - 1) = (x, y) ∧ Dir.S = Dir.E)) := by
        rintro (⟨h1, h2⟩ | ⟨h1, h2⟩) <;> simp [Dir.opposite] at h2
      rw [carve_walls, if_neg hcond]
      exact hS z
    · intro z
      have hcond : ¬(((0, z) = (x + 1, y) ∧ Dir.W = Dir.E.opposite) ∨
          ((0, z) = (x, y) ∧ Dir.W = Dir.E)) := by
        rintro (⟨h1, h2⟩ | ⟨h1, h2⟩)
        · have h0 := congrArg Prod.fst h1
          simp only at h0
          omega
        · simp [Dir.opposite] at h2
      rw [carve_walls, if_neg hcond]
      exact hW z
    · intro z
      have hcond : ¬(((w - 1, z) = (x + 1, y) ∧ Dir.E = Dir.E.opposite) ∨
          ((w - 1, z) = (x, y) ∧ Dir.E = Dir.E)) := by
        rintro (⟨h1, h2⟩ | ⟨h1, h2⟩)
        · simp [Dir.opposite] at h2
        · have h0 := congrArg Prod.fst h1
          simp only at h0
          omega
      rw [carve_walls, if_neg hcond]
      exact hE z
  unfold binaryTreeCarve
  split
  · split
    · split
      · exact hcN _ (by assumption)
      · exact hcE _ (by assumption)
    · exact hcN _ (by assumption)
  · split
    · exact hcE _ (by assumption)
    · exact ⟨hw, hh, hN, hS, hW, hE⟩

/-- Boundary behaviour of the working Binary Tree: exactly one boundary
wall is open at the start corner (its W side; its N side stays walled) and
one at the finish corner (its E side; its S side stays walled); every
other boundary wall is present. -/
theorem generateBinaryTree_boundary (w h : Nat) (rs : Rng) :
    (generateBinaryTree w h rs).walls (0, 0) .W = false ∧
    (∀ x, (generateBinaryTree w h rs).walls (x, 0) .N = true) ∧
    (∀ x, (generateBinaryTree w h rs).walls (x, h - 1) .S = true) ∧
    (generateBinaryTree w h rs).walls (w - 1, h - 1) .E = false ∧
    (∀ y, 0 < y → (generateBinaryTree w h rs).walls (0, y) .W = true) ∧
    (∀ y, y ≠ h - 1 → (generateBinaryTree w h rs).walls (w - 1, y) .E = true) := by
  have hinv : btInv w h ((List.range h).foldl
      (fun st y => (List.range w).foldl (fun st2 x => binaryTreeCarve x y st2.1 st2.2) st)
      (fullyWalled w h, rs)) := by
    apply foldl_invariant (btInv w h)
    · exact ⟨rfl, rfl, fun _ => rfl, fun _ => rfl, fun _ => rfl, fun _ => rfl⟩
    · intro yy hyy st' hst'
      apply foldl_invariant (btInv w h)
      · exact hst'
      · intro xx _ st2 hst2
        exact binaryTreeCarve_inv xx yy (List.mem_range.mp hyy) hst2
  obtain ⟨Mw, Mh, hN, hS, hW, hE⟩ := hinv
  unfold generateBinaryTree
  refine ⟨?_, ?_, ?_, ?_, ?_, ?_⟩
  · rw [removeWall_walls, if_neg (by rintro ⟨h1, h2⟩; simp at h2),
      removeWall_walls, if_pos ⟨rfl, rfl⟩]
  · intro x
    rw [removeWall_walls, if_neg (by rintro ⟨h1, h2⟩; simp at h2),
      removeWall_walls, if_neg (by rintro ⟨h1, h2⟩; simp at h2)]
    exact hN x
  · intro x
    rw [removeWall_walls, if_neg (by rintro ⟨h1, h2⟩; simp at h2),
      removeWall_walls, if_neg (by rintro ⟨h1, h2⟩; simp at h2)]
    exact hS x
  · rw [removeWall_walls, if_pos ⟨rfl, rfl⟩]
  · intro y hy0
    rw [removeWall_walls, if_neg (by rintro ⟨h1, h2⟩; simp at h2),
      removeWall_walls, if_neg (by
        rintro ⟨h1, h2⟩
        have h0 := congrArg Prod.snd h1
        simp only at h0
        omega)]
    exact hW y
  · intro y hyne
    rw [removeWall_walls, if_neg (by
        rintro ⟨h1, h2⟩
        have h0 := congrArg Prod.snd h1
        simp only at h0
        exact hyne h0),
      removeWall_walls, if_neg (by rintro ⟨h1, h2⟩; simp at h2)]
    exact hE y

/-- C5 (amended): boundary openness depends on the entrance/exit style.
Generators that open the entrance with a directional `removeWall` (the
working versions, here Binary Tree) leave exactly one boundary wall open
at `start` (its W side) and one at `finish` (its E side), all other
boundary walls present.  Generators that end with `ensureBoundaryWalls`
(the fixed versions, here Wilson's) open every boundary side the corner
start/finish touches: both N and W at `start = (0,0)` and both E and S at
`finish = (width-1, height-1)`; all other boundary walls are present. -/
theorem boundary_openness_amended (w h : Nat) (hw : 2 ≤ w) (hh : 2 ≤ h) (rs rs' : Rng) :
    (((generateWilsons w h rs).walls (0, 0) .N = false ∧
        (generateWilsons w h rs).walls (0, 0) .W = false) ∧
      ((generateWilsons w h rs).walls (w - 1, h - 1) .E = false ∧
        (generateWilsons w h rs).walls (w - 1, h - 1) .S = false) ∧
      (∀ x, x < w → 0 < x → (generateWilsons w h rs).walls (x, 0) .N = true) ∧
      (∀ x, x < w → x ≠ w - 1 → (generateWilsons w h rs).walls (x, h - 1) .S = true) ∧
      (∀ y, y < h → 0 < y → (generateWilsons w h rs).walls (0, y) .W = true) ∧
      (∀ y, y < h → y ≠ h - 1 → (generateWilsons w h rs).walls (w - 1, y) .E = true)) ∧
    ((generateBinaryTree w h rs').walls (0, 0) .W = false ∧
      (∀ x, (generateBinaryTree w h rs').walls (x, 0) .N = true) ∧
      (∀ x, (generateBinaryTree w h rs').walls (x, h - 1) .S = true) ∧
      (generateBinaryTree w h rs').walls (w - 1, h - 1) .E = false ∧
      (∀ y, 0 < y → (generateBinaryTree w h rs').walls (0, y) .W = true) ∧
      (∀ y, y ≠ h - 1 → (generateBinaryTree w h rs').walls (w - 1, y) .E = true)) := by
  constructor
  · obtain ⟨e1, e2, e3, e4⟩ := wilsonsOuter_frame w h (w * h) (fullyWalled w h)
      (fun p => p = ((randNat rs w).1, (randNat (randNat rs w).2 h).1)) 1
      (randNat (randNat rs w).2 h).2
    have e1' : (wilsonsOuter w h (w * h) (fullyWalled w h)
        (fun p => p = ((randNat rs w).1, (randNat (randNat rs w).2 h).1)) 1
        (randNat (randNat rs w).2 h).2).1.width = w := e1.trans rfl
    have e2' : (wilsonsOuter w h (w * h) (fullyWalled w h)
        (fun p => p = ((randNat rs w).1, (randNat (randNat rs w).2 h).1)) 1
        (randNat (randNat rs w).2 h).2).1.height = h := e2.trans rfl
    have e3' : (wilsonsOuter w h (w * h) (fullyWalled w h)
        (fun p => p = ((randNat rs w).1, (randNat (randNat rs w).2 h).1)) 1
        (randNat (randNat rs w).2 h).2).1.start = ((0 : Nat), (0 : Nat)) := e3.trans rfl
    have e4' : (wilsonsOuter w h (w * h) (fullyWalled w h)
        (fun p => p = ((randNat rs w).1, (randNat (randNat rs w).2 h).1)) 1
        (randNat (randNat rs w).2 h).2).1.finish = (w - 1, h - 1) := e4.trans rfl
    have hspec := ensureBoundaryWallsW_spec
      (wilsonsOuter w h (w * h) (fullyWalled w h)
        (fun p => p = ((randNat rs w).1, (randNat (randNat rs w).2 h).1)) 1
        (randNat (randNat rs w).2 h).2).1
      (by rw [e1']; exact hw) (by rw [e2']; exact hh) e3'
      (by rw [e4', e1', e2'])
    rw [e1', e2'] at hspec
    exact hspec
  · exact generateBinaryTree_boundary w h rs'

/-- Witness for C5 (amended) at `w = h = 2` with the empty choice
stream. -/
theorem boundary_openness_amended_witness :
    2 ≤ 2 ∧
    ((((generateWilsons 2 2 []).walls (0, 0) .N = false ∧
        (generateWilsons 2 2 []).walls (0, 0) .W = false) ∧
      ((generateWilsons 2 2 []).walls (2 - 1, 2 - 1) .E = false ∧
        (generateWilsons 2 2 []).walls (2 - 1, 2 - 1) .S = false) ∧
      (∀ x, x < 2 → 0 < x → (generateWilsons 2 2 []).walls (x, 0) .N = true) ∧
      (∀ x, x < 2 → x ≠ 2 - 1 → (generateWilsons 2 2 []).walls (x, 2 - 1) .S = true) ∧
      (∀ y, y < 2 → 0 < y → (generateWilsons 2 2 []).walls (0, y) .W = true) ∧
      (∀ y, y < 2 → y ≠ 2 - 1 → (generateWilsons 2 2 []).walls (2 - 1, y) .E = true)) ∧
    ((generateBinaryTree 2 2 []).walls (0, 0) .W = false ∧
      (∀ x, (generateBinaryTree 2 2 []).walls (x, 0) .N = true) ∧
      (∀ x, (generateBinaryTree 2 2 []).walls (x, 2 - 1) .S = true) ∧
      (generateBinaryTree 2 2 []).walls (2 - 1, 2 - 1) .E = false ∧
      (∀ y, 0 < y → (generateBinaryTree 2 2 []).walls (0, y) .W = true) ∧
      (∀ y, y ≠ 2 - 1 → (generateBinaryTree 2 2 []).walls (2 - 1, y) .E = true))) :=
  ⟨by decide, boundary_openness_amended 2 2 (by decide) (by decide) [] []⟩

/-! ### Wall symmetry and `ensureSinglePath` correctness -/

/-- The wall-symmetry invariant: for every in-bounds cell and every
neighbour it shares an edge with, the two sides of the shared edge agree
(`cellA.hasWall(dir) == cellB.hasWall(opposite(dir))`). -/
def symWalls (m : Maze) : Prop :=
  ∀ (p : Pos) (d : Dir) (q : Pos), inBounds m.width m.height p = true →
    movePos m.width m.height p d = some q →
    m.walls p d = m.walls q d.opposite

theorem opposite_opposite (d : Dir) : d.opposite.opposite = d := by
  cases d <;> rfl

/-- Moving and moving back (the source cell must be in bounds). -/
theorem movePos_symm {w h : Nat} {p q : Pos} {d : Dir} (hp : inBounds w h p = true)
    (hpq : movePos w h p d = some q) : movePos w h q d.opposite = some p := by
  simp only [inBounds, Bool.and_eq_true, decide_eq_true_eq] at hp
  obtain ⟨hpw, hph⟩ := hp
  cases d
  case N =>
    simp only [movePos] at hpq
    split at hpq
    · exact absurd hpq (by simp)
    · rename_i h0
      injection hpq with he
      subst he
      simp only [Dir.opposite, movePos]
      have e : p.2 - 1 + 1 = p.2 := by omega
      rw [e, if_pos hph]
  case E =>
    simp only [movePos] at hpq
    split at hpq
    · injection hpq with he
      subst he
      simp only [Dir.opposite, movePos]
      rw [if_neg (by omega)]
      have e : p.1 + 1 - 1 = p.1 := by omega
      rw [e]
    · exact absurd hpq (by simp)
  case S =>
    simp only [movePos] at hpq
    split at hpq
    · injection hpq with he
      subst he
      simp only [Dir.opposite, movePos]
      rw [if_neg (by omega)]
      have e : p.2 + 1 - 1 = p.2 := by omega
      rw [e]
    · exact absurd hpq (by simp)
  case W =>
    simp only [movePos] at hpq
    split at hpq
    · exact absurd hpq (by simp)
    · rename_i h0
      injection hpq with he
      subst he
      simp only [Dir.opposite, movePos]
      have e : p.1 - 1 + 1 = p.1 := by omega
      rw [e, if_pos hpw]

/-- The target of a move determines its source (no bounds needed). -/
theorem movePos_inj {w h : Nat} {p p' q : Pos} {d : Dir}
    (h1 : movePos w h p d = some q) (h2 : movePos w h p' d = some q) : p = p' := by
  cases d
  case N =>
    simp only [movePos] at h1 h2
    split at h1
    · exact absurd h1 (by simp)
    · split at h2
      · exact absurd h2 (by simp)
      · rename_i hz1 hz2
        injection h1 with e1
        injection h2 with e2
        rw [← e2] at e1
        have c1 := congrArg Prod.fst e1
        have c2 := congrArg Prod.snd e1
        simp only at c1 c2
        exact Prod.ext c1 (by omega)
  case E =>
    simp only [movePos] at h1 h2
    split at h1
    · split at h2
      · injection h1 with e1
        injection h2 with e2
        rw [← e2] at e1
        have c1 := congrArg Prod.fst e1
        have c2 := congrArg Prod.snd e1
        simp only at c1 c2
        exact Prod.ext (by omega) c2
      · exact absurd h2 (by simp)
    · exact absurd h1 (by simp)
  case S =>
    simp only [movePos] at h1 h2
    split at h1
    · split at h2
      · injection h1 with e1
        injection h2 with e2
        rw [← e2] at e1
        have c1 := congrArg Prod.fst e1
        have c2 := congrArg Prod.snd e1
        simp only at c1 c2
        exact Prod.ext c1 (by omega)
      · exact absurd h2 (by simp)
    · exact absurd h1 (by simp)
  case W =>
    simp only [movePos] at h1 h2
    split at h1
    · exact absurd h1 (by simp)
    · split at h2
      · exact absurd h2 (by simp)
      · rename_i hz1 hz2
        injection h1 with e1
        injection h2 with e2
        rw [← e2] at e1
        have c1 := congrArg Prod.fst e1
        have c2 := congrArg Prod.snd e1
        simp only at c1 c2
        exact Prod.ext (by omega) c2

/-- Paired carving preserves wall symmetry. -/
theorem carve_symWalls {m : Maze} {p : Pos} {d : Dir} {q : Pos}
    (hp : inBounds m.width m.height p = true)
    (hpq : movePos m.width m.height p d = some q) (hsym : symWalls m) :
    symWalls (m.carve p d q) := by
  intro r d' s hr hrs
  rw [(carve_shape m p d q).1, (carve_shape m p d q).2.1] at hrs
  rw [(carve_shape m p d q).1, (carve_shape m p d q).2.1] at hr
  rw [carve_walls, carve_walls]
  by_cases hc1 : (r = q ∧ d' = d.opposite) ∨ (r = p ∧ d' = d)
  · rw [if_pos hc1]
    have hkey : (s = q ∧ d'.opposite = d.opposite) ∨ (s = p ∧ d'.opposite = d) := by
      rcases hc1 with ⟨hr, hd⟩ | ⟨hr, hd⟩
      · subst hr; subst hd
        have h2 := movePos_symm hp hpq
        rw [hrs] at h2
        injection h2 with h2
        exact Or.inr ⟨h2, opposite_opposite d⟩
      · subst hr; subst hd
        rw [hpq] at hrs
        injection hrs with hq2
        exact Or.inl ⟨hq2.symm, rfl⟩
    rw [if_pos hkey]
  · rw [if_neg hc1]
    have hkey : ¬((s = q ∧ d'.opposite = d.opposite) ∨ (s = p ∧ d'.opposite = d)) := by
      rintro (⟨hs, hd⟩ | ⟨hs, hd⟩)
      · subst hs
        have hd' : d' = d := by
          have h0 := congrArg Dir.opposite hd
          rwa [opposite_opposite, opposite_opposite] at h0
        subst hd'
        exact hc1 (Or.inr ⟨movePos_inj hrs hpq, rfl⟩)
      · subst hs
        have hd' : d' = d.opposite := by
          have h0 := congrArg Dir.opposite hd
          rwa [opposite_opposite] at h0
        subst hd'
        exact hc1 (Or.inl ⟨movePos_inj hrs (movePos_symm hp hpq), rfl⟩)
    rw [if_neg hkey]
    exact hsym r d' s hr hrs

/-! ### Recursive Backtracker (src/algorithms/recursiveBacktracker.js, FIXED)

The depth-first generator: all walls up, walk to random unvisited
neighbours carving paired walls, backtrack via an explicit stack, with a
`totalCells * 10` iteration cap.  `getCell` never returns `null` at the
in-bounds coordinates the algorithm produces, so the "missing cell"
recovery branches of the source are dead code and the live path alone is
embedded.  The emergency scan when the stack runs dry mirrors the nested
`for` search for the first unvisited cell (`y` outer, `x` inner), exactly
`findUnvisited`. -/

/-- The state threaded through the main `while` loop of the Recursive
Backtracker: the maze, the `visited` grid, the explicit `stack`, the
current cell, the `totalVisited` counter and the random stream. -/
structure RBState where
  maze : Maze
  visited : Pos → Bool
  stack : List Pos
  cur : Pos
  totalVisited : Nat
  rng : Rng

/-- `getUnvisitedNeighbors(x, y)`: in-bounds unvisited neighbours in the
`Object.entries(directions)` order `N, E, S, W`, paired with the move
direction. -/
def getUnvisitedNeighbors (w h : Nat) (visited : Pos → Bool) (p : Pos) :
    List (Dir × Pos) :=
  dirList.filterMap fun d =>
    match movePos w h p d with
    | some q => if visited q then none else some (d, q)
    | none => none

/-- One iteration of the Recursive Backtracker loop: move forward to the
first element of the shuffled unvisited-neighbour list (carving the shared
wall from both sides), or backtrack by popping the stack, or — stack empty
— jump to the first unvisited cell found by the emergency scan (no change
at all when every cell is visited, where the source `break`s). -/
def rbStep (w h : Nat) (st : RBState) : RBState :=
  match getUnvisitedNeighbors w h st.visited st.cur with
  | [] =>
    match st.stack with
    | p :: rest => { st with cur := p, stack := rest }
    | [] =>
      match findUnvisited w h st.visited with
      | some q =>
        { st with cur := q, visited := fun r => r == q || st.visited r,
                  totalVisited := st.totalVisited + 1 }
      | none => st
  | n :: ns =>
    match fisherYates (n :: ns) st.rng with
    | ([], rs2) => { st with rng := rs2 }
    | (chosen :: _, rs2) =>
      { maze := st.maze.carve st.cur chosen.1 chosen.2
        visited := fun r => r == chosen.2 || st.visited r
        stack := st.cur :: st.stack
        cur := chosen.2
        totalVisited := st.totalVisited + 1
        rng := rs2 }

/-- The main loop `while (totalVisited < totalCells && iterations <
maxIterations)` as fuel recursion (`fuel = maxIterations`). -/
def rbLoop (w h totalCells : Nat) : RBState → Nat → RBState
  | st, 0 => st
  | st, fuel + 1 =>
    if st.totalVisited < totalCells then rbLoop w h totalCells (rbStep w h st) fuel
    else st

/-- `ensureBoundaryWalls(maze)` of the Recursive Backtracker: re-add the
four boundary wall lines, then open every boundary side the `start`
touches and every boundary side the `finish` touches (each checks all four
sides, in the order `W, N, E, S`). -/
def ensureBoundaryWallsRB (m : Maze) : Maze :=
  let m1 := addWallRow m .N 0
  let m2 := addWallRow m1 .S (m.height - 1)
  let m3 := addWallCol m2 .W 0
  let m4 := addWallCol m3 .E (m.width - 1)
  let m5 := if m.start.1 = 0 then m4.removeWall m.start .W else m4
  let m6 := if m.start.2 = 0 then m5.removeWall m.start .N else m5
  let m7 := if m.start.1 = m.width - 1 then m6.removeWall m.start .E else m6
  let m8 := if m.start.2 = m.height - 1 then m7.removeWall m.start .S else m7
  let m9 := if m.finish.1 = 0 then m8.removeWall m.finish .W else m8
  let m10 := if m.finish.2 = 0 then m9.removeWall m.finish .N else m9
  let m11 := if m.finish.1 = m.width - 1 then m10.removeWall m.finish .E else m10
  if m.finish.2 = m.height - 1 then m11.removeWall m.finish .S else m11

/-- `generateRecursiveBacktracker(width, height)` (FIXED version):
dimension validation, all walls up, the DFS carving loop from
`start = (0,0)`, boundary repair, final `isValid()` check.  The
non-integer check of the source is vacuous over `Nat`; the random stream
is threaded in and returned alongside the maze so that callers
(`generateMultiLayer`) can keep drawing from it. -/
def generateRecursiveBacktracker (w h : Nat) (rs : Rng) :
    Except String (Maze × Rng) :=
  if w < 2 ∨ h < 2 then
    .error "Recursive Backtracker: Width and height must be at least 2"
  else if 400 < w ∨ 400 < h then
    .error "Recursive Backtracker: Dimensions too large (max 400x400) - risk of stack overflow"
  else
    let stF := rbLoop w h (w * h)
      { maze := fullyWalled w h, visited := fun r => r == ((0 : Nat), (0 : Nat)),
        stack := [], cur := (0, 0), totalVisited := 1, rng := rs }
      (w * h * 10)
    let m1 := ensureBoundaryWallsRB stF.maze
    if m1.isValid = false then
      .error "Recursive Backtracker: Generated maze is invalid"
    else .ok (m1, stF.rng)

/-! ### Multi-layer generator (src/algorithms/multiLayer.js, FIXED —
src/unnamed/part_007)

Validates `width`/`height` (throwing below `2`), but **clamps** the
`layers` and `portals` options into `[2,5]` / `[1,10]` instead of
rejecting them; one Recursive Backtracker maze per layer, layers flattened
side by side, seam symmetry enforced, random seam portals punched, then
boundary repair and metadata attachment. -/

/-- `options` of `generateMultiLayer`; absent fields are `undefined`. -/
structure MLOptions where
  layers : Option Nat := none
  portals : Option Nat := none

/-- `Math.max(2, Math.min(5, options.layers ?? 2))`. -/
def mlLayers (o : MLOptions) : Nat := max 2 (min 5 (o.layers.getD 2))

/-- `Math.max(1, Math.min(10, options.portals ?? 4))`. -/
def mlPortals (o : MLOptions) : Nat := max 1 (min 10 (o.portals.getD 4))

/-- The per-layer generation loop: run the Recursive Backtracker once per
layer, wrap any failure in the `Failed to generate layer` message (the
layer index interpolated by the source is omitted from the embedded
message), and re-check `isValid()` on each layer maze. -/
def genLayers (w h : Nat) : Nat → Rng → Except String (List Maze × Rng)
  | 0, rs => .ok ([], rs)
  | n + 1, rs =>
    match generateRecursiveBacktracker w h rs with
    | .error e => .error ("Failed to generate layer: " ++ e)
    | .ok (mz, rs1) =>
      if mz.isValid = false then .error "Failed to generate layer: generation failed"
      else
        match genLayers w h n rs1 with
        | .error e => .error e
        | .ok (ms, rs2) => .ok (mz :: ms, rs2)

/-- `Initialize ALL cells with ALL walls`: the nested loop adding all four
walls at every in-bounds cell of the flat maze. -/
def allWallsOn (m : Maze) : Maze :=
  { m with walls := fun p d => if inBounds m.width m.height p then true else m.walls p d }

/-- Copy one cell of a layer maze into the flat maze: for each direction,
`addWall` when the source cell has the wall, `removeWall` otherwise. -/
def copyCell (src : Maze) (offsetX x y : Nat) (dst : Maze) : Maze :=
  dirList.foldl
    (fun acc d =>
      if src.walls (x, y) d then acc.addWall (offsetX + x, y) d
      else acc.removeWall (offsetX + x, y) d)
    dst

/-- Copy a whole layer (`y` outer, `x` inner). -/
def copyLayer (src : Maze) (w h offsetX : Nat) (dst : Maze) : Maze :=
  (List.range h).foldl
    (fun acc y => (List.range w).foldl (fun acc2 x => copyCell src offsetX x y acc2) acc)
    dst

/-- Copy every layer at its horizontal offset `layerIndex * width`. -/
def copyLayers (w h : Nat) : List Maze → Nat → Maze → Maze
  | [], _, dst => dst
  | src :: rest, idx, dst => copyLayers w h rest (idx + 1) (copyLayer src w h (idx * w) dst)

/-- Seam symmetry enforcement for one seam cell pair `(lx, y)–(lx+1, y)`:
if either facing wall is missing remove both, otherwise re-add both. -/
def seamFix (lx y : Nat) (dst : Maze) : Maze :=
  if !dst.walls (lx, y) .E || !dst.walls (lx + 1, y) .W then
    (dst.removeWall (lx, y) .E).removeWall (lx + 1, y) .W
  else (dst.addWall (lx, y) .E).addWall (lx + 1, y) .W

/-- The seam loop over every inter-layer boundary column. -/
def seamLoop (w h layers : Nat) (dst : Maze) : Maze :=
  (List.range (layers - 1)).foldl
    (fun acc l => (List.range h).foldl (fun acc2 y => seamFix ((l + 1) * w - 1) y acc2) acc)
    dst

/-- All potential portal locations: every seam cell pair, tagged with the
`layerPair` label of the source. -/
def mlPortalCandidates (w h layers : Nat) : List Portal :=
  (List.range (layers - 1)).flatMap fun l =>
    (List.range h).map fun y =>
      { src := ((l + 1) * w - 1, y), dst := ((l + 1) * w, y),
        layerPair := toString l ++ "-" ++ toString (l + 1) }

/-- Punch the selected portals: remove the facing `E`/`W` walls of each
candidate pair and record the portal (the `fromCell && toCell` guard is
the bounds test). -/
def applyPortals (dst : Maze) : List Portal → Maze × List Portal
  | [] => (dst, [])
  | p :: rest =>
    if inBounds dst.width dst.height p.src && inBounds dst.width dst.height p.dst then
      ((applyPortals ((dst.removeWall p.src .E).removeWall p.dst .W) rest).1,
        p :: (applyPortals ((dst.removeWall p.src .E).removeWall p.dst .W) rest).2)
    else applyPortals dst rest

/-- `generateMultiLayer(width, height, options)` (FIXED version):
width/height validation (throw), option clamping (no throw), per-layer
Recursive Backtracker runs, flattening, seam symmetry, shuffled portal
selection, boundary repair (`ensureMultiLayerBoundaryWalls` performs
exactly the steps of the Wilson-style `ensureBoundaryWalls`, so the
embedding reuses `ensureBoundaryWallsW`), metadata attachment and the
final `isValid()` check.  The flat `new Maze(...)` call is `mazeNew` with
an empty cell grid, immediately overwritten by the all-walls loop. -/
def generateMultiLayer (width height : Nat) (o : MLOptions) (rs : Rng) :
    Except String Maze :=
  if width < 2 ∨ height < 2 then
    .error "Multi-layer maze requires width and height >= 2"
  else
    match genLayers width height (mlLayers o) rs with
    | .error e => .error e
    | .ok (baseMazes, rs1) =>
      match mazeNew (width * mlLayers o) height (0, 0)
          (width * mlLayers o - 1, height - 1) [] with
      | .error e => .error e
      | .ok flat0 =>
        let flat1 := copyLayers width height baseMazes 0 (allWallsOn flat0)
        let flat2 := seamLoop width height (mlLayers o) flat1
        let cands := (fisherYates (mlPortalCandidates width height (mlLayers o)) rs1).1
        let chosen := cands.take (min (mlPortals o) cands.length)
        let (flat3, portalList) := applyPortals flat2 chosen
        let flat4 := ensureBoundaryWallsW flat3
        let flat5 := { flat4 with portals := some portalList,
                                  layers := some (mlLayers o),
                                  widthPerLayer := some width,
                                  heightPerLayer := some height }
        if flat5.isValid = false then .error "Generated multi-layer maze is invalid"
        else .ok flat5

/-- C7 counterexample: `generateMultiLayer` called with `layers = 7`
(outside `[2,5]`) and `portals = 99` (outside `[1,10]`) does not throw:
both options are silently clamped, the generation proceeds, and the
returned maze carries `_layers = 5`. -/
theorem generateMultiLayer_out_of_range_options_ok :
    (generateMultiLayer 2 2 { layers := some 7, portals := some 99 } []).isOk = true ∧
    (generateMultiLayer 2 2 { layers := some 7, portals := some 99 } []).toOption.bind
      Maze.layers = some 5 := by
  exact ⟨rfl, rfl⟩

/-- C7 (amended): the generators do fail fast with a descriptive error on
out-of-range `width`/`height` — `generateMultiLayer` itself throws for
dimensions below `2`, as does the Recursive Backtracker it delegates to —
but the `layers` and `portals` options are **clamped** into `[2,5]` and
`[1,10]` respectively (never rejected), so no option value can make
`generateMultiLayer` throw. -/
theorem multiLayer_validation_amended :
    (∀ rs, generateMultiLayer 1 5 { layers := none, portals := none } rs =
      .error "Multi-layer maze requires width and height >= 2") ∧
    (∀ o : MLOptions,
      2 ≤ mlLayers o ∧ mlLayers o ≤ 5 ∧ 1 ≤ mlPortals o ∧ mlPortals o ≤ 10) ∧
    (∀ rs, generateRecursiveBacktracker 1 5 rs =
      .error "Recursive Backtracker: Width and height must be at least 2") := by
  refine ⟨fun rs => rfl, fun o => ?_, fun rs => rfl⟩
  obtain ⟨l, p⟩ := o
  cases l <;> cases p <;> simp [mlLayers, mlPortals]

/-- `closeEdge` only changes wall flags. -/
theorem closeEdge_shape (m : Maze) (p : Pos) (d : Dir) (q : Pos) :
    (m.closeEdge p d q).width = m.width ∧ (m.closeEdge p d q).height = m.height ∧
      (m.closeEdge p d q).start = m.start := ⟨rfl, rfl, rfl⟩

/-- Per-slot characterisation of the paired wall insertion. -/
theorem closeEdge_walls (m : Maze) (p : Pos) (d : Dir) (q : Pos) (r : Pos) (d' : Dir) :
    (m.closeEdge p d q).walls r d' =
      if (r = q ∧ d' = d.opposite) ∨ (r = p ∧ d' = d) then true else m.walls r d' := by
  unfold Maze.closeEdge
  rw [addWall_walls, addWall_walls]
  by_cases h1 : r = q ∧ d' = d.opposite
  · simp [h1]
  · by_cases h2 : r = p ∧ d' = d
    · simp [h1, h2]
    · simp [h1, h2]

/-- Paired wall insertion (`closeEdge`) preserves wall symmetry. -/
theorem closeEdge_symWalls {m : Maze} {p : Pos} {d : Dir} {q : Pos}
    (hp : inBounds m.width m.height p = true)
    (hpq : movePos m.width m.height p d = some q) (hsym : symWalls m) :
    symWalls (m.closeEdge p d q) := by
  intro r d' s hr hrs
  rw [(closeEdge_shape m p d q).1, (closeEdge_shape m p d q).2.1] at hrs
  rw [(closeEdge_shape m p d q).1, (closeEdge_shape m p d q).2.1] at hr
  rw [closeEdge_walls, closeEdge_walls]
  by_cases hc1 : (r = q ∧ d' = d.opposite) ∨ (r = p ∧ d' = d)
  · rw [if_pos hc1]
    have hkey : (s = q ∧ d'.opposite = d.opposite) ∨ (s = p ∧ d'.opposite = d) := by
      rcases hc1 with ⟨hr2, hd⟩ | ⟨hr2, hd⟩
      · subst hr2; subst hd
        have h2 := movePos_symm hp hpq
        rw [hrs] at h2
        injection h2 with h2
        exact Or.inr ⟨h2, opposite_opposite d⟩
      · subst hr2; subst hd
        rw [hpq] at hrs
        injection hrs with hq2
        exact Or.inl ⟨hq2.symm, rfl⟩
    rw [if_pos hkey]
  · rw [if_neg hc1]
    have hkey : ¬((s = q ∧ d'.opposite = d.opposite) ∨ (s = p ∧ d'.opposite = d)) := by
      rintro (⟨hs, hd⟩ | ⟨hs, hd⟩)
      · subst hs
        have hd' : d' = d := by
          have h0 := congrArg Dir.opposite hd
          rwa [opposite_opposite, opposite_opposite] at h0
        subst hd'
        exact hc1 (Or.inr ⟨movePos_inj hrs hpq, rfl⟩)
      · subst hs
        have hd' : d' = d.opposite := by
          have h0 := congrArg Dir.opposite hd
          rwa [opposite_opposite] at h0
        subst hd'
        exact hc1 (Or.inl ⟨movePos_inj hrs (movePos_symm hp hpq), rfl⟩)
    rw [if_neg hkey]
    exact hsym r d' s hr hrs

/-- Writing one side of a boundary slot (a side with no in-grid
neighbour) preserves wall symmetry. -/
theorem setWall_boundary_symWalls {m : Maze} {p : Pos} {d : Dir} (b : Bool)
    (hnone : movePos m.width m.height p d = none)
    (hsym : symWalls m) : symWalls (m.setWall p d b) := by
  intro r d' s hr hrs
  have hr2 : inBounds m.width m.height r = true := hr
  have hrs2 : movePos m.width m.height r d' = some s := hrs
  rw [setWall_walls, setWall_walls]
  by_cases h1 : r = p ∧ d' = d
  · obtain ⟨hrp, hdd⟩ := h1
    subst hrp; subst hdd
    rw [hnone] at hrs2
    exact absurd hrs2 (by simp)
  · rw [if_neg h1]
    by_cases h2 : s = p ∧ d'.opposite = d
    · obtain ⟨hsp, hdd⟩ := h2
      subst hsp
      have hd' : d' = d.opposite := by
        have h0 := congrArg Dir.opposite hdd
        rwa [opposite_opposite] at h0
      subst hd'
      have h3 := movePos_symm hr2 hrs2
      rw [opposite_opposite, hnone] at h3
      exact absurd h3 (by simp)
    · rw [if_neg h2]
      exact hsym r d' s hr2 hrs2

/-- The four boundary-side facts: a top `N`, bottom `S`, left `W` or right
`E` side has no in-grid neighbour. -/
theorem movePos_top_none (w h x : Nat) : movePos w h (x, 0) .N = none := by
  simp [movePos]

theorem movePos_bottom_none (w h x y : Nat) (hy : h ≤ y + 1) :
    movePos w h (x, y) .S = none := by
  simp only [movePos, ite_eq_right_iff]
  omega

theorem movePos_left_none (w h y : Nat) : movePos w h (0, y) .W = none := by
  simp [movePos]

theorem movePos_right_none (w h x y : Nat) (hx : w ≤ x + 1) :
    movePos w h (x, y) .E = none := by
  simp only [movePos, ite_eq_right_iff]
  omega

/-- Adding walls along a row of boundary sides preserves wall symmetry. -/
theorem addWallRow_symWalls {m : Maze} {d : Dir} {y : Nat}
    (hb : ∀ x, movePos m.width m.height (x, y) d = none)
    (hsym : symWalls m) : symWalls (addWallRow m d y) := by
  have h := foldl_invariant
    (fun mm : Maze => symWalls mm ∧ mm.width = m.width ∧ mm.height = m.height)
    (fun mm x => mm.addWall (x, y) d) (List.range m.width) m ⟨hsym, rfl, rfl⟩ ?_
  · exact h.1
  · rintro x _ mm ⟨hs, hw, hh⟩
    refine ⟨?_, hw, hh⟩
    exact setWall_boundary_symWalls true (by rw [hw, hh]; exact hb x) hs

/-- Adding walls along a column of boundary sides preserves wall
symmetry. -/
theorem addWallCol_symWalls {m : Maze} {d : Dir} {x : Nat}
    (hb : ∀ y, movePos m.width m.height (x, y) d = none)
    (hsym : symWalls m) : symWalls (addWallCol m d x) := by
  have h := foldl_invariant
    (fun mm : Maze => symWalls mm ∧ mm.width = m.width ∧ mm.height = m.height)
    (fun mm y => mm.addWall (x, y) d) (List.range m.height) m ⟨hsym, rfl, rfl⟩ ?_
  · exact h.1
  · rintro y _ mm ⟨hs, hw, hh⟩
    refine ⟨?_, hw, hh⟩
    exact setWall_boundary_symWalls true (by rw [hw, hh]; exact hb y) hs

/-- A conditional boundary `removeWall` preserves wall symmetry. -/
theorem removeWall_if_symWalls {m : Maze} {p : Pos} {d : Dir} (c : Prop) [Decidable c]
    (hc : c → movePos m.width m.height p d = none) (hsym : symWalls m) :
    symWalls (if c then m.removeWall p d else m) := by
  by_cases h : c
  · rw [if_pos h]
    exact setWall_boundary_symWalls false (hc h) hsym
  · rw [if_neg h]
    exact hsym

/-- A fully walled grid is symmetric. -/
theorem fullyWalled_symWalls (w h : Nat) : symWalls (fullyWalled w h) :=
  fun _ _ _ _ _ => rfl

/-- Bundled step facts for boundary-repair chains: symmetry plus the fixed
frame, preserved by `addWallRow`. -/
theorem symFrame_addWallRow {w h : Nat} {mm : Maze} {d : Dir} {y : Nat}
    (hb : ∀ x, movePos w h (x, y) d = none)
    (hP : symWalls mm ∧ mm.width = w ∧ mm.height = h) :
    symWalls (addWallRow mm d y) ∧
      (addWallRow mm d y).width = w ∧ (addWallRow mm d y).height = h :=
  ⟨addWallRow_symWalls (fun x => by rw [hP.2.1, hP.2.2]; exact hb x) hP.1,
   by rw [addWallRow_width, hP.2.1], by rw [addWallRow_height, hP.2.2]⟩

/-- As `symFrame_addWallRow`, for `addWallCol`. -/
theorem symFrame_addWallCol {w h : Nat} {mm : Maze} {d : Dir} {x : Nat}
    (hb : ∀ y, movePos w h (x, y) d = none)
    (hP : symWalls mm ∧ mm.width = w ∧ mm.height = h) :
    symWalls (addWallCol mm d x) ∧
      (addWallCol mm d x).width = w ∧ (addWallCol mm d x).height = h :=
  ⟨addWallCol_symWalls (fun y => by rw [hP.2.1, hP.2.2]; exact hb y) hP.1,
   by rw [addWallCol_width, hP.2.1], by rw [addWallCol_height, hP.2.2]⟩

/-- As `symFrame_addWallRow`, for a conditional boundary `removeWall`. -/
theorem symFrame_removeWall_if {w h : Nat} {mm : Maze} {p : Pos} {d : Dir}
    (c : Prop) [Decidable c] (hb : c → movePos w h p d = none)
    (hP : symWalls mm ∧ mm.width = w ∧ mm.height = h) :
    symWalls (if c then mm.removeWall p d else mm) ∧
      (if c then mm.removeWall p d else mm).width = w ∧
      (if c then mm.removeWall p d else mm).height = h := by
  refine ⟨removeWall_if_symWalls c (fun hc => by rw [hP.2.1, hP.2.2]; exact hb hc) hP.1,
    ?_, ?_⟩
  · split
    · exact hP.2.1
    · exact hP.2.1
  · split
    · exact hP.2.2
    · exact hP.2.2

/-- The Wilson-style boundary repair preserves wall symmetry: every wall it
touches lies on the grid boundary. -/
theorem ensureBoundaryWallsW_symWalls {m : Maze} (hsym : symWalls m) :
    symWalls (ensureBoundaryWallsW m) := by
  unfold ensureBoundaryWallsW
  refine (symFrame_removeWall_if (w := m.width) (h := m.height) (m.finish.2 = m.height - 1) ?_
    (symFrame_removeWall_if (m.finish.1 = m.width - 1) ?_
      (symFrame_removeWall_if (m.start.2 = 0) ?_
        (symFrame_removeWall_if (m.start.1 = 0) ?_
          (symFrame_addWallCol ?_
            (symFrame_addWallCol ?_
              (symFrame_addWallRow ?_
                (symFrame_addWallRow ?_
                  ⟨hsym, rfl, rfl⟩)))))))).1
  · intro hc
    have hy : m.height ≤ m.finish.2 + 1 := by omega
    exact movePos_bottom_none _ _ _ _ hy
  · intro hc
    have hx : m.width ≤ m.finish.1 + 1 := by omega
    exact movePos_right_none _ _ _ _ hx
  · intro hc
    have hps : m.start = (m.start.1, 0) := by rw [← hc]
    rw [hps]
    exact movePos_top_none _ _ _
  · intro hc
    have hps : m.start = (0, m.start.2) := by rw [← hc]
    rw [hps]
    exact movePos_left_none _ _ _
  · intro y
    exact movePos_right_none _ _ _ _ (by omega)
  · intro y
    exact movePos_left_none _ _ _
  · intro x
    exact movePos_bottom_none _ _ _ _ (by omega)
  · intro x
    exact movePos_top_none _ _ _

/-- The Recursive Backtracker boundary repair preserves wall symmetry. -/
theorem ensureBoundaryWallsRB_symFrame {m : Maze} (hsym : symWalls m) :
    symWalls (ensureBoundaryWallsRB m) ∧ (ensureBoundaryWallsRB m).width = m.width ∧
      (ensureBoundaryWallsRB m).height = m.height := by
  unfold ensureBoundaryWallsRB
  refine (symFrame_removeWall_if (w := m.width) (h := m.height) (m.finish.2 = m.height - 1) ?_
    (symFrame_removeWall_if (m.finish.1 = m.width - 1) ?_
      (symFrame_removeWall_if (m.finish.2 = 0) ?_
        (symFrame_removeWall_if (m.finish.1 = 0) ?_
          (symFrame_removeWall_if (m.start.2 = m.height - 1) ?_
            (symFrame_removeWall_if (m.start.1 = m.width - 1) ?_
              (symFrame_removeWall_if (m.start.2 = 0) ?_
                (symFrame_removeWall_if (m.start.1 = 0) ?_
                  (symFrame_addWallCol ?_
                    (symFrame_addWallCol ?_
                      (symFrame_addWallRow ?_
                        (symFrame_addWallRow ?_
                          ⟨hsym, rfl, rfl⟩))))))))))))
  · intro hc
    have hy : m.height ≤ m.finish.2 + 1 := by omega
    exact movePos_bottom_none _ _ _ _ hy
  · intro hc
    have hx : m.width ≤ m.finish.1 + 1 := by omega
    exact movePos_right_none _ _ _ _ hx
  · intro hc
    have hps : m.finish = (m.finish.1, 0) := by rw [← hc]
    rw [hps]
    exact movePos_top_none _ _ _
  · intro hc
    have hps : m.finish = (0, m.finish.2) := by rw [← hc]
    rw [hps]
    exact movePos_left_none _ _ _
  · intro hc
    have hy : m.height ≤ m.start.2 + 1 := by omega
    exact movePos_bottom_none _ _ _ _ hy
  · intro hc
    have hx : m.width ≤ m.start.1 + 1 := by omega
    exact movePos_right_none _ _ _ _ hx
  · intro hc
    have hps : m.start = (m.start.1, 0) := by rw [← hc]
    rw [hps]
    exact movePos_top_none _ _ _
  · intro hc
    have hps : m.start = (0, m.start.2) := by rw [← hc]
    rw [hps]
    exact movePos_left_none _ _ _
  · intro y
    exact movePos_right_none _ _ _ _ (by omega)
  · intro y
    exact movePos_left_none _ _ _
  · intro x
    exact movePos_bottom_none _ _ _ _ (by omega)
  · intro x
    exact movePos_top_none _ _ _

/-- Opening the working generators entrance/exit pair (`W` at `(0,0)`,
`E` at `(width-1, height-1)`) touches only boundary sides, so it preserves
wall symmetry. -/
theorem workingOpen_symWalls {w h : Nat} {mm : Maze}
    (hP : symWalls mm ∧ mm.width = w ∧ mm.height = h) :
    symWalls ((mm.removeWall (0, 0) .W).removeWall (w - 1, h - 1) .E) := by
  have h1 : symWalls (mm.removeWall (0, 0) .W) :=
    setWall_boundary_symWalls false
      (by rw [hP.2.1, hP.2.2]; exact movePos_left_none _ _ _) hP.1
  have ew : (mm.removeWall (0, 0) .W).width = w := hP.2.1
  have eh : (mm.removeWall (0, 0) .W).height = h := hP.2.2
  refine setWall_boundary_symWalls false ?_ h1
  rw [ew, eh]
  have hx : w ≤ w - 1 + 1 := by omega
  exact movePos_right_none _ _ _ _ hx

/-- The working Binary Tree generator produces a wall-symmetric maze:
every carve is an in-bounds paired `removeWall`, and the final entrance and
exit openings sit on the boundary. -/
theorem generateBinaryTree_symWalls (w h : Nat) (rs : Rng) :
    symWalls (generateBinaryTree w h rs) := by
  unfold generateBinaryTree
  refine workingOpen_symWalls (foldl_invariant
    (fun st : Maze × Rng => symWalls st.1 ∧ st.1.width = w ∧ st.1.height = h)
    (fun st y => (List.range w).foldl (fun st2 x => binaryTreeCarve x y st2.1 st2.2) st)
    (List.range h) (fullyWalled w h, rs) ⟨fullyWalled_symWalls w h, rfl, rfl⟩ ?_)
  intro y hy st hst
  refine foldl_invariant
    (fun st2 : Maze × Rng => symWalls st2.1 ∧ st2.1.width = w ∧ st2.1.height = h)
    (fun st2 x => binaryTreeCarve x y st2.1 st2.2) (List.range w) st hst ?_
  intro x hx st2 hst2
  obtain ⟨hs2, hw2, hh2⟩ := hst2
  have hxw : x < w := List.mem_range.mp hx
  have hyh : y < h := List.mem_range.mp hy
  have hpb : inBounds st2.1.width st2.1.height (x, y) = true := by
    rw [hw2, hh2]
    simp [inBounds, hxw, hyh]
  simp only [binaryTreeCarve]
  split
  · rename_i hy0
    split
    · rename_i hxlt
      have hmvN : movePos st2.1.width st2.1.height (x, y) .N = some (x, y - 1) := by
        simp only [movePos]
        rw [if_neg (by omega)]
      have hmvE : movePos st2.1.width st2.1.height (x, y) .E = some (x + 1, y) := by
        simp only [movePos]
        rw [if_pos (by omega)]
      split
      · exact ⟨carve_symWalls hpb hmvN hs2, hw2, hh2⟩
      · exact ⟨carve_symWalls hpb hmvE hs2, hw2, hh2⟩
    · have hmvN : movePos st2.1.width st2.1.height (x, y) .N = some (x, y - 1) := by
        simp only [movePos]
        rw [if_neg (by omega)]
      exact ⟨carve_symWalls hpb hmvN hs2, hw2, hh2⟩
  · split
    · rename_i hxlt
      have hmvE : movePos st2.1.width st2.1.height (x, y) .E = some (x + 1, y) := by
        simp only [movePos]
        rw [if_pos (by omega)]
      exact ⟨carve_symWalls hpb hmvE hs2, hw2, hh2⟩
    · exact ⟨hs2, hw2, hh2⟩

/-- Case analysis of the carving-loop direction search. -/
theorem dirBetween_cases {p q : Pos} {d : Dir} (hd : dirBetween p q = some d) :
    (d = .N ∧ p.1 = q.1 ∧ p.2 = q.2 + 1) ∨ (d = .E ∧ q.1 = p.1 + 1 ∧ p.2 = q.2) ∨
    (d = .S ∧ p.1 = q.1 ∧ q.2 = p.2 + 1) ∨ (d = .W ∧ p.1 = q.1 + 1 ∧ p.2 = q.2) := by
  simp only [dirBetween, dirList, List.findSome?] at hd
  by_cases c1 : p.1 = q.1 ∧ p.2 = q.2 + 1
  · rw [if_pos c1] at hd
    simp at hd
    exact Or.inl ⟨hd.symm, c1⟩
  · rw [if_neg c1] at hd
    simp only [] at hd
    by_cases c2 : q.1 = p.1 + 1 ∧ p.2 = q.2
    · rw [if_pos c2] at hd
      simp at hd
      exact Or.inr (Or.inl ⟨hd.symm, c2⟩)
    · rw [if_neg c2] at hd
      simp only [] at hd
      by_cases c3 : p.1 = q.1 ∧ q.2 = p.2 + 1
      · rw [if_pos c3] at hd
        simp at hd
        exact Or.inr (Or.inr (Or.inl ⟨hd.symm, c3⟩))
      · rw [if_neg c3] at hd
        simp only [] at hd
        by_cases c4 : p.1 = q.1 + 1 ∧ p.2 = q.2
        · rw [if_pos c4] at hd
          simp at hd
          exact Or.inr (Or.inr (Or.inr ⟨hd.symm, c4⟩))
        · rw [if_neg c4] at hd
          exact absurd hd (by simp)

/-- When the direction search succeeds and the target cell is in bounds,
the found direction is a genuine grid move from `p` to `q`. -/
theorem dirBetween_movePos {w h : Nat} {p q : Pos} {d : Dir}
    (hd : dirBetween p q = some d) (hq : inBounds w h q = true) :
    movePos w h p d = some q := by
  simp only [inBounds, Bool.and_eq_true, decide_eq_true_eq] at hq
  rcases dirBetween_cases hd with ⟨hD, h1, h2⟩ | ⟨hD, h1, h2⟩ | ⟨hD, h1, h2⟩ | ⟨hD, h1, h2⟩ <;>
    subst hD <;> simp only [movePos]
  · rw [if_neg (by omega)]
    have e : (p.1, p.2 - 1) = q := Prod.ext (by omega) (by omega)
    rw [e]
  · rw [if_pos (by omega)]
    have e : (p.1 + 1, p.2) = q := Prod.ext (by omega) (by omega)
    rw [e]
  · rw [if_pos (by omega)]
    have e : (p.1, p.2 + 1) = q := Prod.ext (by omega) (by omega)
    rw [e]
  · rw [if_neg (by omega)]
    have e : (p.1 - 1, p.2) = q := Prod.ext (by omega) (by omega)
    rw [e]

/-- One carving step of the Wilson path loop keeps symmetry and the
frame: the carve is guarded by bounds checks on both endpoints and the
direction search guarantees adjacency. -/
theorem carveStep_symWalls {w h : Nat} {m : Maze} (p nxt : Pos)
    (hs : symWalls m) (hw : m.width = w) (hh : m.height = h) :
    symWalls (match dirBetween p nxt with
      | some d => if inBounds w h p && inBounds w h nxt then m.carve p d nxt else m
      | none => m) ∧
    (match dirBetween p nxt with
      | some d => if inBounds w h p && inBounds w h nxt then m.carve p d nxt else m
      | none => m).width = w ∧
    (match dirBetween p nxt with
      | some d => if inBounds w h p && inBounds w h nxt then m.carve p d nxt else m
      | none => m).height = h := by
  split
  · rename_i d hdb
    split
    · rename_i hbb
      rw [Bool.and_eq_true] at hbb
      have hmv : movePos m.width m.height p d = some nxt := by
        rw [hw, hh]
        exact dirBetween_movePos hdb hbb.2
      exact ⟨carve_symWalls (by rw [hw, hh]; exact hbb.1) hmv hs, hw, hh⟩
    · exact ⟨hs, hw, hh⟩
  · exact ⟨hs, hw, hh⟩

/-- The whole Wilson carving loop preserves wall symmetry. -/
theorem carvePath_symWalls (w h : Nat) :
    ∀ (path : List Pos) (cur : Pos) (m : Maze) (vis : Pos → Bool) (cnt : Nat),
      symWalls m → m.width = w → m.height = h →
      symWalls (carvePath w h path cur (m, vis, cnt)).1 := by
  intro path
  induction path with
  | nil => intro cur m vis cnt hs hw hh; exact hs
  | cons p rest ih =>
    intro cur m vis cnt hs hw hh
    unfold carvePath
    exact ih cur _ _ _ (carveStep_symWalls p _ hs hw hh).1
      (carveStep_symWalls p _ hs hw hh).2.1 (carveStep_symWalls p _ hs hw hh).2.2

/-- The outer Wilson loop preserves wall symmetry. -/
theorem wilsonsOuter_symWalls (w h : Nat) :
    ∀ (fuel : Nat) (m : Maze) (vis : Pos → Bool) (cnt : Nat) (rs : Rng),
      symWalls m → m.width = w → m.height = h →
      symWalls (wilsonsOuter w h fuel m vis cnt rs).1 := by
  intro fuel
  induction fuel with
  | zero => intro m vis cnt rs hs hw hh; exact hs
  | succ fuel ih =>
    intro m vis cnt rs hs hw hh
    unfold wilsonsOuter
    split
    · split
      · exact hs
      · rename_i x q heq
        split
        · have hfr := carvePath_frame w h
            (wilsonsWalk w h vis (w * h * 10) [] q rs).1
            (wilsonsWalk w h vis (w * h * 10) [] q rs).2.1 m vis cnt
          refine ih _ _ _ _ ?_ ?_ ?_
          · exact carvePath_symWalls w h _ _ m vis cnt hs hw hh
          · rw [hfr.1, hw]
          · rw [hfr.2.1, hh]
        · exact ih m vis cnt _ hs hw hh
    · exact hs

/-- The fixed Wilson generator produces a wall-symmetric maze. -/
theorem generateWilsons_symWalls (w h : Nat) (rs : Rng) :
    symWalls (generateWilsons w h rs) := by
  unfold generateWilsons
  exact ensureBoundaryWallsW_symWalls
    (wilsonsOuter_symWalls w h _ _ _ _ _ (fullyWalled_symWalls w h) rfl rfl)

/-- Membership in the unvisited-neighbour list certifies a grid move. -/
theorem mem_getUnvisitedNeighbors {w h : Nat} {vis : Pos → Bool} {p : Pos}
    {d : Dir} {q : Pos} (hmem : (d, q) ∈ getUnvisitedNeighbors w h vis p) :
    movePos w h p d = some q := by
  rw [getUnvisitedNeighbors, List.mem_filterMap] at hmem
  obtain ⟨a, _, ha⟩ := hmem
  split at ha
  · rename_i q' hq'
    split at ha
    · exact absurd ha (by simp)
    · injection ha with h1
      injection h1 with h2 h3
      subst h2
      subst h3
      exact hq'
  · exact absurd ha (by simp)

/-- The emergency scan returns an in-bounds cell. -/
theorem findUnvisited_inBounds {w h : Nat} {vis : Pos → Bool} {q : Pos}
    (hq : findUnvisited w h vis = some q) : inBounds w h q = true := by
  rw [findUnvisited] at hq
  obtain ⟨y, hy, hy2⟩ := List.exists_of_findSome?_eq_some hq
  obtain ⟨x, hx, hx2⟩ := List.exists_of_findSome?_eq_some hy2
  split at hx2
  · exact absurd hx2 (by simp)
  · injection hx2 with h1
    subst h1
    simp [inBounds, List.mem_range.mp hx, List.mem_range.mp hy]

/-- The invariant carried through the Recursive Backtracker loop:
symmetric walls, fixed frame, and in-bounds current cell and stack. -/
def RBInv (w h : Nat) (st : RBState) : Prop :=
  symWalls st.maze ∧ st.maze.width = w ∧ st.maze.height = h ∧
    inBounds w h st.cur = true ∧ ∀ p ∈ st.stack, inBounds w h p = true

/-- One Recursive Backtracker step preserves the invariant: forward moves
carve between the in-bounds current cell and a grid neighbour, backtracks
pop previously pushed in-bounds cells, and the emergency jump lands on a
scanned grid cell. -/
theorem rbStep_inv {w h : Nat} {st : RBState} (hP : RBInv w h st) :
    RBInv w h (rbStep w h st) := by
  obtain ⟨hs, hw, hh, hc, hst⟩ := hP
  unfold rbStep
  split
  · rename_i hnil
    split
    · rename_i p rest hstack
      refine ⟨hs, hw, hh, ?_, ?_⟩
      · exact hst p (by rw [hstack]; exact List.mem_cons_self p rest)
      · intro r hr
        exact hst r (by rw [hstack]; exact List.mem_cons_of_mem p hr)
    · split
      · rename_i q hq
        exact ⟨hs, hw, hh, findUnvisited_inBounds hq, hst⟩
      · exact ⟨hs, hw, hh, hc, hst⟩
  · rename_i n ns hnbrs
    split
    · exact ⟨hs, hw, hh, hc, hst⟩
    · rename_i chosen rest rs2 hfy
      have hmem : chosen ∈ getUnvisitedNeighbors w h st.visited st.cur := by
        have h1 : chosen ∈ (fisherYates (n :: ns) st.rng).1 := by
          rw [hfy]
          exact List.mem_cons_self chosen rest
        have h2 := (fisherYates_perm (n :: ns) st.rng).mem_iff.mp h1
        rw [← hnbrs] at h2
        exact h2
      have hmv : movePos w h st.cur chosen.1 = some chosen.2 :=
        mem_getUnvisitedNeighbors (by rw [← Prod.mk.eta (p := chosen)] at hmem; exact hmem)
      refine ⟨?_, hw, hh, ?_, ?_⟩
      · refine carve_symWalls ?_ ?_ hs
        · rw [hw, hh]
          exact hc
        · rw [hw, hh]
          exact hmv
      · exact movePos_inBounds hc hmv
      · intro r hr
        rcases List.mem_cons.mp hr with hr1 | hr2
        · rw [hr1]
          exact hc
        · exact hst r hr2

/-- The Recursive Backtracker main loop preserves the invariant. -/
theorem rbLoop_inv {w h : Nat} (totalCells : Nat) :
    ∀ (fuel : Nat) (st : RBState), RBInv w h st →
      RBInv w h (rbLoop w h totalCells st fuel) := by
  intro fuel
  induction fuel with
  | zero => intro st hP; exact hP
  | succ fuel ih =>
    intro st hP
    unfold rbLoop
    split
    · exact ih _ (rbStep_inv hP)
    · exact hP

/-- A successful Recursive Backtracker run returns a wall-symmetric maze
of the requested dimensions. -/
theorem generateRecursiveBacktracker_symFrame {w h : Nat} {rs : Rng} {m : Maze}
    {rs2 : Rng} (hok : generateRecursiveBacktracker w h rs = .ok (m, rs2)) :
    symWalls m ∧ m.width = w ∧ m.height = h := by
  unfold generateRecursiveBacktracker at hok
  split at hok
  · exact absurd hok (by simp)
  · split at hok
    · exact absurd hok (by simp)
    · rename_i hdim hbig
      dsimp only at hok
      split at hok
      · exact absurd hok (by simp)
      · injection hok with h1
        injection h1 with h2 h3
        subst h2
        have hinv := rbLoop_inv (w := w) (h := h) (w * h) (w * h * 10)
          { maze := fullyWalled w h, visited := fun r => r == ((0 : Nat), (0 : Nat)),
            stack := [], cur := (0, 0), totalVisited := 1, rng := rs }
          ⟨fullyWalled_symWalls w h, rfl, rfl,
            by simp only [inBounds, Bool.and_eq_true, decide_eq_true_eq]; omega,
            by intro p hp; cases hp⟩
        obtain ⟨hs, hww, hhh, _, _⟩ := hinv
        have ht := ensureBoundaryWallsRB_symFrame hs
        exact ⟨ht.1, by rw [ht.2.1, hww], by rw [ht.2.2, hhh]⟩

/-! ### Wall symmetry of the multi-layer generator

The layer copy writes each flat cell once (spans of distinct layers are
disjoint), the seam loop rewrites both sides of every seam edge to a
common value, and the portal punches are paired carves, so symmetry of the
Recursive Backtracker layers transfers to the flat maze. -/

/-- One copied cell: all four wall flags of the flat cell `(off+x, y)`
become the source cell flags, nothing else changes. -/
theorem copyCell_walls (src : Maze) (off x y : Nat) (dst : Maze) (q : Pos) (d : Dir) :
    (copyCell src off x y dst).walls q d =
      if q = (off + x, y) then src.walls (x, y) d else dst.walls q d := by
  have hset : ∀ (m : Maze) (dd : Dir),
      (if src.walls (x, y) dd then m.addWall (off + x, y) dd
       else m.removeWall (off + x, y) dd) =
        m.setWall (off + x, y) dd (src.walls (x, y) dd) := by
    intro m dd
    cases hb : src.walls (x, y) dd <;>
      simp [hb, Maze.addWall, Maze.removeWall]
  simp only [copyCell, dirList, List.foldl_cons, List.foldl_nil, hset]
  rw [setWall_walls, setWall_walls, setWall_walls, setWall_walls]
  by_cases hq : q = (off + x, y) <;> cases d <;> simp [hq]

/-- A copied row: every flat cell `(off+x, y)` with `x ∈ xs` holds the
source values. -/
theorem copyRow_walls (src : Maze) (off y : Nat) :
    ∀ (xs : List Nat) (dst : Maze) (q : Pos) (d : Dir),
      ((xs.foldl (fun acc x => copyCell src off x y acc) dst).walls q d) =
        (if q.2 = y ∧ ∃ x ∈ xs, q.1 = off + x then src.walls (q.1 - off, y) d
         else dst.walls q d) := by
  intro xs
  induction xs with
  | nil => intro dst q d; simp
  | cons x xs ih =>
    intro dst q d
    rw [List.foldl_cons, ih]
    by_cases hin : q.2 = y ∧ ∃ a ∈ xs, q.1 = off + a
    · have hcons : q.2 = y ∧ ∃ a ∈ x :: xs, q.1 = off + a := by
        obtain ⟨a, ha, he⟩ := hin.2
        exact ⟨hin.1, a, List.mem_cons_of_mem x ha, he⟩
      rw [if_pos hin, if_pos hcons]
    · rw [if_neg hin, copyCell_walls]
      by_cases hq : q = (off + x, y)
      · rw [if_pos hq]
        have hcond : q.2 = y ∧ ∃ a ∈ x :: xs, q.1 = off + a := by
          refine ⟨by rw [hq], x, List.mem_cons_self x xs, by rw [hq]⟩
        rw [if_pos hcond]
        have he : q.1 - off = x := by rw [hq]; omega
        rw [he]
      · have hneg : ¬(q.2 = y ∧ ∃ a ∈ x :: xs, q.1 = off + a) := by
          rintro ⟨h2, a, ha, he⟩
          rcases List.mem_cons.mp ha with ha1 | ha2
          · subst ha1
            exact hq (Prod.ext he h2)
          · exact hin ⟨h2, a, ha2, he⟩
        rw [if_neg hq, if_neg hneg]

/-- A membership-to-interval bridge for `List.range`. -/
theorem exists_range_offset {w off n : Nat} :
    (∃ x ∈ List.range w, n = off + x) ↔ off ≤ n ∧ n < off + w := by
  constructor
  · rintro ⟨x, hx, rfl⟩
    have := List.mem_range.mp hx
    omega
  · rintro ⟨h1, h2⟩
    exact ⟨n - off, List.mem_range.mpr (by omega), by omega⟩

/-- A copied layer: the span `[off, off+w) × [0, h)` holds the source
values, everything else is untouched. -/
theorem copyLayer_walls (src : Maze) (w h off : Nat) (dst : Maze) (q : Pos) (d : Dir) :
    (copyLayer src w h off dst).walls q d =
      if off ≤ q.1 ∧ q.1 < off + w ∧ q.2 < h then src.walls (q.1 - off, q.2) d
      else dst.walls q d := by
  unfold copyLayer
  have key : ∀ (ys : List Nat) (dst : Maze),
      ((ys.foldl
          (fun acc y => (List.range w).foldl (fun acc2 x => copyCell src off x y acc2) acc)
          dst).walls q d) =
        (if (∃ y ∈ ys, q.2 = y) ∧ off ≤ q.1 ∧ q.1 < off + w then
          src.walls (q.1 - off, q.2) d
         else dst.walls q d) := by
    intro ys
    induction ys with
    | nil => intro dst; simp
    | cons y ys ih =>
      intro dst
      rw [List.foldl_cons, ih]
      by_cases hin : (∃ a ∈ ys, q.2 = a) ∧ off ≤ q.1 ∧ q.1 < off + w
      · have hcons : (∃ a ∈ y :: ys, q.2 = a) ∧ off ≤ q.1 ∧ q.1 < off + w := by
          obtain ⟨⟨a, ha, he⟩, h2⟩ := hin
          exact ⟨⟨a, List.mem_cons_of_mem y ha, he⟩, h2⟩
        rw [if_pos hin, if_pos hcons]
      · rw [if_neg hin, copyRow_walls]
        by_cases hrow : q.2 = y ∧ ∃ x ∈ List.range w, q.1 = off + x
        · rw [if_pos hrow]
          have hiv := exists_range_offset.mp hrow.2
          have hcond : (∃ a ∈ y :: ys, q.2 = a) ∧ off ≤ q.1 ∧ q.1 < off + w :=
            ⟨⟨y, List.mem_cons_self y ys, hrow.1⟩, hiv⟩
          rw [if_pos hcond, hrow.1]
        · have hneg : ¬((∃ a ∈ y :: ys, q.2 = a) ∧ off ≤ q.1 ∧ q.1 < off + w) := by
            rintro ⟨⟨a, ha, he⟩, h2⟩
            rcases List.mem_cons.mp ha with ha1 | ha2
            · exact hrow ⟨by rw [he, ha1], exists_range_offset.mpr h2⟩
            · exact hin ⟨⟨a, ha2, he⟩, h2⟩
          rw [if_neg hrow, if_neg hneg]
  rw [key]
  by_cases hc : off ≤ q.1 ∧ q.1 < off + w ∧ q.2 < h
  · rw [if_pos ⟨⟨q.2, List.mem_range.mpr hc.2.2, rfl⟩, hc.1, hc.2.1⟩, if_pos hc]
  · have hneg : ¬((∃ a ∈ List.range h, q.2 = a) ∧ off ≤ q.1 ∧ q.1 < off + w) := by
      rintro ⟨⟨a, ha, he⟩, h1, h2⟩
      exact hc ⟨h1, h2, by rw [he]; exact List.mem_range.mp ha⟩
    rw [if_neg hneg, if_neg hc]

/-- Copied layers, outside all spans: nothing changes. -/
theorem copyLayers_walls_out (w h : Nat) :
    ∀ (srcs : List Maze) (idx : Nat) (dst : Maze) (q : Pos) (d : Dir),
      (q.1 < idx * w ∨ (idx + srcs.length) * w ≤ q.1 ∨ h ≤ q.2) →
      (copyLayers w h srcs idx dst).walls q d = dst.walls q d := by
  intro srcs
  induction srcs with
  | nil => intro idx dst q d hq; rfl
  | cons src rest ih =>
    intro idx dst q d hq
    simp only [List.length_cons] at hq
    have hlen : (idx + (rest.length + 1)) * w = (idx + 1 + rest.length) * w := by ring_nf
    have hmono : idx * w ≤ (idx + 1) * w := Nat.mul_le_mul_right w (by omega)
    have hmono2 : (idx + 1) * w ≤ (idx + 1 + rest.length) * w :=
      Nat.mul_le_mul_right w (by omega)
    have hstep : idx * w + w = (idx + 1) * w := by ring
    rw [copyLayers, ih (idx + 1) _ q d ?_, copyLayer_walls, if_neg ?_]
    · rintro ⟨ha, hb, hc⟩
      rcases hq with h1 | h2 | h3
      · omega
      · rw [hlen] at h2
        omega
      · omega
    · rcases hq with h1 | h2 | h3
      · left
        omega
      · right; left
        rw [hlen] at h2
        exact h2
      · right; right
        exact h3

/-- Copied layers, inside a span: the flat cell takes the value of the
`j`-th source maze. -/
theorem copyLayers_walls_in (w h : Nat) :
    ∀ (srcs : List Maze) (idx : Nat) (dst : Maze) (q : Pos) (d : Dir) (j : Nat)
      (hj : j < srcs.length),
      (idx + j) * w ≤ q.1 → q.1 < (idx + j + 1) * w → q.2 < h →
      (copyLayers w h srcs idx dst).walls q d =
        (srcs.get ⟨j, hj⟩).walls (q.1 - (idx + j) * w, q.2) d := by
  intro srcs
  induction srcs with
  | nil => intro idx dst q d j hj; exact absurd hj (by simp)
  | cons src rest ih =>
    intro idx dst q d j hj h1 h2 h3
    match j with
    | 0 =>
      rw [copyLayers, copyLayers_walls_out w h rest (idx + 1) _ q d]
      · rw [copyLayer_walls, if_pos ?_]
        · rfl
        · refine ⟨by simpa using h1, ?_, h3⟩
          have : (idx + 0 + 1) * w = idx * w + w := by ring
          omega
      · left
        have : (idx + 0 + 1) * w = (idx + 1) * w := by ring
        omega
    | j' + 1 =>
      rw [copyLayers]
      have e1 : (idx + (j' + 1)) = (idx + 1) + j' := by omega
      rw [e1] at h1 h2 ⊢
      exact ih (idx + 1) _ q d j' (by simpa using hj) h1 h2 h3

/-- Per-slot characterisation of one seam fix: both facing seam slots
receive the conjunction of the two previous flags (`false` when either
side was open — open both; `true` when both were walled — keep both). -/
theorem seamFix_walls (lx y : Nat) (dst : Maze) (q : Pos) (d : Dir) :
    (seamFix lx y dst).walls q d =
      if (q = (lx, y) ∧ d = .E) ∨ (q = (lx + 1, y) ∧ d = .W) then
        dst.walls (lx, y) .E && dst.walls (lx + 1, y) .W
      else dst.walls q d := by
  unfold seamFix
  cases ha : dst.walls (lx, y) .E <;> cases hb : dst.walls (lx + 1, y) .W
  · rw [if_pos (by simp [ha, hb]), removeWall_walls, removeWall_walls]
    by_cases h1 : q = (lx + 1, y) ∧ d = Dir.W
    · simp [h1, ha, hb]
    · by_cases h2 : q = (lx, y) ∧ d = Dir.E
      · simp [h1, h2, ha, hb]
      · simp [h1, h2]
  · rw [if_pos (by simp [ha, hb]), removeWall_walls, removeWall_walls]
    by_cases h1 : q = (lx + 1, y) ∧ d = Dir.W
    · simp [h1, ha, hb]
    · by_cases h2 : q = (lx, y) ∧ d = Dir.E
      · simp [h1, h2, ha, hb]
      · simp [h1, h2]
  · rw [if_pos (by simp [ha, hb]), removeWall_walls, removeWall_walls]
    by_cases h1 : q = (lx + 1, y) ∧ d = Dir.W
    · simp [h1, ha, hb]
    · by_cases h2 : q = (lx, y) ∧ d = Dir.E
      · simp [h1, h2, ha, hb]
      · simp [h1, h2]
  · rw [if_neg (by simp [ha, hb]), addWall_walls, addWall_walls]
    by_cases h1 : q = (lx + 1, y) ∧ d = Dir.W
    · simp [h1, ha, hb]
    · by_cases h2 : q = (lx, y) ∧ d = Dir.E
      · simp [h1, h2, ha, hb]
      · simp [h1, h2]

/-- One seam column processed over a list of rows. -/
theorem seamRow_walls (lx : Nat) :
    ∀ (ys : List Nat) (dst : Maze) (q : Pos) (d : Dir),
      ((ys.foldl (fun acc y => seamFix lx y acc) dst).walls q d) =
        if ∃ y ∈ ys, (q = (lx, y) ∧ d = .E) ∨ (q = (lx + 1, y) ∧ d = .W) then
          dst.walls (lx, q.2) .E && dst.walls (lx + 1, q.2) .W
        else dst.walls q d := by
  intro ys
  induction ys with
  | nil => intro dst q d; simp
  | cons y ys ih =>
    intro dst q d
    rw [List.foldl_cons, ih]
    by_cases hin : ∃ a ∈ ys, (q = (lx, a) ∧ d = Dir.E) ∨ (q = (lx + 1, a) ∧ d = Dir.W)
    · have hcons : ∃ a ∈ y :: ys, (q = (lx, a) ∧ d = Dir.E) ∨ (q = (lx + 1, a) ∧ d = Dir.W) := by
        obtain ⟨a, ha, hh⟩ := hin
        exact ⟨a, List.mem_cons_of_mem y ha, hh⟩
      rw [if_pos hin, if_pos hcons, seamFix_walls, seamFix_walls]
      by_cases hy : y = q.2
      · subst hy
        rw [if_pos (Or.inl ⟨rfl, rfl⟩), if_pos (Or.inr ⟨rfl, rfl⟩)]
        exact Bool.and_self _
      · have hn1 : ¬(((lx, q.2) : Pos) = (lx, y) ∧ Dir.E = Dir.E ∨
            ((lx, q.2) : Pos) = (lx + 1, y) ∧ Dir.E = Dir.W) := by
          rintro (⟨he, _⟩ | ⟨_, hde⟩)
          · injection he with e1 e2
            exact hy e2.symm
          · exact Dir.noConfusion hde
        have hn2 : ¬(((lx + 1, q.2) : Pos) = (lx, y) ∧ Dir.W = Dir.E ∨
            ((lx + 1, q.2) : Pos) = (lx + 1, y) ∧ Dir.W = Dir.W) := by
          rintro (⟨_, hde⟩ | ⟨he, _⟩)
          · exact Dir.noConfusion hde
          · injection he with e1 e2
            exact hy e2.symm
        rw [if_neg hn1, if_neg hn2]
    · rw [if_neg hin, seamFix_walls]
      by_cases htouch : (q = (lx, y) ∧ d = Dir.E) ∨ (q = (lx + 1, y) ∧ d = Dir.W)
      · have hq2 : q.2 = y := by
          rcases htouch with ⟨he, _⟩ | ⟨he, _⟩ <;> rw [he]
        have hcons : ∃ a ∈ y :: ys, (q = (lx, a) ∧ d = Dir.E) ∨ (q = (lx + 1, a) ∧ d = Dir.W) :=
          ⟨y, List.mem_cons_self y ys, htouch⟩
        rw [if_pos htouch, if_pos hcons, hq2]
      · have hcons : ¬∃ a ∈ y :: ys, (q = (lx, a) ∧ d = Dir.E) ∨ (q = (lx + 1, a) ∧ d = Dir.W) := by
          rintro ⟨a, ha, hh⟩
          rcases List.mem_cons.mp ha with ha1 | ha2
          · exact htouch (ha1 ▸ hh)
          · exact hin ⟨a, ha2, hh⟩
        rw [if_neg htouch, if_neg hcons]

/-- The value a seam slot receives (both sides of a seam edge get the
conjunction of the two facing flags taken before their seam fix). -/
def seamVal (dst : Maze) (q : Pos) : Dir → Bool
  | .E => dst.walls q .E && dst.walls (q.1 + 1, q.2) .W
  | .W => dst.walls (q.1 - 1, q.2) .E && dst.walls q .W
  | d => dst.walls q d

/-- Cancellation for seam column indices. -/
theorem seam_col_inj {a l w : Nat} (hw : 1 ≤ w) (he : (a + 1) * w = (l + 1) * w) :
    a = l := by
  have := Nat.eq_of_mul_eq_mul_right (show 0 < w by omega) he
  omega

/-- The seam loop over a duplicate-free list of layer indices: every seam
slot is rewritten to its `seamVal`, everything else is untouched.
Distinct layers touch disjoint slot sets, so the recorded value is always
read from the original maze. -/
theorem seamOuter_walls (w h : Nat) (hw : 1 ≤ w) :
    ∀ (ls : List Nat), ls.Nodup → ∀ (dst : Maze) (q : Pos) (d : Dir),
      ((ls.foldl
          (fun acc l =>
            (List.range h).foldl (fun acc2 y => seamFix ((l + 1) * w - 1) y acc2) acc)
          dst).walls q d) =
        if ∃ l ∈ ls, ∃ y ∈ List.range h,
            (q = ((l + 1) * w - 1, y) ∧ d = .E) ∨ (q = ((l + 1) * w, y) ∧ d = .W) then
          seamVal dst q d
        else dst.walls q d := by
  intro ls
  induction ls with
  | nil => intro _ dst q d; simp
  | cons l ls ih =>
    intro hnd dst q d
    have hl : l ∉ ls := (List.nodup_cons.mp hnd).1
    have hw1 : ∀ b : Nat, 1 ≤ (b + 1) * w := fun b =>
      Nat.le_trans hw (Nat.le_mul_of_pos_left w (by omega))
    rw [List.foldl_cons, ih (List.nodup_cons.mp hnd).2]
    by_cases hin : ∃ a ∈ ls, ∃ y ∈ List.range h,
        (q = ((a + 1) * w - 1, y) ∧ d = Dir.E) ∨ (q = ((a + 1) * w, y) ∧ d = Dir.W)
    · have hcons : ∃ a ∈ l :: ls, ∃ y ∈ List.range h,
          (q = ((a + 1) * w - 1, y) ∧ d = Dir.E) ∨ (q = ((a + 1) * w, y) ∧ d = Dir.W) := by
        obtain ⟨a, ha, hy⟩ := hin
        exact ⟨a, List.mem_cons_of_mem l ha, hy⟩
      rw [if_pos hin, if_pos hcons]
      obtain ⟨a, ha, y0, hy0, hslot⟩ := hin
      have hane : a ≠ l := fun he => hl (he ▸ ha)
      have hcol : (a + 1) * w - 1 ≠ (l + 1) * w - 1 := by
        intro he
        have hx1 := hw1 a
        have hx2 := hw1 l
        have he2 : (a + 1) * w = (l + 1) * w := by omega
        exact hane (seam_col_inj hw he2)
      have hcol2 : (a + 1) * w ≠ (l + 1) * w := fun he => hane (seam_col_inj hw he)
      rcases hslot with ⟨he, hd⟩ | ⟨he, hd⟩ <;> subst hd
      · simp only [seamVal]
        rw [seamRow_walls, seamRow_walls, if_neg ?_, if_neg ?_]
        · rintro ⟨b, hb, ⟨he2, hde⟩ | ⟨he2, _⟩⟩
          · exact Dir.noConfusion hde
          · injection he2 with e1 e2
            have e0 : q.1 = (a + 1) * w - 1 := by rw [he]
            have hx1 := hw1 a
            have hx2 := hw1 l
            have he3 : (a + 1) * w = (l + 1) * w := by omega
            exact hane (seam_col_inj hw he3)
        · rintro ⟨b, hb, ⟨he2, _⟩ | ⟨_, hde⟩⟩
          · have e0 : q.1 = (a + 1) * w - 1 := by rw [he]
            have e1 : q.1 = (l + 1) * w - 1 := by rw [he2]
            exact hcol (e0 ▸ e1)
          · exact Dir.noConfusion hde
      · simp only [seamVal]
        rw [seamRow_walls, seamRow_walls, if_neg ?_, if_neg ?_]
        · rintro ⟨b, hb, ⟨he2, hde⟩ | ⟨he2, _⟩⟩
          · exact Dir.noConfusion hde
          · have e1 : q.1 = (l + 1) * w - 1 + 1 := by rw [he2]
            have e0 : q.1 = (a + 1) * w := by rw [he]
            have hx1 := hw1 a
            have hx2 := hw1 l
            have he3 : (a + 1) * w = (l + 1) * w := by omega
            exact hane (seam_col_inj hw he3)
        · rintro ⟨b, hb, ⟨he2, _⟩ | ⟨_, hde⟩⟩
          · injection he2 with e1 e2
            have e0 : q.1 = (a + 1) * w := by rw [he]
            have hx1 := hw1 a
            have hx2 := hw1 l
            have he3 : (a + 1) * w = (l + 1) * w := by omega
            exact hane (seam_col_inj hw he3)
          · exact Dir.noConfusion hde
    · rw [if_neg hin, seamRow_walls]
      by_cases hrow : ∃ b ∈ List.range h,
          (q = ((l + 1) * w - 1, b) ∧ d = Dir.E) ∨ (q = ((l + 1) * w - 1 + 1, b) ∧ d = Dir.W)
      · have hcons : ∃ a ∈ l :: ls, ∃ y ∈ List.range h,
            (q = ((a + 1) * w - 1, y) ∧ d = Dir.E) ∨ (q = ((a + 1) * w, y) ∧ d = Dir.W) := by
          obtain ⟨b, hb, hbs⟩ := hrow
          refine ⟨l, List.mem_cons_self l ls, b, hb, ?_⟩
          rcases hbs with ⟨he, hd⟩ | ⟨he, hd⟩
          · exact Or.inl ⟨he, hd⟩
          · refine Or.inr ⟨?_, hd⟩
            rw [he]
            have : (l + 1) * w - 1 + 1 = (l + 1) * w := by
              have := hw1 l
              omega
            rw [this]
        rw [if_pos hrow, if_pos hcons]
        obtain ⟨b, hb, hbs⟩ := hrow
        rcases hbs with ⟨he, hd⟩ | ⟨he, hd⟩ <;> subst hd
        · have e1 : q.1 = (l + 1) * w - 1 := by rw [he]
          have eqq : (((l + 1) * w - 1, q.2) : Pos) = q := Prod.ext e1.symm rfl
          simp only [seamVal]
          rw [eqq, ← e1]
        · have e1 : q.1 = (l + 1) * w - 1 + 1 := by rw [he]
          have eqq : (((l + 1) * w - 1 + 1, q.2) : Pos) = q := Prod.ext e1.symm rfl
          have e2 : q.1 - 1 = (l + 1) * w - 1 := by omega
          simp only [seamVal]
          rw [eqq, e2]
      · have hcons : ¬∃ a ∈ l :: ls, ∃ y ∈ List.range h,
            (q = ((a + 1) * w - 1, y) ∧ d = Dir.E) ∨ (q = ((a + 1) * w, y) ∧ d = Dir.W) := by
          rintro ⟨a, ha, y0, hy0, hslot⟩
          rcases List.mem_cons.mp ha with ha1 | ha2
          · subst ha1
            refine hrow ⟨y0, hy0, ?_⟩
            rcases hslot with ⟨he, hd⟩ | ⟨he, hd⟩
            · exact Or.inl ⟨he, hd⟩
            · refine Or.inr ⟨?_, hd⟩
              rw [he]
              have : (a + 1) * w - 1 + 1 = (a + 1) * w := by
                have := hw1 a
                omega
              rw [this]
          · exact hin ⟨a, ha2, y0, hy0, hslot⟩
        rw [if_neg hrow, if_neg hcons]

/-- Cell copy keeps the frame. -/
theorem copyCell_frame (src : Maze) (off x y : Nat) (dst : Maze) :
    (copyCell src off x y dst).width = dst.width ∧
      (copyCell src off x y dst).height = dst.height := by
  refine foldl_invariant (fun mm : Maze => mm.width = dst.width ∧ mm.height = dst.height)
    _ dirList dst ⟨rfl, rfl⟩ ?_
  intro dd _ mm hP
  split
  · exact hP
  · exact hP

/-- Layer copy keeps the frame. -/
theorem copyLayer_frame (src : Maze) (w h off : Nat) (dst : Maze) :
    (copyLayer src w h off dst).width = dst.width ∧
      (copyLayer src w h off dst).height = dst.height := by
  refine foldl_invariant (fun mm : Maze => mm.width = dst.width ∧ mm.height = dst.height)
    _ (List.range h) dst ⟨rfl, rfl⟩ ?_
  intro y _ mm hP
  refine foldl_invariant (fun m2 : Maze => m2.width = dst.width ∧ m2.height = dst.height)
    _ (List.range w) mm hP ?_
  intro x _ m2 hP2
  exact ⟨(copyCell_frame src off x y m2).1.trans hP2.1,
    (copyCell_frame src off x y m2).2.trans hP2.2⟩

/-- Copying all layers keeps the frame. -/
theorem copyLayers_frame (w h : Nat) :
    ∀ (srcs : List Maze) (idx : Nat) (dst : Maze),
      (copyLayers w h srcs idx dst).width = dst.width ∧
        (copyLayers w h srcs idx dst).height = dst.height := by
  intro srcs
  induction srcs with
  | nil => intro idx dst; exact ⟨rfl, rfl⟩
  | cons src rest ih =>
    intro idx dst
    rw [copyLayers]
    exact ⟨(ih (idx + 1) _).1.trans (copyLayer_frame src w h (idx * w) dst).1,
      (ih (idx + 1) _).2.trans (copyLayer_frame src w h (idx * w) dst).2⟩

/-- A seam fix keeps the frame. -/
theorem seamFix_frame (lx y : Nat) (dst : Maze) :
    (seamFix lx y dst).width = dst.width ∧ (seamFix lx y dst).height = dst.height := by
  unfold seamFix
  split
  · exact ⟨rfl, rfl⟩
  · exact ⟨rfl, rfl⟩

/-- The seam loop keeps the frame. -/
theorem seamLoop_frame (w h L : Nat) (dst : Maze) :
    (seamLoop w h L dst).width = dst.width ∧ (seamLoop w h L dst).height = dst.height := by
  unfold seamLoop
  refine foldl_invariant (fun mm : Maze => mm.width = dst.width ∧ mm.height = dst.height)
    _ (List.range (L - 1)) dst ⟨rfl, rfl⟩ ?_
  intro l _ mm hP
  refine foldl_invariant (fun m2 : Maze => m2.width = dst.width ∧ m2.height = dst.height)
    _ (List.range h) mm hP ?_
  intro y _ m2 hP2
  exact ⟨(seamFix_frame _ y m2).1.trans hP2.1, (seamFix_frame _ y m2).2.trans hP2.2⟩

/-- Strict monotonicity transfer for layer spans. -/
theorem span_sandwich {w j l r : Nat} (hr : r + 1 < w)
    (he : w * j + r + 1 = w * (l + 1)) : False := by
  have e2 : w * (j + 1) = w * j + w := by ring
  have hA : w * j < w * (l + 1) := by omega
  have hB : w * (l + 1) < w * (j + 1) := by omega
  have hAB := Nat.lt_of_mul_lt_mul_left hA
  have hBB := Nat.lt_of_mul_lt_mul_left hB
  omega

/-- After copying symmetric equal-sized layers side by side and running
the seam-symmetry loop, the flat maze is wall-symmetric: interior edges of
a layer inherit the layer symmetry, and both sides of every seam edge hold
the same `seamVal`. -/
theorem flat_symWalls {w h L : Nat} (hw : 2 ≤ w) {srcs : List Maze}
    (hlen : srcs.length = L)
    (hsrcs : ∀ (j : Nat) (hj : j < srcs.length),
      symWalls (srcs.get ⟨j, hj⟩) ∧ (srcs.get ⟨j, hj⟩).width = w ∧
        (srcs.get ⟨j, hj⟩).height = h)
    {dst : Maze} (hdw : dst.width = w * L) (hdh : dst.height = h) :
    symWalls (seamLoop w h L (copyLayers w h srcs 0 dst)) := by
  have hw1 : 1 ≤ w := by omega
  have hFw : (seamLoop w h L (copyLayers w h srcs 0 dst)).width = w * L := by
    rw [(seamLoop_frame w h L _).1, (copyLayers_frame w h srcs 0 dst).1, hdw]
  have hFh : (seamLoop w h L (copyLayers w h srcs 0 dst)).height = h := by
    rw [(seamLoop_frame w h L _).2, (copyLayers_frame w h srcs 0 dst).2, hdh]
  have main : ∀ (p q : Pos) (d : Dir), d = Dir.N ∨ d = Dir.E →
      inBounds (w * L) h p = true → movePos (w * L) h p d = some q →
      (seamLoop w h L (copyLayers w h srcs 0 dst)).walls p d =
        (seamLoop w h L (copyLayers w h srcs 0 dst)).walls q d.opposite := by
    intro p q d hd hp hpq
    have hpb : p.1 < w * L ∧ p.2 < h := by
      simpa [inBounds] using hp
    obtain ⟨hp1, hp2⟩ := hpb
    obtain ⟨j, r, hjr, hrw, hjL⟩ : ∃ j r, p.1 = w * j + r ∧ r < w ∧ j < L :=
      ⟨p.1 / w, p.1 % w, (Nat.div_add_mod p.1 w).symm, Nat.mod_lt _ (by omega), by
        rw [Nat.div_lt_iff_lt_mul (by omega), Nat.mul_comm L w]
        exact hp1⟩
    have hjlen : j < srcs.length := by omega
    obtain ⟨hsymJ, hwj, hhj⟩ := hsrcs j hjlen
    have hA : (0 + j) * w ≤ p.1 := by
      have e : (0 + j) * w = w * j := by ring
      omega
    have hB : p.1 < (0 + j + 1) * w := by
      have e : (0 + j + 1) * w = w * j + w := by ring
      omega
    have hsub : p.1 - (0 + j) * w = r := by
      have e : (0 + j) * w = w * j := by ring
      omega
    rcases hd with hdN | hdE
    · subst hdN
      simp only [movePos] at hpq
      split at hpq
      · exact absurd hpq (by simp)
      · rename_i hp20
        injection hpq with hq
        subst hq
        simp only [Dir.opposite]
        unfold seamLoop
        rw [seamOuter_walls w h hw1 (List.range (L - 1)) (List.nodup_range _),
          seamOuter_walls w h hw1 (List.range (L - 1)) (List.nodup_range _)]
        rw [if_neg ?_, if_neg ?_]
        · rw [copyLayers_walls_in w h srcs 0 dst p Dir.N j hjlen hA hB hp2,
            copyLayers_walls_in w h srcs 0 dst (p.1, p.2 - 1) Dir.S j hjlen hA hB
              (by omega)]
          rw [hsub]
          have hmv : movePos (srcs.get ⟨j, hjlen⟩).width (srcs.get ⟨j, hjlen⟩).height
              (r, p.2) Dir.N = some (r, p.2 - 1) := by
            rw [hwj, hhj]
            simp only [movePos]
            rw [if_neg (by omega)]
          have hbnd : inBounds (srcs.get ⟨j, hjlen⟩).width (srcs.get ⟨j, hjlen⟩).height
              (r, p.2) = true := by
            rw [hwj, hhj]
            simp [inBounds, hrw, hp2]
          exact hsymJ (r, p.2) Dir.N (r, p.2 - 1) hbnd hmv
        · rintro ⟨l, _, y, _, ⟨_, hde⟩ | ⟨_, hde⟩⟩ <;> exact Dir.noConfusion hde
        · rintro ⟨l, _, y, _, ⟨_, hde⟩ | ⟨_, hde⟩⟩ <;> exact Dir.noConfusion hde
    · subst hdE
      simp only [movePos] at hpq
      split at hpq
      · rename_i hlt
        injection hpq with hq
        subst hq
        simp only [Dir.opposite]
        unfold seamLoop
        rw [seamOuter_walls w h hw1 (List.range (L - 1)) (List.nodup_range _),
          seamOuter_walls w h hw1 (List.range (L - 1)) (List.nodup_range _)]
        by_cases hseam : r = w - 1
        · have hjL1 : j < L - 1 := by
            have e1 : w * (j + 1) = w * j + w := by ring
            have e2 : w * L ≥ w * (j + 1) → True := fun _ => trivial
            have hlt2 : w * (j + 1) ≤ w * L := by
              by_contra hc
              push_neg at hc
              have := Nat.lt_of_mul_lt_mul_left hc
              omega
            rcases Nat.lt_or_ge j (L - 1) with h1 | h1
            · exact h1
            · exfalso
              have hje : j = L - 1 := by omega
              subst hje
              have e3 : w * (L - 1 + 1) = w * L := by
                have : L - 1 + 1 = L := by omega
                rw [this]
              omega
          have hpE : p = ((j + 1) * w - 1, p.2) := by
            refine Prod.ext ?_ rfl
            have e : (j + 1) * w = w * j + w := by ring
            omega
          have hqW : ((p.1 + 1, p.2) : Pos) = ((j + 1) * w, p.2) := by
            refine Prod.ext ?_ rfl
            have e : (j + 1) * w = w * j + w := by ring
            omega
          rw [if_pos ⟨j, List.mem_range.mpr hjL1, p.2, List.mem_range.mpr hp2,
              Or.inl ⟨hpE, rfl⟩⟩,
            if_pos ⟨j, List.mem_range.mpr hjL1, p.2, List.mem_range.mpr hp2,
              Or.inr ⟨hqW, rfl⟩⟩]
          simp only [seamVal]
          rfl
        · have hrw1 : r + 1 < w := by omega
          rw [if_neg ?_, if_neg ?_]
          · have hA2 : (0 + j) * w ≤ p.1 + 1 := by omega
            have hB2 : p.1 + 1 < (0 + j + 1) * w := by
              have e : (0 + j + 1) * w = w * j + w := by ring
              omega
            rw [copyLayers_walls_in w h srcs 0 dst p Dir.E j hjlen hA hB hp2,
              copyLayers_walls_in w h srcs 0 dst (p.1 + 1, p.2) Dir.W j hjlen hA2 hB2 hp2]
            rw [hsub]
            have hsub2 : p.1 + 1 - (0 + j) * w = r + 1 := by
              have e : (0 + j) * w = w * j := by ring
              omega
            rw [hsub2]
            have hmv : movePos (srcs.get ⟨j, hjlen⟩).width (srcs.get ⟨j, hjlen⟩).height
                (r, p.2) Dir.E = some (r + 1, p.2) := by
              rw [hwj, hhj]
              simp only [movePos]
              rw [if_pos (by omega)]
            have hbnd : inBounds (srcs.get ⟨j, hjlen⟩).width (srcs.get ⟨j, hjlen⟩).height
                (r, p.2) = true := by
              rw [hwj, hhj]
              simp [inBounds, hrw, hp2]
            exact hsymJ (r, p.2) Dir.E (r + 1, p.2) hbnd hmv
          · rintro ⟨l, _, y, _, ⟨_, hde⟩ | ⟨he2, _⟩⟩
            · exact Dir.noConfusion hde
            · injection he2 with e1 e2
              have e3 : (l + 1) * w = w * (l + 1) := by ring
              have he : w * j + r + 1 = w * (l + 1) := by omega
              exact span_sandwich hrw1 he
          · rintro ⟨l, _, y, _, ⟨he2, _⟩ | ⟨_, hde⟩⟩
            · have e1 : p.1 = (l + 1) * w - 1 := by rw [he2]
              have e3 : (l + 1) * w = w * l + w := by ring
              have e4 : (l + 1) * w = w * (l + 1) := by ring
              have he : w * j + r + 1 = w * (l + 1) := by omega
              exact span_sandwich hrw1 he
            · exact Dir.noConfusion hde
      · exact absurd hpq (by simp)
  intro p d q hp hpq
  rw [hFw, hFh] at hp hpq
  cases d
  case N => exact main p q Dir.N (Or.inl rfl) hp hpq
  case E => exact main p q Dir.E (Or.inr rfl) hp hpq
  case S =>
    have hq : inBounds (w * L) h q = true := movePos_inBounds hp hpq
    have h2 := movePos_symm hp hpq
    have h3 := main q p Dir.N (Or.inl rfl) hq h2
    exact h3.symm
  case W =>
    have hq : inBounds (w * L) h q = true := movePos_inBounds hp hpq
    have h2 := movePos_symm hp hpq
    have h3 := main q p Dir.E (Or.inr rfl) hq h2
    exact h3.symm

/-- Every portal candidate connects a seam cell to its east neighbour. -/
theorem mlPortalCandidates_shape {w h L : Nat} (hw : 1 ≤ w) :
    ∀ c ∈ mlPortalCandidates w h L, c.dst = (c.src.1 + 1, c.src.2) := by
  intro c hc
  rw [mlPortalCandidates, List.mem_flatMap] at hc
  obtain ⟨l, _, hc2⟩ := hc
  rw [List.mem_map] at hc2
  obtain ⟨y, _, hc3⟩ := hc2
  subst hc3
  have h1 : 1 ≤ (l + 1) * w := Nat.le_trans hw (Nat.le_mul_of_pos_left w (by omega))
  refine Prod.ext ?_ rfl
  show (l + 1) * w = (l + 1) * w - 1 + 1
  omega

/-- Punching portals with the seam-candidate shape preserves wall
symmetry (each portal is a paired carve between grid neighbours). -/
theorem applyPortals_symWalls :
    ∀ (ps : List Portal) (dst : Maze),
      (∀ c ∈ ps, c.dst = (c.src.1 + 1, c.src.2)) → symWalls dst →
      symWalls (applyPortals dst ps).1 ∧
        (applyPortals dst ps).1.width = dst.width ∧
        (applyPortals dst ps).1.height = dst.height := by
  intro ps
  induction ps with
  | nil => intro dst _ hs; exact ⟨hs, rfl, rfl⟩
  | cons p rest ih =>
    intro dst hshape hs
    rw [applyPortals]
    split
    · rename_i hbb
      rw [Bool.and_eq_true] at hbb
      have hd : p.dst = (p.src.1 + 1, p.src.2) :=
        hshape p (List.mem_cons_self p rest)
      have hmv : movePos dst.width dst.height p.src .E = some p.dst := by
        simp only [movePos]
        rw [if_pos ?_]
        · rw [hd]
        · have := hbb.2
          rw [hd] at this
          simp only [inBounds, Bool.and_eq_true, decide_eq_true_eq] at this
          exact this.1
      have hcs : symWalls ((dst.removeWall p.src .E).removeWall p.dst .W) :=
        carve_symWalls hbb.1 hmv hs
      have hrec := ih ((dst.removeWall p.src .E).removeWall p.dst .W)
        (fun c hc => hshape c (List.mem_cons_of_mem p hc)) hcs
      exact ⟨hrec.1, hrec.2.1, hrec.2.2⟩
    · exact ih dst (fun c hc => hshape c (List.mem_cons_of_mem p hc)) hs

/-- The per-layer generation loop returns `n` symmetric `w × h` mazes. -/
theorem genLayers_spec {w h : Nat} :
    ∀ (n : Nat) (rs : Rng) (ms : List Maze) (rs2 : Rng),
      genLayers w h n rs = .ok (ms, rs2) →
      ms.length = n ∧ ∀ mz ∈ ms, symWalls mz ∧ mz.width = w ∧ mz.height = h := by
  intro n
  induction n with
  | zero =>
    intro rs ms rs2 hok
    rw [genLayers] at hok
    injection hok with h1
    injection h1 with h2 h3
    subst h2
    exact ⟨rfl, by intro mz hmz; cases hmz⟩
  | succ n ih =>
    intro rs ms rs2 hok
    rw [genLayers] at hok
    split at hok
    · exact absurd hok (by simp)
    · rename_i mz rs1 hrb
      split at hok
      · exact absurd hok (by simp)
      · split at hok
        · exact absurd hok (by simp)
        · rename_i ms2 rs3 hrec
          injection hok with h1
          injection h1 with h2 h3
          subst h2
          obtain ⟨hlen, hall⟩ := ih rs1 ms2 rs3 hrec
          have hhead := generateRecursiveBacktracker_symFrame hrb
          refine ⟨by simp [hlen], ?_⟩
          intro mm hmm
          rcases List.mem_cons.mp hmm with h4 | h4
          · subst h4
            exact hhead
          · exact hall mm h4

/-- The validated constructor fixes the dimensions. -/
theorem mazeNew_ok_shape {w h : Nat} {s f : Pos} {cells : List (List (List Dir))}
    {mz : Maze} (hok : mazeNew w h s f cells = .ok mz) :
    mz.width = w ∧ mz.height = h := by
  unfold mazeNew at hok
  split at hok
  · exact absurd hok (by simp)
  · split at hok
    · exact absurd hok (by simp)
    · split at hok
      · exact absurd hok (by simp)
      · split at hok
        · exact absurd hok (by simp)
        · injection hok with h1
          subst h1
          exact ⟨rfl, rfl⟩

/-- A successful multi-layer generation returns a wall-symmetric maze:
layer interiors inherit the Recursive Backtracker symmetry, seams are
symmetrised explicitly, portals are paired carves, and the boundary
repair touches only boundary sides. -/
theorem generateMultiLayer_symWalls {w h : Nat} {o : MLOptions} {rs : Rng} {m : Maze}
    (hok : generateMultiLayer w h o rs = .ok m) : symWalls m := by
  unfold generateMultiLayer at hok
  split at hok
  · exact absurd hok (by simp)
  · rename_i hdim
    split at hok
    · exact absurd hok (by simp)
    · rename_i baseMazes rs1 hgen
      split at hok
      · exact absurd hok (by simp)
      · rename_i flat0 hnew
        dsimp only at hok
        split at hok
        · exact absurd hok (by simp)
        · injection hok with h1
          subst h1
          obtain ⟨hlen, hall⟩ := genLayers_spec (mlLayers o) rs baseMazes rs1 hgen
          obtain ⟨h0w, h0h⟩ := mazeNew_ok_shape hnew
          have hflat : symWalls (seamLoop w h (mlLayers o)
              (copyLayers w h baseMazes 0 (allWallsOn flat0))) := by
            refine flat_symWalls (by omega) hlen ?_ ?_ ?_
            · intro j hj
              exact hall (baseMazes.get ⟨j, hj⟩) (List.get_mem baseMazes _ _)
            · show flat0.width = w * mlLayers o
              exact h0w
            · show flat0.height = h
              exact h0h
          have hport := applyPortals_symWalls
            (((fisherYates (mlPortalCandidates w h (mlLayers o)) rs1).1).take
              (min (mlPortals o)
                ((fisherYates (mlPortalCandidates w h (mlLayers o)) rs1).1).length))
            (seamLoop w h (mlLayers o) (copyLayers w h baseMazes 0 (allWallsOn flat0)))
            (fun c hc => mlPortalCandidates_shape (by omega) c
              ((fisherYates_perm _ rs1).mem_iff.mp (List.take_subset _ _ hc)))
            hflat
          have hbw := ensureBoundaryWallsW_symWalls hport.1
          intro p d q hb hm
          exact hbw p d q hb hm

/-! ### Wall symmetry of the post-processors -/

/-- The structural shape of an edge record: its second cell is the east or
south neighbour of its first. -/
def validEdge (e : EdgeRec) : Prop :=
  (e.direction = .E ∧ e.x2 = e.x1 + 1 ∧ e.y2 = e.y1) ∨
    (e.direction = .S ∧ e.x2 = e.x1 ∧ e.y2 = e.y1 + 1)

/-- Every record produced by `getAllEdges` has the edge shape. -/
theorem getAllEdges_shape {m : Maze} : ∀ e ∈ getAllEdges m, validEdge e := by
  intro e he
  rw [getAllEdges, List.mem_flatMap] at he
  obtain ⟨y, _, he2⟩ := he
  rw [List.mem_flatMap] at he2
  obtain ⟨x, _, he3⟩ := he2
  rw [List.mem_append] at he3
  rcases he3 with h4 | h4 <;> split at h4 <;>
    simp only [List.mem_singleton, List.not_mem_nil] at h4
  · subst h4
    exact Or.inl ⟨rfl, rfl, rfl⟩
  · subst h4
    exact Or.inr ⟨rfl, rfl, rfl⟩

/-- An edge record with the edge shape and an in-bounds second cell is a
grid move. -/
theorem validEdge_movePos {W H : Nat} {e : EdgeRec} (hv : validEdge e)
    (hb : inBounds W H (e.x2, e.y2) = true) :
    movePos W H (e.x1, e.y1) e.direction = some (e.x2, e.y2) := by
  simp only [inBounds, Bool.and_eq_true, decide_eq_true_eq] at hb
  rcases hv with ⟨hd, h2, h3⟩ | ⟨hd, h2, h3⟩ <;> rw [hd] <;> simp only [movePos]
  · rw [if_pos (by omega)]
    exact congrArg some (Prod.ext (by omega) (by omega))
  · rw [if_pos (by omega)]
    exact congrArg some (Prod.ext (by omega) (by omega))

/-- The tentative close-test-restore step returns a wall-symmetric maze:
the close is a paired `addWall`, the restore a paired `removeWall`. -/
theorem wouldDisconnect_symWalls {m : Maze} {e : EdgeRec} (hv : validEdge e)
    (hs : symWalls m) : symWalls (wouldDisconnect m e).2 := by
  unfold wouldDisconnect
  split
  · rename_i hbb
    rw [Bool.and_eq_true] at hbb
    have hmv : movePos m.width m.height (e.x1, e.y1) e.direction = some (e.x2, e.y2) :=
      validEdge_movePos hv hbb.2
    dsimp only
    have h1 := closeEdge_symWalls hbb.1 hmv hs
    exact carve_symWalls hbb.1 hmv h1
  · exact hs

/-- The edge-removal loop preserves wall symmetry. -/
theorem removeEdgesLoop_symWalls (target : Nat) :
    ∀ (es : List EdgeRec) (m : Maze) (removed : Nat),
      (∀ e ∈ es, validEdge e) → symWalls m →
      symWalls (removeEdgesLoop target m es removed) := by
  intro es
  induction es with
  | nil => intro m removed _ hs; exact hs
  | cons e es ih =>
    intro m removed hv hs
    have hvt : ∀ e2 ∈ es, validEdge e2 := fun e2 he2 => hv e2 (List.mem_cons_of_mem e he2)
    have hve : validEdge e := hv e (List.mem_cons_self e es)
    rw [removeEdgesLoop]
    split
    · exact hs
    · have hm1 : symWalls (wouldDisconnect m e).2 := wouldDisconnect_symWalls hve hs
      rcases hwd : wouldDisconnect m e with ⟨disc, m1⟩
      rw [hwd] at hm1
      dsimp only at hm1 ⊢
      split
      · split
        · rename_i hbb
          rw [Bool.and_eq_true] at hbb
          exact ih _ _ hvt (closeEdge_symWalls hbb.1 (validEdge_movePos hve hbb.2) hm1)
        · exact ih _ _ hvt hm1
      · exact ih _ _ hvt hm1

/-- `ensureSinglePath` preserves wall symmetry. -/
theorem ensureSinglePath_symWalls {m m2 : Maze} {rs : Rng} (hs : symWalls m)
    (hok : ensureSinglePath (some m) rs = .ok m2) : symWalls m2 := by
  rw [ensureSinglePath] at hok
  split at hok
  · exact absurd hok (by simp)
  · dsimp only at hok
    split at hok
    · injection hok with h1
      subst h1
      exact hs
    · injection hok with h1
      subst h1
      refine removeEdgesLoop_symWalls _ _ m 0 ?_ hs
      intro e he
      exact getAllEdges_shape e ((fisherYates_perm (getAllEdges m) rs).mem_iff.mp he)

/-- Cells reported by `getCellsOfDegree` are grid cells. -/
theorem getCellsOfDegree_inBounds {m : Maze} {k : Nat} :
    ∀ p ∈ getCellsOfDegree m k, inBounds m.width m.height p = true := by
  intro p hp
  rw [getCellsOfDegree, List.mem_flatMap] at hp
  obtain ⟨y, hy, hp2⟩ := hp
  rw [List.mem_flatMap] at hp2
  obtain ⟨x, hx, hp3⟩ := hp2
  split at hp3
  · simp only [List.mem_singleton] at hp3
    subst hp3
    simp [inBounds, List.mem_range.mp hx, List.mem_range.mp hy]
  · exact absurd hp3 (by simp)

/-- An in-range `getD` picks a list element. -/
theorem getD_mem_of_lt {α : Type _} (l : List α) (i : Nat) (dflt : α)
    (hi : i < l.length) : l.getD i dflt ∈ l := by
  rw [List.getD_eq_getElem l dflt hi]
  exact List.getElem_mem hi

/-- Phase-1 connection attempts preserve wall symmetry. -/
theorem tryConnectDeadEnd_symWalls {m m2 : Maze} {p : Pos}
    (hp : inBounds m.width m.height p = true) (hs : symWalls m) :
    ∀ {ds : List Dir}, tryConnectDeadEnd m p ds = some m2 → symWalls m2 := by
  intro ds
  induction ds with
  | nil => intro hok; exact absurd hok (by simp [tryConnectDeadEnd])
  | cons d ds ih =>
    intro hok
    rw [tryConnectDeadEnd] at hok
    split at hok
    · split at hok
      · exact ih hok
      · rename_i q hq
        split at hok
        · injection hok with h1
          subst h1
          exact carve_symWalls hp hq hs
        · exact ih hok
    · exact ih hok

/-- Phase-2 branch attempts preserve wall symmetry. -/
theorem tryBranchStraight_symWalls {m m2 : Maze} {p : Pos}
    (hp : inBounds m.width m.height p = true) (hs : symWalls m) :
    ∀ {ds : List Dir}, tryBranchStraight m p ds = some m2 → symWalls m2 := by
  intro ds
  induction ds with
  | nil => intro hok; exact absurd hok (by simp [tryBranchStraight])
  | cons d ds ih =>
    intro hok
    rw [tryBranchStraight] at hok
    split at hok
    · exact ih hok
    · rename_i q hq
      split at hok
      · injection hok with h1
        subst h1
        exact carve_symWalls hp hq hs
      · exact ih hok

/-- Phase 1 of `balanceDistribution` preserves wall symmetry. -/
theorem deadEndLoop_symWalls (targetDead : ℚ) (maxRed : Nat) :
    ∀ (fuel : Nat) (m : Maze) (dist : Distribution) (red : Nat) (rs : Rng),
      symWalls m → symWalls (deadEndLoop targetDead maxRed fuel m dist red rs).1 := by
  intro fuel
  induction fuel with
  | zero => intro m dist red rs hs; exact hs
  | succ fuel ih =>
    intro m dist red rs hs
    unfold deadEndLoop
    split
    · split
      · exact hs
      · rename_i hcond2
        cases htc : tryConnectDeadEnd m (deadEndPick m rs).1 (deadEndPick m rs).2.1 with
        | none => simpa [htc] using ih m dist red (deadEndPick m rs).2.2 hs
        | some m2 =>
          simp only [htc]
          refine ih m2 (analyzeDistribution m2) (red + 1) (deadEndPick m rs).2.2 ?_
          refine tryConnectDeadEnd_symWalls ?_ hs htc
          apply getCellsOfDegree_inBounds
          apply getD_mem_of_lt
          have hlen : 0 < (getCellsOfDegree m 1).length := by
            cases hgl : getCellsOfDegree m 1 with
            | nil => rw [hgl] at hcond2; exact absurd rfl hcond2
            | cons a l => simp
          exact Nat.mod_lt _ hlen
    · exact hs

/-- Phase 2 of `balanceDistribution` preserves wall symmetry. -/
theorem threeWayLoop_symWalls (targetThree : ℚ) (maxInc : Nat) :
    ∀ (fuel : Nat) (m : Maze) (dist : Distribution) (inc : Nat) (rs : Rng),
      symWalls m → symWalls (threeWayLoop targetThree maxInc fuel m dist inc rs).1 := by
  intro fuel
  induction fuel with
  | zero => intro m dist inc rs hs; exact hs
  | succ fuel ih =>
    intro m dist inc rs hs
    unfold threeWayLoop
    split
    · split
      · exact hs
      · rename_i hcond2
        split
        · exact ih m dist inc _ hs
        · cases htc : tryBranchStraight m (straightPick m rs).1 (straightPick m rs).2.1 with
          | none => simpa [htc] using ih m dist inc (straightPick m rs).2.2 hs
          | some m2 =>
            simp only [htc]
            refine ih m2 (analyzeDistribution m2) (inc + 1) (straightPick m rs).2.2 ?_
            refine tryBranchStraight_symWalls ?_ hs htc
            apply getCellsOfDegree_inBounds
            apply getD_mem_of_lt
            have hlen : 0 < (getCellsOfDegree m 2).length := by
              cases hgl : getCellsOfDegree m 2 with
              | nil => rw [hgl] at hcond2; exact absurd rfl hcond2
              | cons a l => simp
            exact Nat.mod_lt _ hlen
    · exact hs

/-- `balanceDistribution` preserves wall symmetry: both phases mutate only
through in-bounds paired carves. -/
theorem balanceDistribution_symWalls {m : Maze} {t : BalanceTarget} {rs : Rng}
    {m2 : Maze} (hs : symWalls m) (hok : balanceDistribution m t rs = .ok m2) :
    symWalls m2 := by
  unfold balanceDistribution at hok
  split at hok
  · exact absurd hok (by simp)
  · dsimp only at hok
    split at hok
    · exact absurd hok (by simp)
    · injection hok with h1
      subst h1
      exact threeWayLoop_symWalls _ _ _ _ _ _ _
        (deadEndLoop_symWalls _ _ _ m (analyzeDistribution m) 0 rs hs)

/-- The maze and stream of a concrete Recursive Backtracker run. -/
def rbDemo : Maze × Rng :=
  (generateRecursiveBacktracker 2 2 []).toOption.getD (fullyWalled 2 2, [])

/-! ### The maze as a simple graph

For the spanning-tree argument of `ensureSinglePath` the open interior
edges of a maze are read as a `SimpleGraph` on the grid `Fin w × Fin h`;
adjacency is the symmetrised "some side of the shared edge is open"
relation, which under `symWalls` coincides with the one-sided reading. -/

instance : Fintype Dir :=
  ⟨⟨[Dir.N, Dir.E, Dir.S, Dir.W], by decide⟩, fun d => by cases d <;> decide⟩

/-- No grid move is a self-loop. -/
theorem movePos_ne_self {w h : Nat} (p : Pos) (d : Dir) :
    movePos w h p d ≠ some p := by
  cases d <;> simp only [movePos] <;> intro hcon
  · split at hcon
    · exact absurd hcon (by simp)
    · rename_i h0
      injection hcon with he
      have := congrArg Prod.snd he
      simp only at this
      omega
  · split at hcon
    · injection hcon with he
      have := congrArg Prod.fst he
      simp only at this
      omega
    · exact absurd hcon (by simp)
  · split at hcon
    · injection hcon with he
      have := congrArg Prod.snd he
      simp only at this
      omega
    · exact absurd hcon (by simp)
  · split at hcon
    · exact absurd hcon (by simp)
    · rename_i h0
      injection hcon with he
      have := congrArg Prod.fst he
      simp only at this
      omega

/-- The coordinate signature of a successful move. -/
theorem movePos_sig {w h : Nat} {p q : Pos} :
    ∀ (d : Dir), movePos w h p d = some q →
      (d = Dir.N ∧ q.1 = p.1 ∧ q.2 + 1 = p.2) ∨
      (d = Dir.E ∧ q.1 = p.1 + 1 ∧ q.2 = p.2) ∨
      (d = Dir.S ∧ q.1 = p.1 ∧ q.2 = p.2 + 1) ∨
      (d = Dir.W ∧ q.1 + 1 = p.1 ∧ q.2 = p.2) := by
  intro d hmv
  cases d <;> simp only [movePos] at hmv
  · split at hmv
    · exact absurd hmv (by simp)
    · rename_i h0
      injection hmv with he
      have hf := congrArg Prod.fst he
      have hs := congrArg Prod.snd he
      simp only at hf hs
      exact Or.inl ⟨rfl, by omega, by omega⟩
  · split at hmv
    · injection hmv with he
      have hf := congrArg Prod.fst he
      have hs := congrArg Prod.snd he
      simp only at hf hs
      exact Or.inr (Or.inl ⟨rfl, by omega, by omega⟩)
    · exact absurd hmv (by simp)
  · split at hmv
    · injection hmv with he
      have hf := congrArg Prod.fst he
      have hs := congrArg Prod.snd he
      simp only at hf hs
      exact Or.inr (Or.inr (Or.inl ⟨rfl, by omega, by omega⟩))
    · exact absurd hmv (by simp)
  · split at hmv
    · exact absurd hmv (by simp)
    · rename_i h0
      injection hmv with he
      have hf := congrArg Prod.fst he
      have hs := congrArg Prod.snd he
      simp only at hf hs
      exact Or.inr (Or.inr (Or.inr ⟨rfl, by omega, by omega⟩))

/-- A single cell has at most one move reaching a given target. -/
theorem movePos_dir_inj {w h : Nat} {p q : Pos} {d d' : Dir}
    (h1 : movePos w h p d = some q) (h2 : movePos w h p d' = some q) : d = d' := by
  have k1 := movePos_sig d h1
  have k2 := movePos_sig d' h2
  rcases k1 with ⟨e1, c1, c2⟩ | ⟨e1, c1, c2⟩ | ⟨e1, c1, c2⟩ | ⟨e1, c1, c2⟩ <;>
    rcases k2 with ⟨e2, c3, c4⟩ | ⟨e2, c3, c4⟩ | ⟨e2, c3, c4⟩ | ⟨e2, c3, c4⟩ <;>
    subst e1 <;> subst e2 <;> first
    | rfl
    | omega

/-- The grid coordinates of a vertex. -/
def toPos {w h : Nat} (u : Fin w × Fin h) : Pos := (u.1.1, u.2.1)

/-- Vertex coordinates are in bounds. -/
theorem toPos_inBounds {w h : Nat} (u : Fin w × Fin h) :
    inBounds w h (toPos u) = true := by
  simp [toPos, inBounds, u.1.isLt, u.2.isLt]

/-- The vertex of an in-bounds grid cell (total via reduction modulo the
dimensions, the identity on in-bounds cells). -/
def posV (w h : Nat) [NeZero w] [NeZero h] (p : Pos) : Fin w × Fin h :=
  (⟨p.1 % w, Nat.mod_lt _ (Nat.pos_of_ne_zero (NeZero.ne w))⟩,
   ⟨p.2 % h, Nat.mod_lt _ (Nat.pos_of_ne_zero (NeZero.ne h))⟩)

theorem toPos_posV {w h : Nat} [NeZero w] [NeZero h] {p : Pos}
    (hp : inBounds w h p = true) : toPos (posV w h p) = p := by
  simp only [inBounds, Bool.and_eq_true, decide_eq_true_eq] at hp
  simp only [toPos, posV]
  exact Prod.ext (Nat.mod_eq_of_lt hp.1) (Nat.mod_eq_of_lt hp.2)

theorem posV_toPos {w h : Nat} [NeZero w] [NeZero h] (u : Fin w × Fin h) :
    posV w h (toPos u) = u := by
  simp only [toPos, posV]
  refine Prod.ext (Fin.ext ?_) (Fin.ext ?_)
  · exact Nat.mod_eq_of_lt u.1.isLt
  · exact Nat.mod_eq_of_lt u.2.isLt

theorem toPos_inj {w h : Nat} {u v : Fin w × Fin h} (he : toPos u = toPos v) :
    u = v := by
  have h1 := congrArg Prod.fst he
  have h2 := congrArg Prod.snd he
  simp only [toPos] at h1 h2
  exact Prod.ext (Fin.ext h1) (Fin.ext h2)

/-- The symmetrised open-edge relation on grid coordinates. -/
def mazeAdj (w h : Nat) (W : Pos → Dir → Bool) (p q : Pos) : Prop :=
  (∃ d, movePos w h p d = some q ∧ W p d = false) ∨
    (∃ d, movePos w h q d = some p ∧ W q d = false)

/-- The open-edge graph of a maze of dimensions `w × h` with walls `W`. -/
def mazeGraph (w h : Nat) (W : Pos → Dir → Bool) : SimpleGraph (Fin w × Fin h) where
  Adj u v := mazeAdj w h W (toPos u) (toPos v)
  symm := fun _ _ hadj => hadj.elim Or.inr Or.inl
  loopless := by
    intro u hadj
    rcases hadj with ⟨d, hmv, _⟩ | ⟨d, hmv, _⟩ <;> exact movePos_ne_self _ d hmv

/-- Under wall symmetry, adjacency has the one-sided reading from either
endpoint (for in-bounds endpoints). -/
theorem mazeAdj_oneSided {m : Maze} (hsym : symWalls m) {p q : Pos}
    (hq : inBounds m.width m.height q = true)
    (hadj : mazeAdj m.width m.height m.walls p q) :
    ∃ d, movePos m.width m.height p d = some q ∧ m.walls p d = false := by
  rcases hadj with hone | ⟨d, hmv, hop⟩
  · exact hone
  · refine ⟨d.opposite, movePos_symm hq hmv, ?_⟩
    rw [← hsym q d p hq hmv]
    exact hop

/-- Every BFS-reached cell is graph-reachable from the start. -/
theorem reachList_reachable (m : Maze) [NeZero m.width] [NeZero m.height]
    (hs : inBounds m.width m.height m.start = true) :
    ∀ (k : Nat) (p : Pos), p ∈ reachList m k →
      (mazeGraph m.width m.height m.walls).Reachable
        (posV m.width m.height m.start) (posV m.width m.height p) := by
  intro k
  induction k with
  | zero =>
    intro p hp
    simp only [reachList, List.mem_singleton] at hp
    subst hp
    exact SimpleGraph.Reachable.refl _
  | succ k ih =>
    intro p hp
    simp only [reachList, expandReach, List.mem_dedup, List.mem_append] at hp
    rcases hp with hp | hp
    · exact ih p hp
    · rw [List.mem_flatMap] at hp
      obtain ⟨q, hq, hpq⟩ := hp
      rw [openNbrs, List.mem_filterMap] at hpq
      obtain ⟨d, _, hd⟩ := hpq
      split at hd
      · exact absurd hd (by simp)
      · rename_i hwall
        have hqb : inBounds m.width m.height q = true :=
          reachList_inBounds m hs k hq
        have hadj : (mazeGraph m.width m.height m.walls).Adj
            (posV m.width m.height q) (posV m.width m.height p) := by
          show mazeAdj m.width m.height m.walls _ _
          rw [toPos_posV hqb, toPos_posV (movePos_inBounds hqb hd)]
          exact Or.inl ⟨d, hd, Bool.not_eq_true _ ▸ hwall⟩
        exact (ih q hq).trans hadj.reachable

/-- If the BFS closure reports full connectivity, the open-edge graph is
connected. -/
theorem isConnected_connected {m : Maze} [NeZero m.width] [NeZero m.height]
    (hc : isConnected m = true) :
    (mazeGraph m.width m.height m.walls).Connected := by
  have hs : inBounds m.width m.height m.start = true := by
    simp only [isConnected, Bool.and_eq_true] at hc
    exact hc.1
  have hcover : ∀ u : Fin m.width × Fin m.height,
      (mazeGraph m.width m.height m.walls).Reachable
        (posV m.width m.height m.start) u := by
    intro u
    have hmem : toPos u ∈ reachList m (m.width * m.height) := by
      have h1 : toPos u ∈ (reachList m (m.width * m.height)).toFinset := by
        rw [reachList_toFinset_of_isConnected hc]
        exact mem_gridFinset.mpr (toPos_inBounds u)
      exact List.mem_toFinset.mp h1
    have h2 := reachList_reachable m hs (m.width * m.height) (toPos u) hmem
    rwa [posV_toPos u] at h2
  haveI : Nonempty (Fin m.width × Fin m.height) := ⟨posV m.width m.height m.start⟩
  exact ⟨fun u v => (hcover u).symm.trans (hcover v)⟩

/-- Every cell on a graph walk of length `ℓ` from a BFS-reached cell is
BFS-reached within `ℓ` more rounds (wall symmetry turns either adjacency
reading into an open side of the current cell). -/
theorem walk_mem_reachList {m : Maze} [NeZero m.width] [NeZero m.height]
    (hsym : symWalls m) :
    ∀ {u v : Fin m.width × Fin m.height}
      (wlk : (mazeGraph m.width m.height m.walls).Walk u v) (k : Nat),
      toPos u ∈ reachList m k → toPos v ∈ reachList m (k + wlk.length) := by
  intro u v wlk
  induction wlk with
  | nil => intro k hk; simpa using hk
  | cons hadj rest ih =>
    rename_i a b c
    intro k hk
    obtain ⟨d, hmv, hop⟩ := mazeAdj_oneSided hsym (toPos_inBounds b) hadj
    have hb : toPos b ∈ reachList m (k + 1) := by
      simp only [reachList, expandReach, List.mem_dedup, List.mem_append]
      right
      rw [List.mem_flatMap]
      refine ⟨toPos a, hk, ?_⟩
      rw [openNbrs, List.mem_filterMap]
      refine ⟨d, by cases d <;> simp [dirList], ?_⟩
      rw [if_neg (by simp [hop]), hmv]
    have h2 := ih (k + 1) hb
    have e : k + 1 + rest.length = k + (SimpleGraph.Walk.cons hadj rest).length := by
      simp [SimpleGraph.Walk.length_cons]
      omega
    rwa [e] at h2

/-- If the open-edge graph is connected, the BFS closure reports full
connectivity. -/
theorem connected_isConnected {m : Maze} [NeZero m.width] [NeZero m.height]
    (hsym : symWalls m) (hs : inBounds m.width m.height m.start = true)
    (hconn : (mazeGraph m.width m.height m.walls).Connected) :
    isConnected m = true := by
  have hcover : ∀ p : Pos, inBounds m.width m.height p = true →
      p ∈ reachList m (m.width * m.height) := by
    intro p hp
    obtain ⟨wlk⟩ := hconn.preconnected (posV m.width m.height m.start)
      (posV m.width m.height p)
    have hpath := wlk.toPath.2
    have hlen : wlk.toPath.1.length < m.width * m.height := by
      have h1 := hpath.length_lt
      rwa [Fintype.card_prod, Fintype.card_fin, Fintype.card_fin] at h1
    have hstart : toPos (posV m.width m.height m.start) ∈ reachList m 0 := by
      rw [toPos_posV hs]
      simp [reachList]
    have h2 := walk_mem_reachList hsym wlk.toPath.1 0 hstart
    rw [toPos_posV hp] at h2
    exact reachList_mono_steps m (by omega) h2
  have hfin : (reachList m (m.width * m.height)).toFinset =
      gridFinset m.width m.height := by
    apply Finset.Subset.antisymm
    · intro p hp
      exact mem_gridFinset.mpr (reachList_inBounds m hs _ (List.mem_toFinset.mp hp))
    · intro p hp
      exact List.mem_toFinset.mpr (hcover p (mem_gridFinset.mp hp))
  have hlen : (reachList m (m.width * m.height)).length = m.width * m.height := by
    rw [← List.toFinset_card_of_nodup (reachList_nodup m _), hfin, card_gridFinset]
  simp [isConnected, hs, hlen]

/-! ### Edge counting: `countConnections` is the edge count of the open-edge
graph -/

instance mazeGraphAdjDecidable (w h : Nat) (W : Pos → Dir → Bool) :
    DecidableRel (mazeGraph w h W).Adj := fun u v =>
  inferInstanceAs (Decidable
    ((∃ d, movePos w h (toPos u) d = some (toPos v) ∧ W (toPos u) d = false) ∨
      (∃ d, movePos w h (toPos v) d = some (toPos u) ∧ W (toPos v) d = false)))

/-- The canonical east/south neighbour addressed by an interior-edge slot. -/
def slotTarget (s : Pos × Dir) : Pos :=
  match s.2 with
  | Dir.E => (s.1.1 + 1, s.1.2)
  | Dir.S => (s.1.1, s.1.2 + 1)
  | _ => s.1

/-- The finite set of open interior-edge slots counted by
`countConnections`: a cell together with an east or south direction whose
wall is absent and whose neighbour exists. -/
def slotFinset (m : Maze) : Finset (Pos × Dir) :=
  (gridFinset m.width m.height ×ˢ ({Dir.E, Dir.S} : Finset Dir)).filter
    (fun s => (s.2 = Dir.E ∧ s.1.1 < m.width - 1 ∨ s.2 = Dir.S ∧ s.1.2 < m.height - 1) ∧
      m.walls s.1 s.2 = false)

theorem mem_slotFinset {m : Maze} {s : Pos × Dir} :
    s ∈ slotFinset m ↔
      inBounds m.width m.height s.1 = true ∧
      movePos m.width m.height s.1 s.2 = some (slotTarget s) ∧
      (s.2 = Dir.E ∨ s.2 = Dir.S) ∧ m.walls s.1 s.2 = false := by
  rw [slotFinset, Finset.mem_filter, Finset.mem_product, mem_gridFinset]
  constructor
  · rintro ⟨⟨hb, _⟩, hcase, hw⟩
    refine ⟨hb, ?_, ?_, hw⟩
    · rcases hcase with ⟨hd, hx⟩ | ⟨hd, hy⟩
      · rw [hd]
        simp only [slotTarget, hd, movePos]
        rw [if_pos (show s.1.1 + 1 < m.width by omega)]
      · rw [hd]
        simp only [slotTarget, hd, movePos]
        rw [if_pos (show s.1.2 + 1 < m.height by omega)]
    · rcases hcase with ⟨hd, _⟩ | ⟨hd, _⟩
      · exact Or.inl hd
      · exact Or.inr hd
  · rintro ⟨hb, hmv, hd, hw⟩
    refine ⟨⟨hb, ?_⟩, ?_, hw⟩
    · rcases hd with hd | hd <;> rw [hd] <;> simp
    · rcases hd with hd | hd
      · refine Or.inl ⟨hd, ?_⟩
        rw [hd] at hmv
        simp only [movePos] at hmv
        split at hmv
        · omega
        · exact absurd hmv (by simp)
      · refine Or.inr ⟨hd, ?_⟩
        rw [hd] at hmv
        simp only [movePos] at hmv
        split at hmv
        · omega
        · exact absurd hmv (by simp)

theorem slotFinset_card (m : Maze) : (slotFinset m).card = countConnections m := by
  rw [slotFinset, Finset.card_filter, gridFinset, Finset.sum_product, Finset.sum_product,
    countConnections, Finset.sum_comm]
  refine Finset.sum_congr rfl fun y hy => Finset.sum_congr rfl fun x hx => ?_
  rw [Finset.sum_pair (by decide : Dir.E ≠ Dir.S), cellConn]
  dsimp only
  have hE : ((Dir.E = Dir.E ∧ x < m.width - 1 ∨ Dir.E = Dir.S ∧ y < m.height - 1) ∧
      m.walls (x, y) Dir.E = false) ↔ (x < m.width - 1 && !m.walls (x, y) Dir.E) = true := by
    simp [Bool.and_eq_true, Bool.not_eq_true']
  have hS : ((Dir.S = Dir.E ∧ x < m.width - 1 ∨ Dir.S = Dir.S ∧ y < m.height - 1) ∧
      m.walls (x, y) Dir.S = false) ↔ (y < m.height - 1 && !m.walls (x, y) Dir.S) = true := by
    simp [Bool.and_eq_true, Bool.not_eq_true']
  rw [if_congr hE rfl rfl, if_congr hS rfl rfl]

/-- Under wall symmetry, `countConnections` counts exactly the edges of the
open-edge graph. -/
theorem countConnections_eq_edgeFinset_card {m : Maze}
    [NeZero m.width] [NeZero m.height] (hsym : symWalls m) :
    countConnections m = (mazeGraph m.width m.height m.walls).edgeFinset.card := by
  rw [← slotFinset_card]
  refine Finset.card_bij
    (fun s _ => Sym2.mk (posV m.width m.height s.1, posV m.width m.height (slotTarget s)))
    ?_ ?_ ?_
  · intro s hs
    rw [mem_slotFinset] at hs
    obtain ⟨hb, hmv, _, hw⟩ := hs
    rw [SimpleGraph.mem_edgeFinset, SimpleGraph.mem_edgeSet]
    show mazeAdj m.width m.height m.walls _ _
    rw [toPos_posV hb, toPos_posV (movePos_inBounds hb hmv)]
    exact Or.inl ⟨s.2, hmv, hw⟩
  · intro s hs t ht hst
    rw [mem_slotFinset] at hs ht
    obtain ⟨hbs, hmvs, hds, _⟩ := hs
    obtain ⟨hbt, hmvt, hdt, _⟩ := ht
    rw [Sym2.eq_iff] at hst
    rcases hst with ⟨h1, h2⟩ | ⟨h1, h2⟩
    · have e1 : s.1 = t.1 := by
        rw [← toPos_posV hbs, ← toPos_posV hbt, h1]
      have e2 : slotTarget s = slotTarget t := by
        rw [← toPos_posV (movePos_inBounds hbs hmvs),
          ← toPos_posV (movePos_inBounds hbt hmvt), h2]
      have e3 : s.2 = t.2 := by
        rw [e1, e2] at hmvs
        exact movePos_dir_inj hmvs hmvt
      exact Prod.ext e1 e3
    · have e1 : s.1 = slotTarget t := by
        rw [← toPos_posV hbs, ← toPos_posV (movePos_inBounds hbt hmvt), h1]
      have e2 : slotTarget s = t.1 := by
        rw [← toPos_posV (movePos_inBounds hbs hmvs), ← toPos_posV hbt, h2]
      rw [e2] at hmvs
      rw [← e1] at hmvt
      have k1 := movePos_sig s.2 hmvs
      have k2 := movePos_sig t.2 hmvt
      exfalso
      rcases hds with hds | hds <;> rcases hdt with hdt | hdt <;>
        rw [hds] at k1 <;> rw [hdt] at k2 <;>
        simp only [reduceCtorEq, false_and, false_or, or_false, true_and] at k1 k2 <;>
        omega
  · have key : ∀ u v : Fin m.width × Fin m.height,
        Sym2.mk (u, v) ∈ (mazeGraph m.width m.height m.walls).edgeFinset →
        ∃ s, ∃ (hs : s ∈ slotFinset m),
          Sym2.mk (posV m.width m.height s.1, posV m.width m.height (slotTarget s)) =
            Sym2.mk (u, v) := by
      intro u v he
      rw [SimpleGraph.mem_edgeFinset, SimpleGraph.mem_edgeSet] at he
      obtain ⟨d, hmv, hw⟩ := mazeAdj_oneSided hsym (toPos_inBounds v) he
      have hbu := toPos_inBounds u
      have hbv := toPos_inBounds v
      have hsig := movePos_sig d hmv
      cases d
      case N =>
        refine ⟨(toPos v, Dir.S), ?_, ?_⟩
        · rw [mem_slotFinset]
          refine ⟨hbv, ?_, Or.inr rfl, ?_⟩
          · have hmv2 := movePos_symm hbu hmv
            have e : slotTarget (toPos v, Dir.S) = toPos u := by
              simp only [slotTarget]
              rcases hsig with ⟨_, c1, c2⟩ | ⟨hc, _⟩ | ⟨hc, _⟩ | ⟨hc, _⟩
              · exact Prod.ext (by omega) (by omega)
              · exact absurd hc (by decide)
              · exact absurd hc (by decide)
              · exact absurd hc (by decide)
            rw [e]
            exact hmv2
          · exact (hsym (toPos u) Dir.N (toPos v) hbu hmv).symm.trans hw
        · have e : slotTarget (toPos v, Dir.S) = toPos u := by
            simp only [slotTarget]
            rcases hsig with ⟨_, c1, c2⟩ | ⟨hc, _⟩ | ⟨hc, _⟩ | ⟨hc, _⟩
            · exact Prod.ext (by omega) (by omega)
            · exact absurd hc (by decide)
            · exact absurd hc (by decide)
            · exact absurd hc (by decide)
          rw [e]
          simp only [posV_toPos]
          exact Sym2.eq_swap
      case E =>
        refine ⟨(toPos u, Dir.E), ?_, ?_⟩
        · rw [mem_slotFinset]
          refine ⟨hbu, ?_, Or.inl rfl, hw⟩
          have e : slotTarget (toPos u, Dir.E) = toPos v := by
            simp only [slotTarget]
            rcases hsig with ⟨hc, _⟩ | ⟨_, c1, c2⟩ | ⟨hc, _⟩ | ⟨hc, _⟩
            · exact absurd hc (by decide)
            · exact Prod.ext (by omega) (by omega)
            · exact absurd hc (by decide)
            · exact absurd hc (by decide)
          rw [e]
          exact hmv
        · have e : slotTarget (toPos u, Dir.E) = toPos v := by
            simp only [slotTarget]
            rcases hsig with ⟨hc, _⟩ | ⟨_, c1, c2⟩ | ⟨hc, _⟩ | ⟨hc, _⟩
            · exact absurd hc (by decide)
            · exact Prod.ext (by omega) (by omega)
            · exact absurd hc (by decide)
            · exact absurd hc (by decide)
          rw [e]
          simp only [posV_toPos]
      case S =>
        refine ⟨(toPos u, Dir.S), ?_, ?_⟩
        · rw [mem_slotFinset]
          refine ⟨hbu, ?_, Or.inr rfl, hw⟩
          have e : slotTarget (toPos u, Dir.S) = toPos v := by
            simp only [slotTarget]
            rcases hsig with ⟨hc, _⟩ | ⟨hc, _⟩ | ⟨_, c1, c2⟩ | ⟨hc, _⟩
            · exact absurd hc (by decide)
            · exact absurd hc (by decide)
            · exact Prod.ext (by omega) (by omega)
            · exact absurd hc (by decide)
          rw [e]
          exact hmv
        · have e : slotTarget (toPos u, Dir.S) = toPos v := by
            simp only [slotTarget]
            rcases hsig with ⟨hc, _⟩ | ⟨hc, _⟩ | ⟨_, c1, c2⟩ | ⟨hc, _⟩
            · exact absurd hc (by decide)
            · exact absurd hc (by decide)
            · exact Prod.ext (by omega) (by omega)
            · exact absurd hc (by decide)
          rw [e]
          simp only [posV_toPos]
      case W =>
        refine ⟨(toPos v, Dir.E), ?_, ?_⟩
        · rw [mem_slotFinset]
          refine ⟨hbv, ?_, Or.inl rfl, ?_⟩
          · have hmv2 := movePos_symm hbu hmv
            have e : slotTarget (toPos v, Dir.E) = toPos u := by
              simp only [slotTarget]
              rcases hsig with ⟨hc, _⟩ | ⟨hc, _⟩ | ⟨hc, _⟩ | ⟨_, c1, c2⟩
              · exact absurd hc (by decide)
              · exact absurd hc (by decide)
              · exact absurd hc (by decide)
              · exact Prod.ext (by omega) (by omega)
            rw [e]
            exact hmv2
          · exact (hsym (toPos u) Dir.W (toPos v) hbu hmv).symm.trans hw
        · have e : slotTarget (toPos v, Dir.E) = toPos u := by
            simp only [slotTarget]
            rcases hsig with ⟨hc, _⟩ | ⟨hc, _⟩ | ⟨hc, _⟩ | ⟨_, c1, c2⟩
            · exact absurd hc (by decide)
            · exact absurd hc (by decide)
            · exact absurd hc (by decide)
            · exact Prod.ext (by omega) (by omega)
          rw [e]
          simp only [posV_toPos]
          exact Sym2.eq_swap
    refine fun e he => ?_
    revert he
    refine Sym2.ind ?_ e
    intro u v he
    exact key u v he

/-! ### Generic graph facts: deleting a non-bridge edge keeps connectivity,
and a connected graph has at least `card V - 1` edges -/

/-- If the two endpoints of a deleted edge stay reachable, the deleted
graph is still connected. -/
theorem connected_sdiff_of_reachable {V : Type} {G : SimpleGraph V} {u v : V}
    (hr : (G \ SimpleGraph.fromEdgeSet {Sym2.mk (u, v)}).Reachable u v)
    (hc : G.Connected) :
    (G \ SimpleGraph.fromEdgeSet {Sym2.mk (u, v)}).Connected := by
  have hmono : ∀ a b : V, G.Reachable a b →
      (G \ SimpleGraph.fromEdgeSet {Sym2.mk (u, v)}).Reachable a b := by
    intro a b hab
    obtain ⟨wlk⟩ := hab
    induction wlk with
    | nil => exact SimpleGraph.Reachable.refl _
    | cons hadj rest ih =>
      rename_i a c b
      refine SimpleGraph.Reachable.trans ?_ ih
      by_cases he : Sym2.mk (a, c) = Sym2.mk (u, v)
      · rw [Sym2.eq_iff] at he
        rcases he with ⟨h1, h2⟩ | ⟨h1, h2⟩
        · subst h1; subst h2; exact hr
        · subst h1; subst h2; exact hr.symm
      · refine SimpleGraph.Adj.reachable ?_
        rw [SimpleGraph.sdiff_adj]
        refine ⟨hadj, ?_⟩
        rw [SimpleGraph.fromEdgeSet_adj]
        rintro ⟨hmem, -⟩
        exact he (Set.mem_singleton_iff.mp hmem)
  haveI : Nonempty V := hc.nonempty
  exact ⟨fun a b => hmono a b (hc.preconnected a b)⟩

/-- A connected graph on a finite vertex set has at least `card V - 1`
edges (strong induction deleting a non-bridge edge of any cycle). -/
theorem connected_card_le {V : Type} [Fintype V] :
    ∀ (n : Nat) (G : SimpleGraph V), G.edgeSet.ncard = n → G.Connected →
      Fintype.card V ≤ n + 1 := by
  intro n
  induction n using Nat.strong_induction_on with
  | _ n ih =>
    intro G hn hc
    classical
    by_cases hac : G.IsAcyclic
    · have ht : G.IsTree := ⟨hc, hac⟩
      haveI : Fintype G.edgeSet := (Set.toFinite _).fintype
      have hcard := ht.card_edgeFinset
      have hnc : G.edgeSet.ncard = G.edgeFinset.card := by
        rw [Set.ncard_eq_toFinset_card']
      omega
    · rw [SimpleGraph.isAcyclic_iff_forall_adj_isBridge] at hac
      push_neg at hac
      obtain ⟨u, v, hadj, hnb⟩ := hac
      have hreach : (G \ SimpleGraph.fromEdgeSet {Sym2.mk (u, v)}).Reachable u v := by
        rw [SimpleGraph.isBridge_iff] at hnb
        by_contra hcon
        exact hnb ⟨hadj, hcon⟩
      have hc2 : (G \ SimpleGraph.fromEdgeSet {Sym2.mk (u, v)}).Connected :=
        connected_sdiff_of_reachable hreach hc
      have hes : (G \ SimpleGraph.fromEdgeSet {Sym2.mk (u, v)}).edgeSet =
          G.edgeSet \ {Sym2.mk (u, v)} := by
        rw [SimpleGraph.edgeSet_sdiff, SimpleGraph.edgeSet_fromEdgeSet,
          SimpleGraph.edgeSet_sdiff_sdiff_isDiag]
      have hlt : (G \ SimpleGraph.fromEdgeSet {Sym2.mk (u, v)}).edgeSet.ncard < n := by
        rw [hes, ← hn]
        exact Set.ncard_diff_singleton_lt_of_mem ((SimpleGraph.mem_edgeSet G).mpr hadj)
          (Set.toFinite _)
      have hstep := ih _ hlt (G \ SimpleGraph.fromEdgeSet {Sym2.mk (u, v)}) rfl hc2
      omega

/-! ### `wouldDisconnect` restores the maze; closing an edge drops the
connection count by one -/

/-- Two mazes with equal fields are equal. -/
theorem maze_eq_of_fields {m1 m2 : Maze} (hw : m1.width = m2.width)
    (hh : m1.height = m2.height) (hs : m1.start = m2.start)
    (hf : m1.finish = m2.finish) (hwl : m1.walls = m2.walls)
    (hp : m1.portals = m2.portals) (hl : m1.layers = m2.layers)
    (hwp : m1.widthPerLayer = m2.widthPerLayer)
    (hhp : m1.heightPerLayer = m2.heightPerLayer) : m1 = m2 := by
  cases m1
  cases m2
  simp only at hw hh hs hf hwl hp hl hwp hhp
  subst hw
  subst hh
  subst hs
  subst hf
  subst hwl
  subst hp
  subst hl
  subst hwp
  subst hhp
  rfl

/-- `closeEdge` is monotone in the wall sets. -/
theorem closeEdge_mono {m1 m2 : Maze} (h : subWalls m1 m2) (p : Pos) (d : Dir)
    (q : Pos) : subWalls (m1.closeEdge p d q) (m2.closeEdge p d q) := by
  intro r dr hr
  rw [closeEdge_walls] at hr ⊢
  by_cases hc : (r = q ∧ dr = d.opposite) ∨ (r = p ∧ dr = d)
  · rw [if_pos hc]
  · rw [if_neg hc] at hr ⊢
    exact h r dr hr

/-- A maze is wall-wise below any of its edge closures. -/
theorem closeEdge_superWalls (m : Maze) (p : Pos) (d : Dir) (q : Pos) :
    subWalls m (m.closeEdge p d q) := by
  intro r dr hr
  rw [closeEdge_walls]
  by_cases hc : (r = q ∧ dr = d.opposite) ∨ (r = p ∧ dr = d)
  · rw [if_pos hc]
  · rw [if_neg hc]
    exact hr

/-- Once closing an edge disconnects a maze, it still disconnects every
maze obtained by closing further edges. -/
theorem closeEdge_disconnect_persists {m mc : Maze} (hsub : subWalls m mc)
    (hw : m.width = mc.width) (hh : m.height = mc.height) (hs : m.start = mc.start)
    (p : Pos) (d : Dir) (q : Pos)
    (hdisc : isConnected (m.closeEdge p d q) = false) :
    isConnected (mc.closeEdge p d q) = false := by
  cases hcc : isConnected (mc.closeEdge p d q)
  · rfl
  · exfalso
    have hcon := isConnected_of_subWalls (closeEdge_mono hsub p d q)
      ((closeEdge_shape m p d q).1.trans (hw.trans (closeEdge_shape mc p d q).1.symm))
      ((closeEdge_shape m p d q).2.1.trans (hh.trans (closeEdge_shape mc p d q).2.1.symm))
      ((closeEdge_shape m p d q).2.2.trans (hs.trans (closeEdge_shape mc p d q).2.2.symm))
      hcc
    rw [hcon] at hdisc
    exact Bool.true_eq_false.mp hdisc

/-- When both facing walls of an in-bounds edge are open, the
close-test-restore step returns the connectivity verdict of the closure
together with the unchanged maze. -/
theorem wouldDisconnect_eq {m : Maze} {e : EdgeRec}
    (hb1 : inBounds m.width m.height (e.x1, e.y1) = true)
    (hb2 : inBounds m.width m.height (e.x2, e.y2) = true)
    (ho1 : m.walls (e.x1, e.y1) e.direction = false)
    (ho2 : m.walls (e.x2, e.y2) e.direction.opposite = false) :
    wouldDisconnect m e =
      (!isConnected (m.closeEdge (e.x1, e.y1) e.direction (e.x2, e.y2)), m) := by
  unfold wouldDisconnect
  rw [if_pos (by rw [hb1, hb2]; rfl)]
  dsimp only
  refine congrArg (Prod.mk _) ?_
  refine maze_eq_of_fields rfl rfl rfl rfl ?_ rfl rfl rfl rfl
  funext r dr
  rw [removeWall_walls, removeWall_walls, closeEdge_walls]
  by_cases h1 : r = (e.x2, e.y2) ∧ dr = e.direction.opposite
  · rw [if_pos h1]
    obtain ⟨h1a, h1b⟩ := h1
    subst h1a
    subst h1b
    exact ho2.symm
  · rw [if_neg h1]
    by_cases h2 : r = (e.x1, e.y1) ∧ dr = e.direction
    · rw [if_pos h2]
      obtain ⟨h2a, h2b⟩ := h2
      subst h2a
      subst h2b
      exact ho1.symm
    · rw [if_neg h2, if_neg (fun hc => hc.elim h1 h2)]

/-- A double grid sum changes by exactly one when the summand grows by one
at a single grid point and is unchanged elsewhere. -/
theorem sum_grid_point_diff {w h x0 y0 : Nat} (f g : Nat → Nat → Nat)
    (hx0 : x0 < w) (hy0 : y0 < h)
    (hfg : ∀ x y, ¬(x = x0 ∧ y = y0) → f x y = g x y)
    (hpt : f x0 y0 + 1 = g x0 y0) :
    (∑ y ∈ Finset.range h, ∑ x ∈ Finset.range w, f x y) + 1 =
      ∑ y ∈ Finset.range h, ∑ x ∈ Finset.range w, g x y := by
  have hy0m : y0 ∈ Finset.range h := Finset.mem_range.mpr hy0
  have hx0m : x0 ∈ Finset.range w := Finset.mem_range.mpr hx0
  rw [Finset.sum_eq_sum_diff_singleton_add hy0m,
    Finset.sum_eq_sum_diff_singleton_add hy0m]
  have hrows : ∑ y ∈ Finset.range h \ {y0}, ∑ x ∈ Finset.range w, f x y =
      ∑ y ∈ Finset.range h \ {y0}, ∑ x ∈ Finset.range w, g x y := by
    refine Finset.sum_congr rfl fun y hy => Finset.sum_congr rfl fun x hx => ?_
    rw [Finset.mem_sdiff, Finset.mem_singleton] at hy
    exact hfg x y (fun hcon => hy.2 hcon.2)
  have hrow0 : (∑ x ∈ Finset.range w, f x y0) + 1 = ∑ x ∈ Finset.range w, g x y0 := by
    rw [Finset.sum_eq_sum_diff_singleton_add hx0m,
      Finset.sum_eq_sum_diff_singleton_add hx0m]
    have hcols : ∑ x ∈ Finset.range w \ {x0}, f x y0 =
        ∑ x ∈ Finset.range w \ {x0}, g x y0 := by
      refine Finset.sum_congr rfl fun x hx => ?_
      rw [Finset.mem_sdiff, Finset.mem_singleton] at hx
      exact hfg x y0 (fun hcon => hx.2 hcon.1)
    omega
  omega

/-- Closing an open east/south interior edge decrements
`countConnections` by exactly one. -/
theorem closeEdge_count {m : Maze} {p q : Pos} {d : Dir}
    (hpb : inBounds m.width m.height p = true)
    (hd : d = Dir.E ∨ d = Dir.S)
    (hmv : movePos m.width m.height p d = some q)
    (hopen : m.walls p d = false) :
    countConnections (m.closeEdge p d q) + 1 = countConnections m := by
  have hsh := closeEdge_shape m p d q
  rw [countConnections, countConnections, hsh.1, hsh.2.1]
  simp only [inBounds, Bool.and_eq_true, decide_eq_true_eq] at hpb
  refine sum_grid_point_diff (w := m.width) (h := m.height)
    _ _ hpb.1 hpb.2 ?_ ?_
  · intro x y hne
    rw [cellConn, cellConn, hsh.1, hsh.2.1]
    have hE : (m.closeEdge p d q).walls (x, y) Dir.E = m.walls (x, y) Dir.E := by
      rw [closeEdge_walls]
      refine if_neg ?_
      rintro (⟨-, hdo⟩ | ⟨hp2, -⟩)
      · rcases hd with hd | hd <;> subst hd <;> exact absurd hdo (by decide)
      · exact hne ⟨congrArg Prod.fst hp2, congrArg Prod.snd hp2⟩
    have hS : (m.closeEdge p d q).walls (x, y) Dir.S = m.walls (x, y) Dir.S := by
      rw [closeEdge_walls]
      refine if_neg ?_
      rintro (⟨-, hdo⟩ | ⟨hp2, -⟩)
      · rcases hd with hd | hd <;> subst hd <;> exact absurd hdo (by decide)
      · exact hne ⟨congrArg Prod.fst hp2, congrArg Prod.snd hp2⟩
    rw [hE, hS]
  · have hpe : ((p.1, p.2) : Pos) = p := rfl
    rcases hd with hd | hd <;> subst hd
    · have hxw : p.1 < m.width - 1 := by
        simp only [movePos] at hmv
        split at hmv
        · omega
        · exact absurd hmv (by simp)
      rw [cellConn, cellConn, hsh.1, hsh.2.1]
      have hE : (m.closeEdge p Dir.E q).walls (p.1, p.2) Dir.E = true := by
        rw [closeEdge_walls]
        exact if_pos (Or.inr ⟨hpe, rfl⟩)
      have hS : (m.closeEdge p Dir.E q).walls (p.1, p.2) Dir.S =
          m.walls (p.1, p.2) Dir.S := by
        rw [closeEdge_walls]
        refine if_neg ?_
        rintro (⟨-, hdo⟩ | ⟨-, hdo⟩) <;> exact absurd hdo (by decide)
      have hopen2 : m.walls (p.1, p.2) Dir.E = false := hopen
      have e1 : (if p.1 < m.width - 1 && !(m.closeEdge p Dir.E q).walls (p.1, p.2) Dir.E then 1 else 0) +
            (if p.2 < m.height - 1 && !(m.closeEdge p Dir.E q).walls (p.1, p.2) Dir.S then 1 else 0) =
          (if p.2 < m.height - 1 && !m.walls (p.1, p.2) Dir.S then 1 else 0) := by
        rw [hE, hS, if_neg (by simp)]
        exact Nat.zero_add _
      have e2 : (if p.1 < m.width - 1 && !m.walls (p.1, p.2) Dir.E then 1 else 0) +
            (if p.2 < m.height - 1 && !m.walls (p.1, p.2) Dir.S then 1 else 0) =
          1 + (if p.2 < m.height - 1 && !m.walls (p.1, p.2) Dir.S then 1 else 0) := by
        rw [if_pos (by simp [hxw, hopen2])]
      rw [e1, e2]
      omega
    · have hyh : p.2 < m.height - 1 := by
        simp only [movePos] at hmv
        split at hmv
        · omega
        · exact absurd hmv (by simp)
      rw [cellConn, cellConn, hsh.1, hsh.2.1]
      have hS : (m.closeEdge p Dir.S q).walls (p.1, p.2) Dir.S = true := by
        rw [closeEdge_walls]
        exact if_pos (Or.inr ⟨hpe, rfl⟩)
      have hE : (m.closeEdge p Dir.S q).walls (p.1, p.2) Dir.E =
          m.walls (p.1, p.2) Dir.E := by
        rw [closeEdge_walls]
        refine if_neg ?_
        rintro (⟨-, hdo⟩ | ⟨-, hdo⟩) <;> exact absurd hdo (by decide)
      have hopen2 : m.walls (p.1, p.2) Dir.S = false := hopen
      have e1 : (if p.1 < m.width - 1 && !(m.closeEdge p Dir.S q).walls (p.1, p.2) Dir.E then 1 else 0) +
            (if p.2 < m.height - 1 && !(m.closeEdge p Dir.S q).walls (p.1, p.2) Dir.S then 1 else 0) =
          (if p.1 < m.width - 1 && !m.walls (p.1, p.2) Dir.E then 1 else 0) := by
        rw [hE, hS]
        have e0 : (if p.2 < m.height - 1 && !(true : Bool) then 1 else 0) = 0 := by simp
        rw [e0]
        exact Nat.add_zero _
      have e2 : (if p.1 < m.width - 1 && !m.walls (p.1, p.2) Dir.E then 1 else 0) +
            (if p.2 < m.height - 1 && !m.walls (p.1, p.2) Dir.S then 1 else 0) =
          (if p.1 < m.width - 1 && !m.walls (p.1, p.2) Dir.E then 1 else 0) + 1 := by
        have e3 : (if p.2 < m.height - 1 && !m.walls (p.1, p.2) Dir.S then 1 else 0) = 1 := by
          rw [if_pos (by simp [hyh, hopen2])]
        rw [e3]
      rw [e1, e2]

/-! ### The `getAllEdges` list: length, membership, completeness,
distinct slots -/

theorem length_flatMap_sum {α β : Type _} (f : α → List β) :
    ∀ l : List α, (l.flatMap f).length = (l.map (fun a => (f a).length)).sum := by
  intro l
  induction l with
  | nil => rfl
  | cons a l ih =>
    rw [List.flatMap_cons, List.length_append, List.map_cons, List.sum_cons, ih]

theorem sum_map_range (f : Nat → Nat) :
    ∀ n, ((List.range n).map f).sum = ∑ i ∈ Finset.range n, f i := by
  intro n
  induction n with
  | zero => rfl
  | succ n ih =>
    rw [List.range_succ, List.map_append, List.sum_append, Finset.sum_range_succ, ih]
    simp

theorem length_ite_singleton {c : Prop} [Decidable c] (e : EdgeRec) :
    (if c then [e] else []).length = if c then 1 else 0 := by
  split <;> rfl

/-- `getAllEdges` lists exactly `countConnections` edges. -/
theorem getAllEdges_length (m : Maze) :
    (getAllEdges m).length = countConnections m := by
  rw [getAllEdges, countConnections, length_flatMap_sum, sum_map_range]
  refine Finset.sum_congr rfl fun y _ => ?_
  rw [length_flatMap_sum, sum_map_range]
  refine Finset.sum_congr rfl fun x _ => ?_
  rw [List.length_append, length_ite_singleton, length_ite_singleton, cellConn]

/-- Every record of `getAllEdges` is a valid, in-bounds, open edge. -/
theorem getAllEdges_mem_spec {m : Maze} {e : EdgeRec} (he : e ∈ getAllEdges m) :
    validEdge e ∧ inBounds m.width m.height (e.x1, e.y1) = true ∧
      inBounds m.width m.height (e.x2, e.y2) = true ∧
      m.walls (e.x1, e.y1) e.direction = false := by
  rw [getAllEdges, List.mem_flatMap] at he
  obtain ⟨y, hy, he2⟩ := he
  rw [List.mem_range] at hy
  rw [List.mem_flatMap] at he2
  obtain ⟨x, hx, he3⟩ := he2
  rw [List.mem_range] at hx
  rw [List.mem_append] at he3
  rcases he3 with h4 | h4
  · split at h4
    · rename_i hcond
      rw [Bool.and_eq_true, decide_eq_true_eq, Bool.not_eq_true'] at hcond
      simp only [List.mem_singleton] at h4
      subst h4
      refine ⟨Or.inl ⟨rfl, rfl, rfl⟩, ?_, ?_, hcond.2⟩
      · simp only [inBounds, Bool.and_eq_true, decide_eq_true_eq]
        exact ⟨hx, hy⟩
      · simp only [inBounds, Bool.and_eq_true, decide_eq_true_eq]
        exact ⟨by omega, hy⟩
    · exact absurd h4 (by simp)
  · split at h4
    · rename_i hcond
      rw [Bool.and_eq_true, decide_eq_true_eq, Bool.not_eq_true'] at hcond
      simp only [List.mem_singleton] at h4
      subst h4
      refine ⟨Or.inr ⟨rfl, rfl, rfl⟩, ?_, ?_, hcond.2⟩
      · simp only [inBounds, Bool.and_eq_true, decide_eq_true_eq]
        exact ⟨hx, hy⟩
      · simp only [inBounds, Bool.and_eq_true, decide_eq_true_eq]
        exact ⟨hx, by omega⟩
    · exact absurd h4 (by simp)

/-- Every open east/south interior edge has a record in `getAllEdges`. -/
theorem getAllEdges_complete {m : Maze} {p q : Pos} {d : Dir}
    (hb : inBounds m.width m.height p = true) (hd : d = Dir.E ∨ d = Dir.S)
    (hmv : movePos m.width m.height p d = some q)
    (hopen : m.walls p d = false) :
    ∃ e ∈ getAllEdges m, (e.x1, e.y1) = p ∧ e.direction = d := by
  simp only [inBounds, Bool.and_eq_true, decide_eq_true_eq] at hb
  rcases hd with hd | hd <;> subst hd
  · have hxw : p.1 + 1 < m.width := by
      simp only [movePos] at hmv
      split at hmv
      · omega
      · exact absurd hmv (by simp)
    refine ⟨{ x1 := p.1, y1 := p.2, x2 := p.1 + 1, y2 := p.2, direction := Dir.E },
      ?_, rfl, rfl⟩
    rw [getAllEdges, List.mem_flatMap]
    refine ⟨p.2, List.mem_range.mpr hb.2, ?_⟩
    rw [List.mem_flatMap]
    refine ⟨p.1, List.mem_range.mpr hb.1, ?_⟩
    rw [List.mem_append]
    left
    have hopen2 : m.walls (p.1, p.2) Dir.E = false := hopen
    rw [if_pos (by simp [hopen2]; omega)]
    exact List.mem_singleton.mpr rfl
  · have hyh : p.2 + 1 < m.height := by
      simp only [movePos] at hmv
      split at hmv
      · omega
      · exact absurd hmv (by simp)
    refine ⟨{ x1 := p.1, y1 := p.2, x2 := p.1, y2 := p.2 + 1, direction := Dir.S },
      ?_, rfl, rfl⟩
    rw [getAllEdges, List.mem_flatMap]
    refine ⟨p.2, List.mem_range.mpr hb.2, ?_⟩
    rw [List.mem_flatMap]
    refine ⟨p.1, List.mem_range.mpr hb.1, ?_⟩
    rw [List.mem_append]
    right
    have hopen2 : m.walls (p.1, p.2) Dir.S = false := hopen
    rw [if_pos (by simp [hopen2]; omega)]
    exact List.mem_singleton.mpr rfl

/-- A flat map over an initial segment of the naturals is duplicate-free
when each block is duplicate-free and tags its elements with its index. -/
theorem flatMap_nodup_tagged {α : Type _} (g : Nat → List α) (tag : α → Nat)
    (htag : ∀ i a, a ∈ g i → tag a = i) (hg : ∀ i, (g i).Nodup) :
    ∀ n, ((List.range n).flatMap g).Nodup := by
  intro n
  induction n with
  | zero => simp
  | succ n ih =>
    rw [List.range_succ, List.flatMap_append]
    refine List.Nodup.append ih ?_ ?_
    · simpa using hg n
    · intro a ha1 ha2
      rw [List.mem_flatMap] at ha1
      obtain ⟨i, hi, hai⟩ := ha1
      rw [List.mem_range] at hi
      have ht1 := htag i a hai
      have ha2' : a ∈ g n := by simpa using ha2
      have ht2 := htag n a ha2'
      omega

/-- The cell-direction slots of `getAllEdges` are pairwise distinct. -/
theorem getAllEdges_slot_nodup (m : Maze) :
    ((getAllEdges m).map (fun e => ((e.x1, e.y1), e.direction))).Nodup := by
  rw [getAllEdges, List.map_flatMap]
  refine flatMap_nodup_tagged _ (fun sl => sl.1.2) ?_ ?_ m.height
  · intro y sl hsl
    rw [List.map_flatMap, List.mem_flatMap] at hsl
    obtain ⟨x, _, hsl2⟩ := hsl
    rw [List.map_append, List.mem_append] at hsl2
    rcases hsl2 with h | h <;> rw [List.mem_map] at h <;> obtain ⟨e, he, hee⟩ := h <;>
      subst hee <;> split at he <;>
      simp only [List.mem_singleton, List.not_mem_nil] at he <;> subst he <;> rfl
  · intro y
    rw [List.map_flatMap]
    refine flatMap_nodup_tagged _ (fun sl => sl.1.1) ?_ ?_ m.width
    · intro x sl hsl
      rw [List.map_append, List.mem_append] at hsl
      rcases hsl with h | h <;> rw [List.mem_map] at h <;> obtain ⟨e, he, hee⟩ := h <;>
        subst hee <;> split at he <;>
        simp only [List.mem_singleton, List.not_mem_nil] at he <;> subst he <;> rfl
    · intro x
      rw [List.map_append]
      split <;> split <;> simp

/-! ### Closing one edge of the maze deletes exactly one graph edge -/

/-- Closing the edge `p —d→ q` of a wall-symmetric maze deletes exactly
the edge between the corresponding vertices from the open-edge graph. -/
theorem mazeGraph_closeEdge {m : Maze} [NeZero m.width] [NeZero m.height]
    (hsym : symWalls m) {p q : Pos} {d : Dir}
    (hp : inBounds m.width m.height p = true)
    (hmv : movePos m.width m.height p d = some q) :
    mazeGraph m.width m.height (m.closeEdge p d q).walls =
      mazeGraph m.width m.height m.walls \
        SimpleGraph.fromEdgeSet
          {Sym2.mk (posV m.width m.height p, posV m.width m.height q)} := by
  have hq : inBounds m.width m.height q = true := movePos_inBounds hp hmv
  have hsymc : symWalls (m.closeEdge p d q) := closeEdge_symWalls hp hmv hsym
  ext u v
  rw [SimpleGraph.sdiff_adj, SimpleGraph.fromEdgeSet_adj]
  constructor
  · intro hadj
    obtain ⟨d', hmv', hop'⟩ :=
      mazeAdj_oneSided (m := m.closeEdge p d q) hsymc (toPos_inBounds v) hadj
    rw [closeEdge_walls] at hop'
    split at hop'
    · exact absurd hop' (by simp)
    · rename_i hnc
      refine ⟨Or.inl ⟨d', hmv', hop'⟩, ?_⟩
      rintro ⟨hmem, -⟩
      rw [Set.mem_singleton_iff, Sym2.eq_iff] at hmem
      rcases hmem with ⟨h1, h2⟩ | ⟨h1, h2⟩
      · have e1 : toPos u = p := by rw [h1, toPos_posV hp]
        have e2 : toPos v = q := by rw [h2, toPos_posV hq]
        rw [e1, e2] at hmv'
        exact hnc (Or.inr ⟨e1, movePos_dir_inj hmv' hmv⟩)
      · have e1 : toPos u = q := by rw [h1, toPos_posV hq]
        have e2 : toPos v = p := by rw [h2, toPos_posV hp]
        rw [e1, e2] at hmv'
        exact hnc (Or.inl ⟨e1, movePos_dir_inj hmv' (movePos_symm hp hmv)⟩)
  · rintro ⟨hadj, hno⟩
    have hne : u ≠ v := hadj.ne
    obtain ⟨d', hmv', hop'⟩ := mazeAdj_oneSided hsym (toPos_inBounds v) hadj
    show mazeAdj m.width m.height (m.closeEdge p d q).walls (toPos u) (toPos v)
    refine Or.inl ⟨d', hmv', ?_⟩
    have hncond : ¬((toPos u = q ∧ d' = d.opposite) ∨ (toPos u = p ∧ d' = d)) := by
      rintro (⟨e1, e2⟩ | ⟨e1, e2⟩)
      · subst e2
        rw [e1] at hmv'
        have hmv2 := movePos_symm hp hmv
        rw [hmv'] at hmv2
        injection hmv2 with e3
        refine hno ⟨Set.mem_singleton_iff.mpr (Sym2.eq_iff.mpr (Or.inr ⟨?_, ?_⟩)), hne⟩
        · rw [← e1, posV_toPos]
        · rw [← e3, posV_toPos]
      · subst e2
        rw [e1] at hmv'
        rw [hmv'] at hmv
        injection hmv with e3
        refine hno ⟨Set.mem_singleton_iff.mpr (Sym2.eq_iff.mpr (Or.inl ⟨?_, ?_⟩)), hne⟩
        · rw [← e1, posV_toPos]
        · rw [← e3, posV_toPos]
    rw [closeEdge_walls, if_neg hncond]
    exact hop'

/-- If the open-edge graph of an edge closure is connected, the BFS test
of the closure succeeds. -/
theorem closeEdge_isConnected_of_graph {m : Maze} [NeZero m.width] [NeZero m.height]
    (hsym : symWalls m) (hs : inBounds m.width m.height m.start = true)
    {p q : Pos} {d : Dir} (hp : inBounds m.width m.height p = true)
    (hmv : movePos m.width m.height p d = some q)
    (hconn : (mazeGraph m.width m.height (m.closeEdge p d q).walls).Connected) :
    isConnected (m.closeEdge p d q) = true := by
  have hsh := closeEdge_shape m p d q
  haveI : NeZero (m.closeEdge p d q).width := ⟨by rw [hsh.1]; exact NeZero.ne m.width⟩
  haveI : NeZero (m.closeEdge p d q).height := ⟨by rw [hsh.2.1]; exact NeZero.ne m.height⟩
  refine connected_isConnected (m := m.closeEdge p d q)
    (closeEdge_symWalls hp hmv hsym) ?_ ?_
  · rw [hsh.1, hsh.2.1, hsh.2.2]
    exact hs
  · exact hconn

/-- When closing every single open east/south interior edge disconnects a
connected wall-symmetric maze, every open edge is a bridge, the open-edge
graph is a tree, and `countConnections` is exactly `width*height - 1`. -/
theorem all_bridges_count {m : Maze} (hw : 2 ≤ m.width) (hh : 2 ≤ m.height)
    (hsym : symWalls m) (hc : isConnected m = true)
    (hall : ∀ p d q, inBounds m.width m.height p = true →
      (d = Dir.E ∨ d = Dir.S) → movePos m.width m.height p d = some q →
      m.walls p d = false → isConnected (m.closeEdge p d q) = false) :
    countConnections m = m.width * m.height - 1 := by
  haveI : NeZero m.width := ⟨by omega⟩
  haveI : NeZero m.height := ⟨by omega⟩
  have hs : inBounds m.width m.height m.start = true := by
    simp only [isConnected, Bool.and_eq_true] at hc
    exact hc.1
  have hG : (mazeGraph m.width m.height m.walls).Connected := isConnected_connected hc
  have bridge : ∀ (u v : Fin m.width × Fin m.height) (d : Dir),
      (d = Dir.E ∨ d = Dir.S) →
      movePos m.width m.height (toPos u) d = some (toPos v) →
      m.walls (toPos u) d = false →
      (mazeGraph m.width m.height m.walls).IsBridge (Sym2.mk (u, v)) := by
    intro u v d hd hmv hopen
    rw [SimpleGraph.isBridge_iff]
    refine ⟨Or.inl ⟨d, hmv, hopen⟩, ?_⟩
    intro hreach
    have hdisc := hall (toPos u) d (toPos v) (toPos_inBounds u) hd hmv hopen
    have hconn2 := connected_sdiff_of_reachable hreach hG
    have hgr := mazeGraph_closeEdge hsym (toPos_inBounds u) hmv
    rw [posV_toPos, posV_toPos] at hgr
    have hicc := closeEdge_isConnected_of_graph hsym hs (toPos_inBounds u) hmv
      (by rw [hgr]; exact hconn2)
    rw [hicc] at hdisc
    exact Bool.true_eq_false.mp hdisc
  have hacyclic : (mazeGraph m.width m.height m.walls).IsAcyclic := by
    rw [SimpleGraph.isAcyclic_iff_forall_adj_isBridge]
    intro u v hadj
    obtain ⟨d, hmv, hopen⟩ := mazeAdj_oneSided hsym (toPos_inBounds v) hadj
    cases d
    case N =>
      rw [Sym2.eq_swap]
      refine bridge v u Dir.S (Or.inr rfl) ?_ ?_
      · exact movePos_symm (toPos_inBounds u) hmv
      · exact (hsym (toPos u) Dir.N (toPos v) (toPos_inBounds u) hmv).symm.trans hopen
    case E => exact bridge u v Dir.E (Or.inl rfl) hmv hopen
    case S => exact bridge u v Dir.S (Or.inr rfl) hmv hopen
    case W =>
      rw [Sym2.eq_swap]
      refine bridge v u Dir.E (Or.inl rfl) ?_ ?_
      · exact movePos_symm (toPos_inBounds u) hmv
      · exact (hsym (toPos u) Dir.W (toPos v) (toPos_inBounds u) hmv).symm.trans hopen
  have ht : (mazeGraph m.width m.height m.walls).IsTree := ⟨hG, hacyclic⟩
  have h1 := ht.card_edgeFinset
  have h2 : Fintype.card (Fin m.width × Fin m.height) = m.width * m.height := by
    rw [Fintype.card_prod, Fintype.card_fin, Fintype.card_fin]
  have h3 := countConnections_eq_edgeFinset_card hsym
  omega

/-! ### The edge-removal loop: master invariant -/

/-- Invariant of the close-and-test pass: starting from a connected
wall-symmetric maze whose pending edge records are valid, in-bounds, open,
slot-distinct, and together with the already-refuted closures cover every
open east/south interior edge, the loop keeps the maze connected and
either performs exactly the remaining `target - removed` closures or stops
with every open interior edge a bridge (`width*height - 1` edges). -/
theorem removeEdgesLoop_spec (target : Nat) :
    ∀ (es : List EdgeRec) (m : Maze) (removed : Nat),
      2 ≤ m.width → 2 ≤ m.height → symWalls m → isConnected m = true →
      (∀ e ∈ es, validEdge e ∧ inBounds m.width m.height (e.x1, e.y1) = true ∧
        inBounds m.width m.height (e.x2, e.y2) = true ∧
        m.walls (e.x1, e.y1) e.direction = false) →
      (es.map (fun e => ((e.x1, e.y1), e.direction))).Nodup →
      (∀ p d q, inBounds m.width m.height p = true → (d = Dir.E ∨ d = Dir.S) →
        movePos m.width m.height p d = some q → m.walls p d = false →
        (∃ e ∈ es, (e.x1, e.y1) = p ∧ e.direction = d) ∨
          isConnected (m.closeEdge p d q) = false) →
      removed ≤ target →
      (removeEdgesLoop target m es removed).width = m.width ∧
      (removeEdgesLoop target m es removed).height = m.height ∧
      symWalls (removeEdgesLoop target m es removed) ∧
      isConnected (removeEdgesLoop target m es removed) = true ∧
      (countConnections (removeEdgesLoop target m es removed) + (target - removed) =
          countConnections m ∨
        countConnections (removeEdgesLoop target m es removed) =
          m.width * m.height - 1) := by
  intro es
  induction es with
  | nil =>
    intro m removed hw hh hsym hc hes hnd hcov hrt
    rw [removeEdgesLoop]
    refine ⟨rfl, rfl, hsym, hc, Or.inr ?_⟩
    refine all_bridges_count hw hh hsym hc ?_
    intro p d q hbp hd hmv hopen
    rcases hcov p d q hbp hd hmv hopen with ⟨e, he, -⟩ | hdisc
    · exact absurd he (List.not_mem_nil e)
    · exact hdisc
  | cons e es ih =>
    intro m removed hw hh hsym hc hes hnd hcov hrt
    obtain ⟨hve, hb1, hb2, ho1⟩ := hes e (List.mem_cons_self e es)
    have hmv_e : movePos m.width m.height (e.x1, e.y1) e.direction = some (e.x2, e.y2) :=
      validEdge_movePos hve hb2
    have ho2 : m.walls (e.x2, e.y2) e.direction.opposite = false := by
      rw [← hsym (e.x1, e.y1) e.direction (e.x2, e.y2) hb1 hmv_e]
      exact ho1
    have hdE : e.direction = Dir.E ∨ e.direction = Dir.S := by
      rcases hve with ⟨h, -⟩ | ⟨h, -⟩
      · exact Or.inl h
      · exact Or.inr h
    have hesT : ∀ e2 ∈ es, validEdge e2 ∧ inBounds m.width m.height (e2.x1, e2.y1) = true ∧
        inBounds m.width m.height (e2.x2, e2.y2) = true ∧
        m.walls (e2.x1, e2.y1) e2.direction = false :=
      fun e2 h2 => hes e2 (List.mem_cons_of_mem e h2)
    rw [List.map_cons] at hnd
    obtain ⟨hslot, hndT⟩ := List.nodup_cons.mp hnd
    rw [removeEdgesLoop]
    by_cases hbreak : target ≤ removed
    · rw [if_pos hbreak]
      refine ⟨rfl, rfl, hsym, hc, Or.inl ?_⟩
      have heq : target = removed := Nat.le_antisymm hbreak hrt
      omega
    · rw [if_neg hbreak]
      rw [wouldDisconnect_eq hb1 hb2 ho1 ho2]
      dsimp only
      cases hcI : isConnected (m.closeEdge (e.x1, e.y1) e.direction (e.x2, e.y2)) with
      | false =>
        simp only [Bool.not_false, Bool.not_true]
        rw [if_neg (by simp)]
        refine ih m removed hw hh hsym hc hesT hndT ?_ hrt
        intro p d q hbp hd hmv hopen
        rcases hcov p d q hbp hd hmv hopen with ⟨e2, he2, hsl1, hsl2⟩ | hdisc
        · rcases List.mem_cons.mp he2 with rfl | h2
          · right
            rw [← hsl1, ← hsl2] at hmv
            rw [hmv] at hmv_e
            injection hmv_e with e4
            rw [← hsl1, ← hsl2, e4]
            exact hcI
          · exact Or.inl ⟨e2, h2, hsl1, hsl2⟩
        · exact Or.inr hdisc
      | true =>
        simp only [Bool.not_true, Bool.not_false]
        rw [if_pos trivial]
        rw [if_pos (by rw [hb1, hb2]; rfl)]
        have hsh := closeEdge_shape m (e.x1, e.y1) e.direction (e.x2, e.y2)
        have hsymc : symWalls (m.closeEdge (e.x1, e.y1) e.direction (e.x2, e.y2)) :=
          closeEdge_symWalls hb1 hmv_e hsym
        have hmono := closeEdge_superWalls m (e.x1, e.y1) e.direction (e.x2, e.y2)
        have h2w : 2 ≤ (m.closeEdge (e.x1, e.y1) e.direction (e.x2, e.y2)).width := by
          rw [hsh.1]
          exact hw
        have h2h : 2 ≤ (m.closeEdge (e.x1, e.y1) e.direction (e.x2, e.y2)).height := by
          rw [hsh.2.1]
          exact hh
        have hesC : ∀ e2 ∈ es, validEdge e2 ∧
            inBounds (m.closeEdge (e.x1, e.y1) e.direction (e.x2, e.y2)).width
              (m.closeEdge (e.x1, e.y1) e.direction (e.x2, e.y2)).height
              (e2.x1, e2.y1) = true ∧
            inBounds (m.closeEdge (e.x1, e.y1) e.direction (e.x2, e.y2)).width
              (m.closeEdge (e.x1, e.y1) e.direction (e.x2, e.y2)).height
              (e2.x2, e2.y2) = true ∧
            (m.closeEdge (e.x1, e.y1) e.direction (e.x2, e.y2)).walls
              (e2.x1, e2.y1) e2.direction = false := by
          intro e2 h2
          obtain ⟨hv2, hb12, hb22, ho12⟩ := hesT e2 h2
          have hd2 : e2.direction = Dir.E ∨ e2.direction = Dir.S := by
            rcases hv2 with ⟨h, -⟩ | ⟨h, -⟩
            · exact Or.inl h
            · exact Or.inr h
          refine ⟨hv2, ?_, ?_, ?_⟩
          · rw [hsh.1, hsh.2.1]
            exact hb12
          · rw [hsh.1, hsh.2.1]
            exact hb22
          · rw [closeEdge_walls]
            rw [if_neg ?_]
            · exact ho12
            rintro (⟨-, hdo⟩ | ⟨hpp, hdd⟩)
            · rcases hdE with h | h <;> rw [h] at hdo <;>
                rcases hd2 with h2d | h2d <;> rw [h2d] at hdo <;>
                exact absurd hdo (by decide)
            · refine hslot ?_
              rw [List.mem_map]
              refine ⟨e2, h2, ?_⟩
              rw [hpp, hdd]
        have hcovC : ∀ p d q,
            inBounds (m.closeEdge (e.x1, e.y1) e.direction (e.x2, e.y2)).width
              (m.closeEdge (e.x1, e.y1) e.direction (e.x2, e.y2)).height p = true →
            (d = Dir.E ∨ d = Dir.S) →
            movePos (m.closeEdge (e.x1, e.y1) e.direction (e.x2, e.y2)).width
              (m.closeEdge (e.x1, e.y1) e.direction (e.x2, e.y2)).height p d = some q →
            (m.closeEdge (e.x1, e.y1) e.direction (e.x2, e.y2)).walls p d = false →
            (∃ e2 ∈ es, (e2.x1, e2.y1) = p ∧ e2.direction = d) ∨
              isConnected ((m.closeEdge (e.x1, e.y1) e.direction
                (e.x2, e.y2)).closeEdge p d q) = false := by
          intro p d q hbp hd hmv hopen
          rw [hsh.1, hsh.2.1] at hbp hmv
          rw [closeEdge_walls] at hopen
          split at hopen
          · exact absurd hopen (by simp)
          · rename_i hnc
            rcases hcov p d q hbp hd hmv hopen with ⟨e2, he2, hsl1, hsl2⟩ | hdisc
            · rcases List.mem_cons.mp he2 with rfl | h2
              · exact absurd (Or.inr ⟨hsl1.symm, hsl2.symm⟩) hnc
              · exact Or.inl ⟨e2, h2, hsl1, hsl2⟩
            · right
              exact closeEdge_disconnect_persists hmono hsh.1.symm hsh.2.1.symm
                hsh.2.2.symm p d q hdisc
        have hcnt := closeEdge_count hb1 hdE hmv_e ho1
        obtain ⟨rw1, rh1, rsym, rconn, rcount⟩ :=
          ih (m.closeEdge (e.x1, e.y1) e.direction (e.x2, e.y2)) (removed + 1)
            h2w h2h hsymc hcI hesC hndT hcovC (by omega)
        refine ⟨rw1.trans hsh.1, rh1.trans hsh.2.1, rsym, rconn, ?_⟩
        rcases rcount with hl | hr
        · left
          omega
        · right
          rw [hsh.1, hsh.2.1] at hr
          exact hr

/-! ### C2: `ensureSinglePath` keeps connectivity and leaves a spanning
tree -/

/-- C2: on every fully connected wall-symmetric maze, `ensureSinglePath`
returns a maze that is still fully connected and whose number of open
interior edges is exactly `width*height - 1`: the single shuffled
close-and-test pass finds enough removable cycle edges (every edge left
open at the end is a bridge, so the open-edge graph is a spanning tree). -/
theorem ensureSinglePath_perfect {m m2 : Maze} {rs : Rng}
    (hsym : symWalls m) (hc : isConnected m = true)
    (hok : ensureSinglePath (some m) rs = .ok m2) :
    isConnected m2 = true ∧ countConnections m2 = m.width * m.height - 1 ∧
      m2.width = m.width ∧ m2.height = m.height := by
  rw [ensureSinglePath] at hok
  split at hok
  · exact absurd hok (by simp)
  · rename_i hval
    have hvalid : m.isValid = true := by
      cases hviv : m.isValid
      · exact absurd hviv hval
      · rfl
    simp only [Maze.isValid, Bool.and_eq_true, decide_eq_true_eq] at hvalid
    have hw : 2 ≤ m.width := hvalid.1.1.1.1
    have hh : 2 ≤ m.height := hvalid.1.1.1.2
    haveI : NeZero m.width := ⟨by omega⟩
    haveI : NeZero m.height := ⟨by omega⟩
    dsimp only at hok
    split at hok
    · rename_i hle
      injection hok with h1
      subst h1
      have hlow : m.width * m.height ≤ countConnections m + 1 := by
        have h2 : Fintype.card (Fin m.width × Fin m.height) = m.width * m.height := by
          rw [Fintype.card_prod, Fintype.card_fin, Fintype.card_fin]
        have h3 := countConnections_eq_edgeFinset_card hsym
        have h4 : (mazeGraph m.width m.height m.walls).edgeSet.ncard =
            (mazeGraph m.width m.height m.walls).edgeFinset.card := by
          rw [Set.ncard_eq_toFinset_card']
        have h5 := connected_card_le _ (mazeGraph m.width m.height m.walls) rfl
          (isConnected_connected hc)
        omega
      have hup : countConnections m ≤ m.width * m.height - 1 := by
        rw [← getAllEdges_length]
        exact hle
      exact ⟨hc, by omega, rfl, rfl⟩
    · rename_i hgt
      injection hok with h1
      subst h1
      have hperm := fisherYates_perm (getAllEdges m) rs
      obtain ⟨rw1, rh1, -, rconn, rcount⟩ := removeEdgesLoop_spec
        ((getAllEdges m).length - (m.width * m.height - 1))
        (fisherYates (getAllEdges m) rs).1 m 0 hw hh hsym hc
        (fun e he => getAllEdges_mem_spec (hperm.mem_iff.mp he))
        ((hperm.map (fun e => ((e.x1, e.y1), e.direction))).nodup_iff.mpr
          (getAllEdges_slot_nodup m))
        (fun p d q hb hd hmv hopen => by
          obtain ⟨e, he, hsl⟩ := getAllEdges_complete hb hd hmv hopen
          exact Or.inl ⟨e, hperm.mem_iff.mpr he, hsl⟩)
        (Nat.zero_le _)
      refine ⟨rconn, ?_, rw1, rh1⟩
      rcases rcount with hl | hr
      · have hlen := getAllEdges_length m
        have hgt2 : m.width * m.height - 1 < (getAllEdges m).length :=
          Nat.lt_of_not_le hgt
        omega
      · exact hr

/-- The concrete run of `ensureSinglePath` on the fully open `2 × 2` maze
(used by the C2 witness). -/
def espDemo : Maze :=
  (ensureSinglePath (some openMaze22) []).toOption.getD (fullyWalled 2 2)

/-- Witness for C2: the fully open `2 × 2` maze is wall-symmetric and
connected; `ensureSinglePath` succeeds on it and the result is connected
with exactly `2*2 - 1 = 3` open interior edges. -/
theorem ensureSinglePath_perfect_witness :
    symWalls openMaze22 ∧ isConnected openMaze22 = true ∧
    ensureSinglePath (some openMaze22) [] = .ok espDemo ∧
    (isConnected espDemo = true ∧
      countConnections espDemo = openMaze22.width * openMaze22.height - 1 ∧
      espDemo.width = openMaze22.width ∧ espDemo.height = openMaze22.height) :=
  ⟨fun _ _ _ _ _ => rfl, by decide, rfl,
    ensureSinglePath_perfect (fun _ _ _ _ _ => rfl) (by decide) rfl⟩

/-! ### Wall symmetry of the remaining generators

Every remaining algorithm mutates walls only through the paired carve
`cellA.removeWall(dir); cellB.removeWall(opposite[dir])` on `movePos`-valid
neighbour pairs, plus the shared boundary repair.  The carve preserves the
symmetry invariant with no in-bounds requirement at all: the two slots it
writes form exactly one constrained pair (written consistently), and a
slot whose cell lies outside the grid belongs to no constrained pair. -/

/-- The unique cell whose `d.opposite` move hits `p` is `q` (pure
coordinate reasoning, no bounds needed). -/
theorem movePos_rev {w h : Nat} {p q : Pos} {d : Dir}
    (hpq : movePos w h p d = some q) :
    ∀ {r : Pos}, movePos w h r d.opposite = some p → r = q := by
  intro r hr
  cases d
  case N =>
    have s1 := movePos_sig Dir.N hpq
    have s2 := movePos_sig Dir.S hr
    simp only [reduceCtorEq, false_and, false_or, or_false, true_and] at s1 s2
    obtain ⟨c1, c2⟩ := s1
    obtain ⟨c3, c4⟩ := s2
    exact Prod.ext (by omega) (by omega)
  case E =>
    have s1 := movePos_sig Dir.E hpq
    have s2 := movePos_sig Dir.W hr
    simp only [reduceCtorEq, false_and, false_or, or_false, true_and] at s1 s2
    obtain ⟨c1, c2⟩ := s1
    obtain ⟨c3, c4⟩ := s2
    exact Prod.ext (by omega) (by omega)
  case S =>
    have s1 := movePos_sig Dir.S hpq
    have s2 := movePos_sig Dir.N hr
    simp only [reduceCtorEq, false_and, false_or, or_false, true_and] at s1 s2
    obtain ⟨c1, c2⟩ := s1
    obtain ⟨c3, c4⟩ := s2
    exact Prod.ext (by omega) (by omega)
  case W =>
    have s1 := movePos_sig Dir.W hpq
    have s2 := movePos_sig Dir.E hr
    simp only [reduceCtorEq, false_and, false_or, or_false, true_and] at s1 s2
    obtain ⟨c1, c2⟩ := s1
    obtain ⟨c3, c4⟩ := s2
    exact Prod.ext (by omega) (by omega)

/-- Moving back from the target of a move can only return to the source. -/
theorem movePos_back_eq {w h : Nat} {p q s : Pos} {d : Dir}
    (hpq : movePos w h p d = some q)
    (hqs : movePos w h q d.opposite = some s) : s = p := by
  cases d
  case N =>
    have s1 := movePos_sig Dir.N hpq
    have s2 := movePos_sig Dir.S hqs
    simp only [reduceCtorEq, false_and, false_or, or_false, true_and] at s1 s2
    obtain ⟨c1, c2⟩ := s1
    obtain ⟨c3, c4⟩ := s2
    exact Prod.ext (by omega) (by omega)
  case E =>
    have s1 := movePos_sig Dir.E hpq
    have s2 := movePos_sig Dir.W hqs
    simp only [reduceCtorEq, false_and, false_or, or_false, true_and] at s1 s2
    obtain ⟨c1, c2⟩ := s1
    obtain ⟨c3, c4⟩ := s2
    exact Prod.ext (by omega) (by omega)
  case S =>
    have s1 := movePos_sig Dir.S hpq
    have s2 := movePos_sig Dir.N hqs
    simp only [reduceCtorEq, false_and, false_or, or_false, true_and] at s1 s2
    obtain ⟨c1, c2⟩ := s1
    obtain ⟨c3, c4⟩ := s2
    exact Prod.ext (by omega) (by omega)
  case W =>
    have s1 := movePos_sig Dir.W hpq
    have s2 := movePos_sig Dir.E hqs
    simp only [reduceCtorEq, false_and, false_or, or_false, true_and] at s1 s2
    obtain ⟨c1, c2⟩ := s1
    obtain ⟨c3, c4⟩ := s2
    exact Prod.ext (by omega) (by omega)

/-- The paired carve preserves wall symmetry whenever its two cells are
`movePos`-neighbours — even through out-of-grid cells, whose slots belong
to no constrained pair. -/
theorem carve_symWalls_total {m : Maze} {p q : Pos} {d : Dir}
    (hpq : movePos m.width m.height p d = some q) (hsym : symWalls m) :
    symWalls (m.carve p d q) := by
  intro r d' s hr hrs
  rw [(carve_shape m p d q).1, (carve_shape m p d q).2.1] at hr hrs
  rw [carve_walls, carve_walls]
  by_cases hc1 : (r = q ∧ d' = d.opposite) ∨ (r = p ∧ d' = d)
  · rw [if_pos hc1]
    have hc2 : (s = q ∧ d'.opposite = d.opposite) ∨ (s = p ∧ d'.opposite = d) := by
      rcases hc1 with ⟨e1, e2⟩ | ⟨e1, e2⟩
      · subst e1
        subst e2
        exact Or.inr ⟨movePos_back_eq hpq hrs, opposite_opposite d⟩
      · subst e1
        subst e2
        rw [hpq] at hrs
        injection hrs with e3
        exact Or.inl ⟨e3.symm, rfl⟩
    rw [if_pos hc2]
  · rw [if_neg hc1]
    have hc2 : ¬((s = q ∧ d'.opposite = d.opposite) ∨ (s = p ∧ d'.opposite = d)) := by
      rintro (⟨e1, e2⟩ | ⟨e1, e2⟩)
      · have ed : d' = d := by
          have h2 := congrArg Dir.opposite e2
          rwa [opposite_opposite, opposite_opposite] at h2
        subst ed
        subst e1
        exact hc1 (Or.inr ⟨movePos_inj hrs hpq, rfl⟩)
      · have ed : d' = d.opposite := by
          have h2 := congrArg Dir.opposite e2
          rwa [opposite_opposite] at h2
        subst ed
        subst e1
        exact hc1 (Or.inl ⟨movePos_rev hpq hrs, rfl⟩)
    rw [if_neg hc2]
    exact hsym r d' s hr hrs

/-- Bundled symmetry-plus-frame step for a carve. -/
theorem symFrame_carve {w h : Nat} {mm : Maze} {p q : Pos} {d : Dir}
    (hmv : movePos w h p d = some q)
    (hP : symWalls mm ∧ mm.width = w ∧ mm.height = h) :
    symWalls (mm.carve p d q) ∧ (mm.carve p d q).width = w ∧
      (mm.carve p d q).height = h :=
  ⟨carve_symWalls_total (by rw [hP.2.1, hP.2.2]; exact hmv) hP.1,
   (carve_shape mm p d q).1.trans hP.2.1, (carve_shape mm p d q).2.1.trans hP.2.2⟩

/-! ### Sidewinder (src/src/algorithms/sidewinder.js, working version) -/

/-- One cell of the Sidewinder row scan.  The state is the maze, the
current run of cell columns and the random stream; `shouldCloseOut =
atEasternBoundary || (!atNorthernBoundary && Math.random() < 0.5)` draws
from the stream only when neither boundary test short-circuits, and the
run member for the north carve is drawn only on a closing row cell. -/
def swCell (w h y x : Nat) (st : Maze × List Nat × Rng) : Maze × List Nat × Rng :=
  let m := st.1
  let run := st.2.1 ++ [x]
  let rs := st.2.2
  if x = w - 1 then
    if y = 0 then (m, [], rs)
    else
      let (k, rs2) := randNat rs run.length
      let member := run.getD k 0
      (m.carve (member, y) .N (member, y - 1), [], rs2)
  else if y = 0 then
    (m.carve (x, y) .E (x + 1, y), run, rs)
  else
    let (b, rs2) := randNat rs 2
    if b = 0 then
      let (k, rs3) := randNat rs2 run.length
      let member := run.getD k 0
      (m.carve (member, y) .N (member, y - 1), [], rs3)
    else (m.carve (x, y) .E (x + 1, y), run, rs2)

/-- One row of the Sidewinder scan (the run starts empty). -/
def swRow (w h : Nat) (st : Maze × Rng) (y : Nat) : Maze × Rng :=
  let res := (List.range w).foldl (fun st2 x => swCell w h y x st2) (st.1, [], st.2)
  (res.1, res.2.2)

/-- `generateSidewinder(width, height)` (working version): all walls up,
row-by-row runs carving east with random close-outs carving north, then
the entrance/exit openings `removeWall("W")` at `start` and
`removeWall("E")` at `finish`. -/
def generateSidewinder (w h : Nat) (rs : Rng) : Maze :=
  let res := (List.range h).foldl (swRow w h) (fullyWalled w h, rs)
  (res.1.removeWall (0, 0) .W).removeWall (w - 1, h - 1) .E

/-- A boundary `removeWall` at a `movePos`-less slot keeps symmetry and
the frame (unconditional form of `symFrame_removeWall_if`). -/
theorem symFrame_removeWall {w h : Nat} {mm : Maze} {p : Pos} {d : Dir}
    (hb : movePos w h p d = none)
    (hP : symWalls mm ∧ mm.width = w ∧ mm.height = h) :
    symWalls (mm.removeWall p d) ∧ (mm.removeWall p d).width = w ∧
      (mm.removeWall p d).height = h :=
  ⟨setWall_boundary_symWalls false (by rw [hP.2.1, hP.2.2]; exact hb) hP.1,
   hP.2.1, hP.2.2⟩

/-- Every Sidewinder maze is wall-symmetric: both carve families are
paired, and the entrance/exit writes sit on the W/E boundary. -/
theorem generateSidewinder_symWalls (w h : Nat) (rs : Rng) :
    symWalls (generateSidewinder w h rs) := by
  unfold generateSidewinder
  have hrows : ∀ (ys : List Nat) (st : Maze × Rng),
      symWalls st.1 ∧ st.1.width = w ∧ st.1.height = h →
      symWalls (ys.foldl (swRow w h) st).1 ∧
        (ys.foldl (swRow w h) st).1.width = w ∧
        (ys.foldl (swRow w h) st).1.height = h := by
    intro ys
    induction ys with
    | nil => intro st hP; exact hP
    | cons y ys ih =>
      intro st hP
      rw [List.foldl_cons]
      refine ih _ ?_
      show symWalls (swRow w h st y).1 ∧ _
      rw [swRow]
      dsimp only
      have hcells : ∀ (xs : List Nat), (∀ x ∈ xs, x < w) →
          ∀ (st2 : Maze × List Nat × Rng),
          symWalls st2.1 ∧ st2.1.width = w ∧ st2.1.height = h →
          symWalls (xs.foldl (fun st3 x => swCell w h y x st3) st2).1 ∧
            (xs.foldl (fun st3 x => swCell w h y x st3) st2).1.width = w ∧
            (xs.foldl (fun st3 x => swCell w h y x st3) st2).1.height = h := by
        intro xs
        induction xs with
        | nil => intro _ st2 hQ; exact hQ
        | cons x xs ih2 =>
          intro hxs st2 hQ
          rw [List.foldl_cons]
          refine ih2 (fun a ha => hxs a (List.mem_cons_of_mem x ha)) _ ?_
          have hx : x < w := hxs x (List.mem_cons_self x xs)
          show symWalls (swCell w h y x st2).1 ∧ _
          rw [swCell]
          dsimp only
          by_cases he : x = w - 1
          · rw [if_pos he]
            by_cases hn : y = 0
            · rw [if_pos hn]
              exact hQ
            · rw [if_neg hn]
              exact symFrame_carve (by simp only [movePos]; rw [if_neg hn]) hQ
          · rw [if_neg he]
            by_cases hn : y = 0
            · rw [if_pos hn]
              refine symFrame_carve ?_ hQ
              simp only [movePos]
              rw [if_pos (by omega)]
            · rw [if_neg hn]
              split
              · exact symFrame_carve (by simp only [movePos]; rw [if_neg hn]) hQ
              · refine symFrame_carve ?_ hQ
                simp only [movePos]
                rw [if_pos (by omega)]
      exact hcells (List.range w) (fun x hx => List.mem_range.mp hx)
        (st.1, [], st.2) hP
  have hres := hrows (List.range h) (fullyWalled w h, rs)
    ⟨fullyWalled_symWalls w h, rfl, rfl⟩
  refine (symFrame_removeWall (w := w) (h := h) ?_
    (symFrame_removeWall ?_ hres)).1
  · simp only [movePos]
    rw [if_neg (by omega)]
  · simp [movePos]

/-! ### Hunt-and-Kill (src/unnamed/part_003, working version) -/

/-- The in-bounds *visited* neighbours of `p` in the `N, E, S, W` order
(the JS bounds check `nx >= 0 && nx < width && ny >= 0 && ny < height`
plus `visited[ny][nx]`). -/
def getVisitedNeighborsB (w h : Nat) (visited : Pos → Bool) (p : Pos) :
    List (Dir × Pos) :=
  dirList.filterMap fun d =>
    match movePos w h p d with
    | some q => if inBounds w h q && visited q then some (d, q) else none
    | none => none

/-- Membership in the visited-neighbour list certifies a grid move. -/
theorem mem_getVisitedNeighborsB {w h : Nat} {vis : Pos → Bool} {p : Pos}
    {d : Dir} {q : Pos} (hmem : (d, q) ∈ getVisitedNeighborsB w h vis p) :
    movePos w h p d = some q := by
  rw [getVisitedNeighborsB, List.mem_filterMap] at hmem
  obtain ⟨a, _, ha⟩ := hmem
  split at ha
  · rename_i q' hq'
    split at ha
    · injection ha with h1
      injection h1 with h2 h3
      subst h2
      subst h3
      exact hq'
    · exact absurd ha (by simp)
  · exact absurd ha (by simp)

/-- The hunt scan: the first (row-major) unvisited cell that has at least
one visited neighbour, returned with its visited-neighbour list. -/
def huntScan (w h : Nat) (visited : Pos → Bool) :
    Option (Pos × List (Dir × Pos)) :=
  (List.range h).findSome? fun hy =>
    (List.range w).findSome? fun hx =>
      if visited (hx, hy) then none
      else
        match getVisitedNeighborsB w h visited (hx, hy) with
        | [] => none
        | n :: ns => some ((hx, hy), n :: ns)

/-- A successful hunt returns the visited-neighbour list of the returned
cell. -/
theorem huntScan_spec {w h : Nat} {vis : Pos → Bool} {p : Pos}
    {nbrs : List (Dir × Pos)} (hscan : huntScan w h vis = some (p, nbrs)) :
    nbrs = getVisitedNeighborsB w h vis p := by
  rw [huntScan] at hscan
  obtain ⟨hy, -, h1⟩ := List.exists_of_findSome?_eq_some hscan
  obtain ⟨hx, -, h2⟩ := List.exists_of_findSome?_eq_some h1
  split at h2
  · exact absurd h2 (by simp)
  · split at h2
    · exact absurd h2 (by simp)
    · rename_i n ns hns
      injection h2 with h3
      injection h3 with h4 h5
      subst h4
      rw [← h5, hns]

/-- The mutable state of the Hunt-and-Kill walk. -/
structure HKState where
  maze : Maze
  visited : Pos → Bool
  cur : Pos
  rng : Rng

/-- One iteration of the `while (true)` body: carve to a shuffled
unvisited neighbour (kill), else connect the first huntable cell to a
shuffled visited neighbour (hunt), else `none` for the `break`. -/
def hkStep (w h : Nat) (st : HKState) : Option HKState :=
  match getUnvisitedNeighbors w h st.visited st.cur with
  | n :: ns =>
    match fisherYates (n :: ns) st.rng with
    | ([], rs2) => some { st with rng := rs2 }
    | (chosen :: _, rs2) =>
      some { maze := st.maze.carve st.cur chosen.1 chosen.2,
             visited := fun r => r == chosen.2 || st.visited r,
             cur := chosen.2, rng := rs2 }
  | [] =>
    match huntScan w h st.visited with
    | some (p, nbrs) =>
      match fisherYates nbrs st.rng with
      | ([], rs2) => some { st with rng := rs2 }
      | (chosen :: _, rs2) =>
        some { maze := st.maze.carve p chosen.1 chosen.2,
               visited := fun r => r == p || st.visited r,
               cur := p, rng := rs2 }
    | none => none

/-- The Hunt-and-Kill driver loop as fuel recursion: every iteration
visits a new cell or `break`s, so `width*height + 1` iterations always
reach the `break`; the fuel is set generously to `2*width*height`. -/
def hkLoop (w h : Nat) : HKState → Nat → HKState
  | st, 0 => st
  | st, fuel + 1 =>
    match hkStep w h st with
    | some st2 => hkLoop w h st2 fuel
    | none => st

/-- `generateHuntAndKill(width, height)` (working version): all walls up,
alternating kill walks and hunt scans from `(0,0)`, then the entrance/exit
openings `removeWall("W")` at `start` and `removeWall("E")` at `finish`. -/
def generateHuntAndKill (w h : Nat) (rs : Rng) : Maze :=
  let st := hkLoop w h
    { maze := fullyWalled w h, visited := fun r => r == ((0 : Nat), (0 : Nat)),
      cur := (0, 0), rng := rs } (2 * (w * h))
  (st.maze.removeWall (0, 0) .W).removeWall (w - 1, h - 1) .E

/-- One Hunt-and-Kill step preserves symmetry and the frame. -/
theorem hkStep_symFrame {w h : Nat} {st st2 : HKState}
    (hP : symWalls st.maze ∧ st.maze.width = w ∧ st.maze.height = h)
    (hstep : hkStep w h st = some st2) :
    symWalls st2.maze ∧ st2.maze.width = w ∧ st2.maze.height = h := by
  unfold hkStep at hstep
  split at hstep
  · rename_i n ns hnbrs
    split at hstep
    · injection hstep with h1
      subst h1
      exact hP
    · rename_i chosen rest rs2 hfy
      have hmem : chosen ∈ getUnvisitedNeighbors w h st.visited st.cur := by
        have h1 : chosen ∈ (fisherYates (n :: ns) st.rng).1 := by
          rw [hfy]
          exact List.mem_cons_self chosen rest
        have h2 := (fisherYates_perm (n :: ns) st.rng).mem_iff.mp h1
        rw [← hnbrs] at h2
        exact h2
      have hmv : movePos w h st.cur chosen.1 = some chosen.2 :=
        mem_getUnvisitedNeighbors
          (by rw [← Prod.mk.eta (p := chosen)] at hmem; exact hmem)
      injection hstep with h1
      subst h1
      exact symFrame_carve hmv hP
  · split at hstep
    · rename_i p nbrs hscan
      split at hstep
      · injection hstep with h1
        subst h1
        exact hP
      · rename_i chosen rest rs2 hfy
        have hmem : chosen ∈ getVisitedNeighborsB w h st.visited p := by
          have h1 : chosen ∈ (fisherYates nbrs st.rng).1 := by
            rw [hfy]
            exact List.mem_cons_self chosen rest
          have h2 := (fisherYates_perm nbrs st.rng).mem_iff.mp h1
          rw [huntScan_spec hscan] at h2
          exact h2
        have hmv : movePos w h p chosen.1 = some chosen.2 :=
          mem_getVisitedNeighborsB
            (by rw [← Prod.mk.eta (p := chosen)] at hmem; exact hmem)
        injection hstep with h1
        subst h1
        exact symFrame_carve hmv hP
    · exact absurd hstep (by simp)

/-- Every Hunt-and-Kill maze is wall-symmetric. -/
theorem generateHuntAndKill_symWalls (w h : Nat) (rs : Rng) :
    symWalls (generateHuntAndKill w h rs) := by
  unfold generateHuntAndKill
  have hloop : ∀ (fuel : Nat) (st : HKState),
      symWalls st.maze ∧ st.maze.width = w ∧ st.maze.height = h →
      symWalls (hkLoop w h st fuel).maze ∧
        (hkLoop w h st fuel).maze.width = w ∧
        (hkLoop w h st fuel).maze.height = h := by
    intro fuel
    induction fuel with
    | zero => intro st hP; exact hP
    | succ fuel ih =>
      intro st hP
      rw [hkLoop]
      cases hstep : hkStep w h st with
      | some st2 =>
        dsimp only
        exact ih st2 (hkStep_symFrame hP hstep)
      | none =>
        dsimp only
        exact hP
  have hres := hloop (2 * (w * h))
    { maze := fullyWalled w h, visited := fun r => r == ((0 : Nat), (0 : Nat)),
      cur := (0, 0), rng := rs }
    ⟨fullyWalled_symWalls w h, rfl, rfl⟩
  refine (symFrame_removeWall (w := w) (h := h) ?_
    (symFrame_removeWall ?_ hres)).1
  · simp only [movePos]
    rw [if_neg (by omega)]
  · simp [movePos]

/-! ### Aldous-Broder (src/unnamed/part_006, FIXED version) -/

/-- `abValidDirections(x, y)`: all in-bounds neighbours in the
`N, E, S, W` order (the `getCell` null check is the bounds test). -/
def abValidDirections (w h : Nat) (p : Pos) : List (Dir × Pos) :=
  dirList.filterMap fun d =>
    match movePos w h p d with
    | some q => if inBounds w h q then some (d, q) else none
    | none => none

/-- Membership in the valid-direction list certifies a grid move. -/
theorem mem_abValidDirections {w h : Nat} {p : Pos} {d : Dir} {q : Pos}
    (hmem : (d, q) ∈ abValidDirections w h p) :
    movePos w h p d = some q := by
  rw [abValidDirections, List.mem_filterMap] at hmem
  obtain ⟨a, -, ha⟩ := hmem
  split at ha
  · rename_i q' hq'
    split at ha
    · injection ha with h1
      injection h1 with h2 h3
      subst h2
      subst h3
      exact hq'
    · exact absurd ha (by simp)
  · exact absurd ha (by simp)

/-- The mutable state of the Aldous-Broder random walk. -/
structure ABState where
  maze : Maze
  visited : Pos → Bool
  totalVisited : Nat
  walkSteps : Nat
  cur : Pos
  rng : Rng

/-- The `while (totalVisited < totalCells && walkSteps < maxWalkSteps)`
walk: pick a random valid direction, carve only when the neighbour is
unvisited, move there either way; an empty move list throws. -/
def abLoop (w h totalCells maxSteps : Nat) : ABState → Nat → Except String ABState
  | st, 0 => .ok st
  | st, fuel + 1 =>
    if st.totalVisited < totalCells && st.walkSteps < maxSteps then
      match abValidDirections w h st.cur with
      | [] => .error "Aldous-Broder: No valid moves"
      | mv :: mvs =>
        let (k, rs2) := randNat st.rng (mv :: mvs).length
        let chosen := (mv :: mvs).getD k mv
        if st.visited chosen.2 then
          abLoop w h totalCells maxSteps
            { st with walkSteps := st.walkSteps + 1, cur := chosen.2, rng := rs2 } fuel
        else
          abLoop w h totalCells maxSteps
            { maze := st.maze.carve st.cur chosen.1 chosen.2,
              visited := fun r => r == chosen.2 || st.visited r,
              totalVisited := st.totalVisited + 1,
              walkSteps := st.walkSteps + 1,
              cur := chosen.2, rng := rs2 } fuel
    else .ok st

/-- `generateAldousBroder(width, height)` (FIXED version): dimension
validation, all walls up, random start cell, the random walk capped at
`totalCells^2` steps, the two safety throws, boundary repair and the
final `isValid()` check. -/
def generateAldousBroder (w h : Nat) (rs : Rng) : Except String Maze :=
  if w < 2 ∨ h < 2 then
    .error "Width and height must be at least 2"
  else if 200 < w ∨ 200 < h then
    .error "Aldous-Broder algorithm: dimensions too large (max 200x200)"
  else
    let (sx, rs1) := randNat rs w
    let (sy, rs2) := randNat rs1 h
    let totalCells := w * h
    let maxSteps := totalCells * totalCells
    match abLoop w h totalCells maxSteps
      { maze := fullyWalled w h, visited := fun r => r == (sx, sy),
        totalVisited := 1, walkSteps := 0, cur := (sx, sy), rng := rs2 }
      (maxSteps + 1) with
    | .error e => .error e
    | .ok st =>
      if maxSteps ≤ st.walkSteps then
        .error "Aldous-Broder: Walk exceeded maximum steps, possible infinite loop"
      else if st.totalVisited < totalCells then
        .error "Aldous-Broder: Only visited some cells"
      else
        let m1 := ensureBoundaryWallsW st.maze
        if m1.isValid = false then
          .error "Aldous-Broder: Generated maze is invalid"
        else .ok m1

/-- The Aldous-Broder walk preserves symmetry and the frame. -/
theorem abLoop_symFrame {w h totalCells maxSteps : Nat} :
    ∀ (fuel : Nat) (st st2 : ABState),
      symWalls st.maze ∧ st.maze.width = w ∧ st.maze.height = h →
      abLoop w h totalCells maxSteps st fuel = .ok st2 →
      symWalls st2.maze ∧ st2.maze.width = w ∧ st2.maze.height = h := by
  intro fuel
  induction fuel with
  | zero =>
    intro st st2 hP hok
    rw [abLoop] at hok
    injection hok with h1
    subst h1
    exact hP
  | succ fuel ih =>
    intro st st2 hP hok
    rw [abLoop] at hok
    split at hok
    · split at hok
      · exact absurd hok (by simp)
      · rename_i mv mvs hmvs
        dsimp only at hok
        split at hok
        · refine ih _ _ ?_ hok
          exact hP
        · refine ih _ _ ?_ hok
          have hmem : ((mv :: mvs).getD ((randNat st.rng (mv :: mvs).length).1) mv) ∈
              (mv :: mvs) :=
            getD_mem_of_lt _ _ _ (Nat.mod_lt _ (by simp))
          have hmem2 : ((mv :: mvs).getD ((randNat st.rng (mv :: mvs).length).1) mv) ∈
              abValidDirections w h st.cur := by
            rw [hmvs]
            exact hmem
          have hmv2 : movePos w h st.cur
              ((mv :: mvs).getD ((randNat st.rng (mv :: mvs).length).1) mv).1 =
              some ((mv :: mvs).getD ((randNat st.rng (mv :: mvs).length).1) mv).2 :=
            mem_abValidDirections (by
              rw [← Prod.mk.eta
                (p := (mv :: mvs).getD ((randNat st.rng (mv :: mvs).length).1) mv)] at hmem2
              exact hmem2)
          exact symFrame_carve hmv2 hP
    · injection hok with h1
      subst h1
      exact hP

/-- Every maze returned by the fixed Aldous-Broder is wall-symmetric. -/
theorem generateAldousBroder_symWalls {w h : Nat} {rs : Rng} {m : Maze}
    (hok : generateAldousBroder w h rs = .ok m) : symWalls m := by
  rw [generateAldousBroder] at hok
  split at hok
  · exact absurd hok (by simp)
  · split at hok
    · exact absurd hok (by simp)
    · dsimp only at hok
      split at hok
      · exact absurd hok (by simp)
      · rename_i st hst
        split at hok
        · exact absurd hok (by simp)
        · split at hok
          · exact absurd hok (by simp)
          · split at hok
            · exact absurd hok (by simp)
            · injection hok with h1
              subst h1
              refine ensureBoundaryWallsW_symWalls ?_
              exact (abLoop_symFrame (w := w) (h := h) _ _ _
                ⟨fullyWalled_symWalls w h, rfl, rfl⟩ hst).1

/-! ### Prim's (src/unnamed/part_009, working version) -/

/-- `addFrontier(x, y)`: push every in-bounds unvisited neighbour of `p`
that is not already in the frontier (in the `N, E, S, W` order). -/
def primAddFrontier (w h : Nat) (visited : Pos → Bool) (frontier : List Pos)
    (p : Pos) : List Pos :=
  dirList.foldl (fun fr d =>
    match movePos w h p d with
    | some q =>
      if inBounds w h q && !visited q && !(fr.any (fun f => f == q)) then
        fr ++ [q]
      else fr
    | none => fr) frontier

/-- The mutable state of the Prim's frontier growth. -/
structure PrimState where
  maze : Maze
  visited : Pos → Bool
  frontier : List Pos
  rng : Rng

/-- One iteration of the `while (frontier.length > 0)` body: splice a
random frontier cell, connect it to a random visited neighbour (when one
exists), mark it visited, extend the frontier. -/
def primStep (w h : Nat) (st : PrimState) : PrimState :=
  let (idx, rs2) := randNat st.rng st.frontier.length
  let p := st.frontier.getD idx (0, 0)
  let frontier2 := st.frontier.eraseIdx idx
  let nbrs := getVisitedNeighborsB w h st.visited p
  let carved : Maze × Rng :=
    match nbrs with
    | [] => (st.maze, rs2)
    | n :: ns =>
      let (k, rs3) := randNat rs2 (n :: ns).length
      let chosen := (n :: ns).getD k n
      (st.maze.carve p chosen.1 chosen.2, rs3)
  let visited2 : Pos → Bool := fun r => r == p || st.visited r
  { maze := carved.1, visited := visited2,
    frontier := primAddFrontier w h visited2 frontier2 p, rng := carved.2 }

/-- The Prim's driver loop: each iteration removes one frontier cell and
every cell enters the frontier at most once, so `width*height` iterations
reach the empty frontier. -/
def primLoop (w h : Nat) : PrimState → Nat → PrimState
  | st, 0 => st
  | st, fuel + 1 =>
    if st.frontier.isEmpty then st
    else primLoop w h (primStep w h st) fuel

/-- `generatePrims(width, height)` (working version): all walls up, grow
from `start = (0,0)` by splicing random frontier cells, then the
entrance/exit openings `removeWall("W")` at `start` and `removeWall("E")`
at `finish`. -/
def generatePrims (w h : Nat) (rs : Rng) : Maze :=
  let visited0 : Pos → Bool := fun r => r == ((0 : Nat), (0 : Nat))
  let st := primLoop w h
    { maze := fullyWalled w h, visited := visited0,
      frontier := primAddFrontier w h visited0 [] (0, 0), rng := rs } (w * h)
  (st.maze.removeWall (0, 0) .W).removeWall (w - 1, h - 1) .E

/-- One Prim's step preserves symmetry and the frame. -/
theorem primStep_symFrame {w h : Nat} {st : PrimState}
    (hP : symWalls st.maze ∧ st.maze.width = w ∧ st.maze.height = h) :
    symWalls (primStep w h st).maze ∧ (primStep w h st).maze.width = w ∧
      (primStep w h st).maze.height = h := by
  rw [primStep]
  dsimp only
  split
  · exact hP
  · rename_i n ns hns
    refine symFrame_carve ?_ hP
    have hmem : ((n :: ns).getD
        ((randNat (randNat st.rng st.frontier.length).2 (n :: ns).length).1) n) ∈
        (n :: ns) :=
      getD_mem_of_lt _ _ _ (Nat.mod_lt _ (by simp))
    have hmem2 : ((n :: ns).getD
        ((randNat (randNat st.rng st.frontier.length).2 (n :: ns).length).1) n) ∈
        getVisitedNeighborsB w h st.visited
          (st.frontier.getD (randNat st.rng st.frontier.length).1 (0, 0)) := by
      rw [hns]
      exact hmem
    rw [← Prod.mk.eta (p := (n :: ns).getD
      ((randNat (randNat st.rng st.frontier.length).2 (n :: ns).length).1) n)] at hmem2
    exact mem_getVisitedNeighborsB hmem2

/-- Every Prim's maze is wall-symmetric. -/
theorem generatePrims_symWalls (w h : Nat) (rs : Rng) :
    symWalls (generatePrims w h rs) := by
  unfold generatePrims
  have hloop : ∀ (fuel : Nat) (st : PrimState),
      symWalls st.maze ∧ st.maze.width = w ∧ st.maze.height = h →
      symWalls (primLoop w h st fuel).maze ∧
        (primLoop w h st fuel).maze.width = w ∧
        (primLoop w h st fuel).maze.height = h := by
    intro fuel
    induction fuel with
    | zero => intro st hP; exact hP
    | succ fuel ih =>
      intro st hP
      rw [primLoop]
      split
      · exact hP
      · exact ih _ (primStep_symFrame hP)
  have hres := hloop (w * h)
    { maze := fullyWalled w h, visited := fun r => r == ((0 : Nat), (0 : Nat)),
      frontier := primAddFrontier w h (fun r => r == ((0 : Nat), (0 : Nat))) [] (0, 0),
      rng := rs }
    ⟨fullyWalled_symWalls w h, rfl, rfl⟩
  refine (symFrame_removeWall (w := w) (h := h) ?_
    (symFrame_removeWall ?_ hres)).1
  · simp only [movePos]
    rw [if_neg (by omega)]
  · simp [movePos]

/-! ### Eller's (src/src/algorithms/ellers.js, FIXED version) -/

/-- Set assignment for a fresh row: every cell whose set id is `0`
receives the next fresh id (`if (currentRowSets[x] === 0)
currentRowSets[x] = nextSetId++`). -/
def ellerAssign : List Nat → Nat → List Nat × Nat
  | [], n => ([], n)
  | s :: ss, n =>
    if s = 0 then
      ((n :: (ellerAssign ss (n + 1)).1), (ellerAssign ss (n + 1)).2)
    else
      ((s :: (ellerAssign ss n).1), (ellerAssign ss n).2)

/-- One cell of the east-carving pass: draw the merge coin (always
consumed), and when the two sets differ and the coin (or the last row)
says merge, carve the shared E/W wall and merge the sets. -/
def ellerEastStep (w h row : Nat) (st : Maze × List Nat × Rng) (x : Nat) :
    Maze × List Nat × Rng :=
  let m := st.1
  let sets := st.2.1
  let rs := st.2.2
  let (b, rs2) := randNat rs 2
  if sets.getD x 0 ≠ sets.getD (x + 1) 0 ∧ (b = 0 ∨ row = h - 1) then
    (m.carve (x, row) .E (x + 1, row),
     sets.map (fun s => if s = sets.getD (x + 1) 0 then sets.getD x 0 else s),
     rs2)
  else (m, sets, rs2)

/-- One cell of the random vertical pass: flip a coin and carve the shared
S/N wall, recording the cell's set id. -/
def ellerVertStep (w h row : Nat) (sets : List Nat)
    (st : Maze × List Nat × Rng) (x : Nat) : Maze × List Nat × Rng :=
  let m := st.1
  let conn := st.2.1
  let rs := st.2.2
  let (b, rs2) := randNat rs 2
  if b = 0 then
    (m.carve (x, row) .S (x, row + 1), conn ++ [sets.getD x 0], rs2)
  else (m, conn, rs2)

/-- `getCellsInSet(rowSets, setId)`: the columns holding the given id. -/
def cellsInSet (sets : List Nat) (id : Nat) : List Nat :=
  (List.range sets.length).filter (fun i => sets.getD i 0 = id)

/-- First-occurrence deduplication (`[...new Set(currentRowSets)]`
preserves JS `Set` insertion order). -/
def firstDedupGo : List Nat → List Nat → List Nat
  | [], _ => []
  | x :: xs, seen =>
    if seen.contains x then firstDedupGo xs seen
    else x :: firstDedupGo xs (x :: seen)

def firstDedup (l : List Nat) : List Nat := firstDedupGo l []

/-- One set of the forced vertical pass: sets without a random vertical
connection get one at a random member column. -/
def ellerForcedStep (w h row : Nat) (sets conn : List Nat) (st : Maze × Rng)
    (sid : Nat) : Maze × Rng :=
  if conn.contains sid then st
  else
    let cells := cellsInSet sets sid
    if cells.isEmpty then st
    else
      let (k, rs2) := randNat st.2 cells.length
      let xi := cells.getD k 0
      (st.1.carve (xi, row) .S (xi, row + 1), rs2)

/-- Sets inherited by the next row: a cell keeps its set exactly when its
south wall was carved, otherwise `0` (to be refreshed). -/
def ellerNextSets (m : Maze) (row w : Nat) (sets : List Nat) : List Nat :=
  (List.range w).map fun x =>
    if m.walls (x, row) .S = false then sets.getD x 0 else 0

/-- One row of Eller's algorithm: assign fresh sets, east pass, and —
except on the last row, which stops after its east pass — the two
vertical passes followed by the next-row set inheritance. -/
def ellerRow (w h : Nat) (st : Maze × List Nat × Nat × Rng) (row : Nat) :
    Maze × List Nat × Nat × Rng :=
  let m := st.1
  let (sets1, nid2) := ellerAssign st.2.1 st.2.2.1
  let east := (List.range (w - 1)).foldl (ellerEastStep w h row) (m, sets1, st.2.2.2)
  if row = h - 1 then (east.1, east.2.1, nid2, east.2.2)
  else
    let vert := (List.range w).foldl (ellerVertStep w h row east.2.1)
      (east.1, [], east.2.2)
    let forced := (firstDedup east.2.1).foldl
      (ellerForcedStep w h row east.2.1 vert.2.1) (vert.1, vert.2.2)
    (forced.1, ellerNextSets forced.1 row w east.2.1, nid2, forced.2)

/-- `generateEller(width, height)` (FIXED version): dimension validation,
all walls up, the row-by-row set algorithm, boundary repair and the final
`isValid()` check. -/
def generateEller (w h : Nat) (rs : Rng) : Except String Maze :=
  if w < 2 ∨ h < 2 then
    .error "Width and height must be at least 2"
  else if 1000 < w then
    .error "Width too large (max 1000) - algorithm may be slow"
  else if 500 < h then
    .error "Height too large (max 500)"
  else
    let res := (List.range h).foldl (ellerRow w h)
      (fullyWalled w h, List.replicate w 0, 1, rs)
    let m1 := ensureBoundaryWallsW res.1
    if m1.isValid = false then .error "Generated maze is invalid"
    else .ok m1

/-- One Eller row preserves symmetry and the frame. -/
theorem ellerRow_symFrame {w h row : Nat} (hrow : row < h)
    {st : Maze × List Nat × Nat × Rng}
    (hP : symWalls st.1 ∧ st.1.width = w ∧ st.1.height = h) :
    symWalls (ellerRow w h st row).1 ∧ (ellerRow w h st row).1.width = w ∧
      (ellerRow w h st row).1.height = h := by
  rw [ellerRow]
  dsimp only
  have heast : ∀ (xs : List Nat), (∀ x ∈ xs, x < w - 1) →
      ∀ (st2 : Maze × List Nat × Rng),
      symWalls st2.1 ∧ st2.1.width = w ∧ st2.1.height = h →
      symWalls (xs.foldl (ellerEastStep w h row) st2).1 ∧
        (xs.foldl (ellerEastStep w h row) st2).1.width = w ∧
        (xs.foldl (ellerEastStep w h row) st2).1.height = h := by
    intro xs
    induction xs with
    | nil => intro _ st2 hQ; exact hQ
    | cons x xs ih =>
      intro hxs st2 hQ
      rw [List.foldl_cons]
      refine ih (fun a ha => hxs a (List.mem_cons_of_mem x ha)) _ ?_
      have hx : x < w - 1 := hxs x (List.mem_cons_self x xs)
      show symWalls (ellerEastStep w h row st2 x).1 ∧ _
      rw [ellerEastStep]
      dsimp only
      split
      · refine symFrame_carve ?_ hQ
        simp only [movePos]
        rw [if_pos (by omega)]
      · exact hQ
  by_cases hlast : row = h - 1
  · rw [if_pos hlast]
    exact heast (List.range (w - 1)) (fun x hx => List.mem_range.mp hx) _ hP
  · rw [if_neg hlast]
    have hrow2 : row + 1 < h := by omega
    have hvert : ∀ (xs : List Nat) (st2 : Maze × List Nat × Rng),
        symWalls st2.1 ∧ st2.1.width = w ∧ st2.1.height = h →
        ∀ (sets : List Nat),
        symWalls (xs.foldl (ellerVertStep w h row sets) st2).1 ∧
          (xs.foldl (ellerVertStep w h row sets) st2).1.width = w ∧
          (xs.foldl (ellerVertStep w h row sets) st2).1.height = h := by
      intro xs
      induction xs with
      | nil => intro st2 hQ _; exact hQ
      | cons x xs ih =>
        intro st2 hQ sets
        rw [List.foldl_cons]
        refine ih _ ?_ sets
        show symWalls (ellerVertStep w h row sets st2 x).1 ∧ _
        rw [ellerVertStep]
        dsimp only
        split
        · refine symFrame_carve ?_ hQ
          simp only [movePos]
          rw [if_pos hrow2]
        · exact hQ
    have hforced : ∀ (ids : List Nat) (st2 : Maze × Rng),
        symWalls st2.1 ∧ st2.1.width = w ∧ st2.1.height = h →
        ∀ (sets conn : List Nat),
        symWalls (ids.foldl (ellerForcedStep w h row sets conn) st2).1 ∧
          (ids.foldl (ellerForcedStep w h row sets conn) st2).1.width = w ∧
          (ids.foldl (ellerForcedStep w h row sets conn) st2).1.height = h := by
      intro ids
      induction ids with
      | nil => intro st2 hQ _ _; exact hQ
      | cons sid ids ih =>
        intro st2 hQ sets conn
        rw [List.foldl_cons]
        refine ih _ ?_ sets conn
        show symWalls (ellerForcedStep w h row sets conn st2 sid).1 ∧ _
        rw [ellerForcedStep]
        split
        · exact hQ
        · dsimp only
          split
          · exact hQ
          · refine symFrame_carve ?_ hQ
            simp only [movePos]
            rw [if_pos hrow2]
    refine hforced _ _ ?_ _ _
    refine hvert _ _ ?_ _
    exact heast _ (fun x hx => List.mem_range.mp hx) _ hP

/-- Every maze returned by Eller's algorithm is wall-symmetric. -/
theorem generateEller_symWalls {w h : Nat} {rs : Rng} {m : Maze}
    (hok : generateEller w h rs = .ok m) : symWalls m := by
  rw [generateEller] at hok
  split at hok
  · exact absurd hok (by simp)
  · split at hok
    · exact absurd hok (by simp)
    · split at hok
      · exact absurd hok (by simp)
      · dsimp only at hok
        split at hok
        · exact absurd hok (by simp)
        · injection hok with h1
          subst h1
          refine ensureBoundaryWallsW_symWalls ?_
          refine (foldl_invariant
            (fun st : Maze × List Nat × Nat × Rng =>
              symWalls st.1 ∧ st.1.width = w ∧ st.1.height = h)
            (ellerRow w h) (List.range h) _
            ⟨fullyWalled_symWalls w h, rfl, rfl⟩ ?_).1
          intro row hr st hP
          exact ellerRow_symFrame (List.mem_range.mp hr) hP

/-! ### Kruskal's (src/src/algorithms/kruskals.js, FIXED version) -/

/-- The union-find state: parent pointers, ranks and the component
count. -/
structure UF where
  parent : List Nat
  rank : List Nat
  components : Nat

/-- `find(x)` with path compression, fuel-bounded by the array size (the
parent chain of a well-formed forest is shorter). -/
def ufFindGo : Nat → List Nat → Nat → Nat × List Nat
  | 0, par, x => (x, par)
  | fuel + 1, par, x =>
    let px := par.getD x x
    if px = x then (x, par)
    else
      let res := ufFindGo fuel par px
      (res.1, res.2.set x res.1)

def ufFind (uf : UF) (x : Nat) : Nat × UF :=
  let res := ufFindGo uf.parent.length uf.parent x
  (res.1, { uf with parent := res.2 })

/-- `union(x, y)` by rank; returns whether a merge happened. -/
def ufUnion (uf : UF) (x y : Nat) : Bool × UF :=
  let f1 := ufFind uf x
  let f2 := ufFind f1.2 y
  if f1.1 = f2.1 then (false, f2.2)
  else
    let uf2 := f2.2
    let rkx := uf2.rank.getD f1.1 0
    let rky := uf2.rank.getD f2.1 0
    if rkx < rky then
      (true, { parent := uf2.parent.set f1.1 f2.1, rank := uf2.rank,
               components := uf2.components - 1 })
    else if rky < rkx then
      (true, { parent := uf2.parent.set f2.1 f1.1, rank := uf2.rank,
               components := uf2.components - 1 })
    else
      (true, { parent := uf2.parent.set f2.1 f1.1,
               rank := uf2.rank.set f1.1 (rkx + 1),
               components := uf2.components - 1 })

/-- The edge list of Kruskal's: all horizontal (east) edges row by row,
then all vertical (south) edges. -/
def kruskalEdges (w h : Nat) : List EdgeRec :=
  ((List.range h).flatMap fun y =>
    (List.range (w - 1)).map fun x =>
      { x1 := x, y1 := y, x2 := x + 1, y2 := y, direction := Dir.E }) ++
  ((List.range (h - 1)).flatMap fun y =>
    (List.range w).map fun x =>
      { x1 := x, y1 := y, x2 := x, y2 := y + 1, direction := Dir.S })

/-- Every Kruskal edge is a grid move. -/
theorem mem_kruskalEdges {w h : Nat} {e : EdgeRec} (he : e ∈ kruskalEdges w h) :
    movePos w h (e.x1, e.y1) e.direction = some (e.x2, e.y2) := by
  rw [kruskalEdges, List.mem_append] at he
  rcases he with he | he <;> rw [List.mem_flatMap] at he <;>
    obtain ⟨y, hy, he2⟩ := he <;> rw [List.mem_map] at he2 <;>
    obtain ⟨x, hx, he3⟩ := he2 <;> rw [List.mem_range] at hx <;> subst he3
  · simp only [movePos]
    rw [if_pos (by omega)]
  · rw [List.mem_range] at hy
    simp only [movePos]
    rw [if_pos (by omega)]

/-- The main edge loop: for each shuffled edge whose endpoints lie in
different components, carve the shared wall, union the components, and
break once the spanning-tree edge count is reached. -/
def kruskalLoop (w target : Nat) : Maze → UF → Nat → List EdgeRec → Maze × UF × Nat
  | m, uf, added, [] => (m, uf, added)
  | m, uf, added, e :: es =>
    let i1 := e.y1 * w + e.x1
    let i2 := e.y2 * w + e.x2
    let f1 := ufFind uf i1
    let f2 := ufFind f1.2 i2
    if f1.1 = f2.1 then kruskalLoop w target m f2.2 added es
    else
      let m2 := m.carve (e.x1, e.y1) e.direction (e.x2, e.y2)
      let u := ufUnion f2.2 i1 i2
      let added2 := if u.1 then added + 1 else added
      if target ≤ added2 then (m2, u.2, added2)
      else kruskalLoop w target m2 u.2 added2 es

/-- `generateKruskals(width, height)` (FIXED version): dimension
validation, all walls up, shuffled edges through the union-find, boundary
repair and the final `isValid()` check. -/
def generateKruskals (w h : Nat) (rs : Rng) : Except String Maze :=
  if w < 2 ∨ h < 2 then
    .error "Width and height must be at least 2"
  else if 200 < w ∨ 200 < h then
    .error "Dimensions too large (max 200x200) - too many edges to process efficiently"
  else
    let (shuffled, _) := fisherYates (kruskalEdges w h) rs
    let res := kruskalLoop w (w * h - 1) (fullyWalled w h)
      { parent := List.range (w * h), rank := List.replicate (w * h) 0,
        components := w * h } 0 shuffled
    let m1 := ensureBoundaryWallsW res.1
    if m1.isValid = false then .error "Generated maze is invalid"
    else .ok m1

/-- The Kruskal edge loop preserves symmetry and the frame. -/
theorem kruskalLoop_symFrame {w h target : Nat} :
    ∀ (es : List EdgeRec) (m : Maze) (uf : UF) (added : Nat),
      (∀ e ∈ es, movePos w h (e.x1, e.y1) e.direction = some (e.x2, e.y2)) →
      symWalls m ∧ m.width = w ∧ m.height = h →
      symWalls (kruskalLoop w target m uf added es).1 ∧
        (kruskalLoop w target m uf added es).1.width = w ∧
        (kruskalLoop w target m uf added es).1.height = h := by
  intro es
  induction es with
  | nil => intro m uf added _ hP; exact hP
  | cons e es ih =>
    intro m uf added hes hP
    have hmv := hes e (List.mem_cons_self e es)
    have hesT := fun e2 h2 => hes e2 (List.mem_cons_of_mem e h2)
    rw [kruskalLoop]
    dsimp only
    split
    · exact ih _ _ _ hesT hP
    · split
      · split
        · exact symFrame_carve hmv hP
        · exact ih _ _ _ hesT (symFrame_carve hmv hP)
      · split
        · exact symFrame_carve hmv hP
        · exact ih _ _ _ hesT (symFrame_carve hmv hP)

/-- Every maze returned by Kruskal's is wall-symmetric. -/
theorem generateKruskals_symWalls {w h : Nat} {rs : Rng} {m : Maze}
    (hok : generateKruskals w h rs = .ok m) : symWalls m := by
  rw [generateKruskals] at hok
  split at hok
  · exact absurd hok (by simp)
  · split at hok
    · exact absurd hok (by simp)
    · dsimp only at hok
      split at hok
      · exact absurd hok (by simp)
      · injection hok with h1
        subst h1
        refine ensureBoundaryWallsW_symWalls ?_
        refine (kruskalLoop_symFrame _ _ _ _ ?_
          ⟨fullyWalled_symWalls w h, rfl, rfl⟩).1
        intro e2 h2
        exact mem_kruskalEdges
          ((fisherYates_perm (kruskalEdges w h) rs).mem_iff.mp h2)

/-! ### Braided (src/src/algorithms/braided.js, second version, default
options `braidness = 0.5`, `baseAlgorithm = generateRecursiveBacktracker`) -/

/-- Candidate walls of a dead end: directions whose wall is up on both
sides and whose neighbour is in the grid
(`cell.hasWall(dir) && nx >= 0 && nx < width && ny >= 0 && ny < height`
with `neighbor.hasWall(opposite[dir])`). -/
def braidCandidates (m : Maze) (w h : Nat) (p : Pos) : List (Dir × Pos) :=
  dirList.filterMap fun d =>
    match movePos w h p d with
    | some q => if m.walls p d && m.walls q d.opposite then some (d, q) else none
    | none => none

theorem mem_braidCandidates {m : Maze} {w h : Nat} {p : Pos} {c : Dir × Pos}
    (hc : c ∈ braidCandidates m w h p) : movePos w h p c.1 = some c.2 := by
  unfold braidCandidates at hc
  obtain ⟨d, _, heq⟩ := List.mem_filterMap.mp hc
  revert heq
  split
  · rename_i q hq
    split
    · intro heq
      injection heq with heq
      subst heq
      exact hq
    · intro heq; exact absurd heq (by simp)
  · intro heq; exact absurd heq (by simp)

/-- One dead end of the braiding pass: skip once `removed >=
targetRemovals` (the loop `break`) or when the cell is no longer a dead
end; otherwise sort the candidates by descending neighbour openings
(`b - a` comparator on `countOpenings`) and carve the first. -/
def braidStep (w h target : Nat) (st : Maze × Nat) (p : Pos) : Maze × Nat :=
  if target ≤ st.2 then st
  else if st.1.openCount p ≠ 1 then st
  else
    match (braidCandidates st.1 w h p).mergeSort
        (fun a b => decide (st.1.openCount b.2 ≤ st.1.openCount a.2)) with
    | [] => st
    | c :: _ => (st.1.carve p c.1 c.2, st.2 + 1)

/-- `generateBraided(width, height)` (second version, default options):
a Recursive-Backtracker base maze, the dead-end list (`countOpenings ===
1`), a Fisher–Yates shuffle, `targetRemovals = Math.floor(totalDeadEnds
* 0.5)` removals by paired `removeWall`, then the entrance/exit
openings at `start` and `finish`. -/
def generateBraided (w h : Nat) (rs : Rng) : Except String Maze :=
  match generateRecursiveBacktracker w h rs with
  | .error e => .error e
  | .ok (m0, rs1) =>
    let deadEnds := getCellsOfDegree m0 1
    let shuffled := (fisherYates deadEnds rs1).1
    let target := deadEnds.length / 2
    let res := shuffled.foldl (braidStep w h target) (m0, 0)
    .ok ((res.1.removeWall (0, 0) .W).removeWall (w - 1, h - 1) .E)

/-- Every Braided maze is wall-symmetric: the base maze is, each
dead-end removal is the paired
`cell.removeWall(dir); maze.getCell(nx, ny).removeWall(opposite[dir])`
on an in-grid candidate, and the entrance/exit writes sit on the W/E
boundary. -/
theorem generateBraided_symWalls {w h : Nat} {rs : Rng} {m : Maze}
    (hok : generateBraided w h rs = .ok m) : symWalls m := by
  rw [generateBraided] at hok
  split at hok
  · exact absurd hok (by simp)
  · rename_i m0 rs1 hrb
    dsimp only at hok
    injection hok with h1
    subst h1
    have hfold : symWalls (((fisherYates (getCellsOfDegree m0 1) rs1).1).foldl
        (braidStep w h ((getCellsOfDegree m0 1).length / 2)) (m0, 0)).1 ∧
        (((fisherYates (getCellsOfDegree m0 1) rs1).1).foldl
          (braidStep w h ((getCellsOfDegree m0 1).length / 2)) (m0, 0)).1.width = w ∧
        (((fisherYates (getCellsOfDegree m0 1) rs1).1).foldl
          (braidStep w h ((getCellsOfDegree m0 1).length / 2)) (m0, 0)).1.height = h := by
      refine foldl_invariant
        (fun (st : Maze × Nat) => symWalls st.1 ∧ st.1.width = w ∧ st.1.height = h)
        _ _ _ (generateRecursiveBacktracker_symFrame hrb) ?_
      intro p _ st hP
      rw [braidStep]
      split
      · exact hP
      · split
        · exact hP
        · split
          · exact hP
          · rename_i c cs hsort
            have hc2 : c ∈ (braidCandidates st.1 w h p).mergeSort
                (fun a b => decide (st.1.openCount b.2 ≤ st.1.openCount a.2)) := by
              rw [hsort]
              exact List.mem_cons_self _ _
            exact symFrame_carve
              (mem_braidCandidates (List.mem_mergeSort.mp hc2)) hP
    refine (symFrame_removeWall (w := w) (h := h) ?_
      (symFrame_removeWall ?_ hfold)).1
    · simp only [movePos]
      rw [if_neg (by omega)]
    · simp [movePos]

/-! ### Sparse Loop (src/src/algorithms/sparseLoop.js, working version,
default options `loopFraction = 0.12`,
`baseAlgorithm = generateRecursiveBacktracker`) -/

/-- The candidate walls between adjacent cells: for every cell and
direction, the neighbour is in the grid, the wall is present on both
sides, and the direction is the canonical `E` or `S`. -/
def sparseCandidates (m : Maze) (w h : Nat) : List (Pos × Dir × Pos) :=
  (List.range h).flatMap fun y =>
    (List.range w).flatMap fun x =>
      dirList.filterMap fun d =>
        match movePos w h (x, y) d with
        | some q =>
          if m.walls (x, y) d && m.walls q d.opposite &&
              (d == Dir.E || d == Dir.S) then
            some ((x, y), d, q)
          else none
        | none => none

theorem mem_sparseCandidates {m : Maze} {w h : Nat} {c : Pos × Dir × Pos}
    (hc : c ∈ sparseCandidates m w h) : movePos w h c.1 c.2.1 = some c.2.2 := by
  unfold sparseCandidates at hc
  obtain ⟨y, _, hc⟩ := List.mem_flatMap.mp hc
  obtain ⟨x, _, hc⟩ := List.mem_flatMap.mp hc
  obtain ⟨d, _, heq⟩ := List.mem_filterMap.mp hc
  revert heq
  split
  · rename_i q hq
    split
    · intro heq
      injection heq with heq
      subst heq
      exact hq
    · intro heq; exact absurd heq (by simp)
  · intro heq; exact absurd heq (by simp)

/-- `generateSparseLoop(width, height)` (working version, default
options): a Recursive-Backtracker base maze, the shuffled candidate
list, `numToRemove = Math.floor(candidates.length * 0.12)` paired
`removeWall` openings from its front, then the entrance/exit openings
at `start` and `finish`. -/
def generateSparseLoop (w h : Nat) (rs : Rng) : Except String Maze :=
  match generateRecursiveBacktracker w h rs with
  | .error e => .error e
  | .ok (m0, rs1) =>
    let cands := sparseCandidates m0 w h
    let shuffled := (fisherYates cands rs1).1
    let numToRemove := cands.length * 12 / 100
    let res := (shuffled.take numToRemove).foldl
      (fun mm c => mm.carve c.1 c.2.1 c.2.2) m0
    .ok ((res.removeWall (0, 0) .W).removeWall (w - 1, h - 1) .E)

/-- Every Sparse-Loop maze is wall-symmetric: the base maze is, every
loop opening is the paired
`maze.getCell(x, y).removeWall(dir); maze.getCell(nx, ny).removeWall(opposite[dir])`
on an in-grid candidate, and the entrance/exit writes sit on the W/E
boundary. -/
theorem generateSparseLoop_symWalls {w h : Nat} {rs : Rng} {m : Maze}
    (hok : generateSparseLoop w h rs = .ok m) : symWalls m := by
  rw [generateSparseLoop] at hok
  split at hok
  · exact absurd hok (by simp)
  · rename_i m0 rs1 hrb
    dsimp only at hok
    injection hok with h1
    subst h1
    have hfold : symWalls ((((fisherYates (sparseCandidates m0 w h) rs1).1).take
          ((sparseCandidates m0 w h).length * 12 / 100)).foldl
          (fun mm c => mm.carve c.1 c.2.1 c.2.2) m0) ∧
        ((((fisherYates (sparseCandidates m0 w h) rs1).1).take
          ((sparseCandidates m0 w h).length * 12 / 100)).foldl
          (fun mm c => mm.carve c.1 c.2.1 c.2.2) m0).width = w ∧
        ((((fisherYates (sparseCandidates m0 w h) rs1).1).take
          ((sparseCandidates m0 w h).length * 12 / 100)).foldl
          (fun mm c => mm.carve c.1 c.2.1 c.2.2) m0).height = h := by
      refine foldl_invariant
        (fun (mm : Maze) => symWalls mm ∧ mm.width = w ∧ mm.height = h)
        _ _ _ (generateRecursiveBacktracker_symFrame hrb) ?_
      intro c hmem mm hP
      have hc : c ∈ sparseCandidates m0 w h :=
        (fisherYates_perm (sparseCandidates m0 w h) rs1).mem_iff.mp
          (List.take_subset _ _ hmem)
      exact symFrame_carve (mem_sparseCandidates hc) hP
    refine (symFrame_removeWall (w := w) (h := h) ?_
      (symFrame_removeWall ?_ hfold)).1
    · simp only [movePos]
      rw [if_neg (by omega)]
    · simp [movePos]

/-! ### The wall-symmetry invariant across every algorithm -/

/-- A concrete successful Aldous-Broder run. -/
def abDemo : Maze :=
  (generateAldousBroder 2 2 [0, 0, 0, 0, 1]).toOption.getD (fullyWalled 2 2)

/-- A concrete successful Eller run. -/
def ellerDemo : Maze :=
  (generateEller 2 2 []).toOption.getD (fullyWalled 2 2)

/-- A concrete successful Kruskal run. -/
def kruskalDemo : Maze :=
  (generateKruskals 2 2 []).toOption.getD (fullyWalled 2 2)

/-- A concrete successful Braided run. -/
def braidDemo : Maze :=
  (generateBraided 2 2 []).toOption.getD (fullyWalled 2 2)

/-- A concrete successful Sparse-Loop run. -/
def sparseDemo : Maze :=
  (generateSparseLoop 2 2 []).toOption.getD (fullyWalled 2 2)

/-- C3: wall symmetry is an invariant of every generation algorithm and
post-processor embedded here — the twelve generators (Binary Tree,
Wilson's, Sidewinder, Hunt-and-Kill, Prim's, Recursive Backtracker,
Aldous-Broder, Eller's, Kruskal's, Braided, Sparse Loop, and the
multi-layer combinator with its seam-symmetry pass) and the two
post-processors (`ensureSinglePath`, `balanceDistribution`), which
preserve it: every carve and every wall insertion toggles both sides of
the shared edge together, and boundary-only writes cannot break an
interior pair. -/
theorem wall_symmetry_invariant :
    (∀ (w h : Nat) (rs : Rng), symWalls (generateBinaryTree w h rs)) ∧
    (∀ (w h : Nat) (rs : Rng), symWalls (generateWilsons w h rs)) ∧
    (∀ (w h : Nat) (rs : Rng), symWalls (generateSidewinder w h rs)) ∧
    (∀ (w h : Nat) (rs : Rng), symWalls (generateHuntAndKill w h rs)) ∧
    (∀ (w h : Nat) (rs : Rng), symWalls (generatePrims w h rs)) ∧
    (∀ (w h : Nat) (rs rs2 : Rng) (m : Maze),
      generateRecursiveBacktracker w h rs = .ok (m, rs2) → symWalls m) ∧
    (∀ (w h : Nat) (rs : Rng) (m : Maze),
      generateAldousBroder w h rs = .ok m → symWalls m) ∧
    (∀ (w h : Nat) (rs : Rng) (m : Maze),
      generateEller w h rs = .ok m → symWalls m) ∧
    (∀ (w h : Nat) (rs : Rng) (m : Maze),
      generateKruskals w h rs = .ok m → symWalls m) ∧
    (∀ (w h : Nat) (rs : Rng) (m : Maze),
      generateBraided w h rs = .ok m → symWalls m) ∧
    (∀ (w h : Nat) (rs : Rng) (m : Maze),
      generateSparseLoop w h rs = .ok m → symWalls m) ∧
    (∀ (w h : Nat) (o : MLOptions) (rs : Rng) (m : Maze),
      generateMultiLayer w h o rs = .ok m → symWalls m) ∧
    (∀ (m m2 : Maze) (rs : Rng), symWalls m →
      ensureSinglePath (some m) rs = .ok m2 → symWalls m2) ∧
    (∀ (m m2 : Maze) (t : BalanceTarget) (rs : Rng), symWalls m →
      balanceDistribution m t rs = .ok m2 → symWalls m2) :=
  ⟨generateBinaryTree_symWalls, generateWilsons_symWalls,
    generateSidewinder_symWalls, generateHuntAndKill_symWalls,
    generatePrims_symWalls,
    fun _ _ _ _ _ hok => (generateRecursiveBacktracker_symFrame hok).1,
    fun _ _ _ _ hok => generateAldousBroder_symWalls hok,
    fun _ _ _ _ hok => generateEller_symWalls hok,
    fun _ _ _ _ hok => generateKruskals_symWalls hok,
    fun _ _ _ _ hok => generateBraided_symWalls hok,
    fun _ _ _ _ hok => generateSparseLoop_symWalls hok,
    fun _ _ _ _ _ hok => generateMultiLayer_symWalls hok,
    fun _ _ _ hs hok => ensureSinglePath_symWalls hs hok,
    fun _ _ _ _ hs hok => balanceDistribution_symWalls hs hok⟩

/-- Witness for C3: the invariant instantiated on concrete runs of the
total generators and on concrete successful runs of the fallible ones. -/
theorem wall_symmetry_invariant_witness :
    generateRecursiveBacktracker 2 2 [] = .ok (rbDemo.1, rbDemo.2) ∧
    generateAldousBroder 2 2 [0, 0, 0, 0, 1] = .ok abDemo ∧
    generateEller 2 2 [] = .ok ellerDemo ∧
    generateKruskals 2 2 [] = .ok kruskalDemo ∧
    generateBraided 2 2 [] = .ok braidDemo ∧
    generateSparseLoop 2 2 [] = .ok sparseDemo ∧
    symWalls (generateBinaryTree 2 2 []) ∧
    symWalls (generateSidewinder 2 2 []) ∧
    symWalls (generateHuntAndKill 2 2 []) ∧
    symWalls (generatePrims 2 2 []) ∧
    symWalls rbDemo.1 ∧ symWalls abDemo ∧ symWalls ellerDemo ∧
    symWalls kruskalDemo ∧ symWalls braidDemo ∧ symWalls sparseDemo :=
  ⟨rfl, rfl, rfl, rfl, rfl, rfl,
    wall_symmetry_invariant.1 2 2 [],
    wall_symmetry_invariant.2.2.1 2 2 [],
    wall_symmetry_invariant.2.2.2.1 2 2 [],
    wall_symmetry_invariant.2.2.2.2.1 2 2 [],
    wall_symmetry_invariant.2.2.2.2.2.1 2 2 [] rbDemo.2 rbDemo.1 rfl,
    wall_symmetry_invariant.2.2.2.2.2.2.1 2 2 [0, 0, 0, 0, 1] abDemo rfl,
    wall_symmetry_invariant.2.2.2.2.2.2.2.1 2 2 [] ellerDemo rfl,
    wall_symmetry_invariant.2.2.2.2.2.2.2.2.1 2 2 [] kruskalDemo rfl,
    wall_symmetry_invariant.2.2.2.2.2.2.2.2.2.1 2 2 [] braidDemo rfl,
    wall_symmetry_invariant.2.2.2.2.2.2.2.2.2.2.1 2 2 [] sparseDemo rfl⟩

end MazeRepo
